import Mathlib

/-!
# Central Logger: shallow embedding and verified properties

The development follows the C++ sources under `Central Logger/`:

* `core/LogLevel.h`, `core/LogLevel.cpp`, `core/Log.h`, `core/Log.cpp`  (records, rendering, parsing)
* `queue/BaseQueue.h`, `queue/LogPriorityQueue.h`, `queue/LogDLQueue.h` (the two buffers)
* `thread/LogWriterThreadWorker.h`                                      (the drain worker)

Conventions.

* `size_t` is a natural number below `2 ^ 64`; additions and subtractions on it are written
  with an explicit `% 2 ^ 64`.
* `std::chrono::system_clock::time_point` is its signed 64-bit tick count (an `Int`).
* A `std::string` is a Lean `String`, one `Char` per byte.
* A `double` is a natural number standing for a multiple of `2 ^ -53`; the products and
  comparisons the queue code makes are the IEEE-754 binary64 ones, computed exactly.
* Everything that depends on the compiler or on the host (the size of a `Log` object, the
  capacity a `std::string` reports, the tick period of the system clock, the local time zone)
  is a field of `Platform`; the theorems hold for every platform.
* A blocking call is a function into `Option`: `none` means that the caller stays inside
  `m_CV.wait`.
-/

namespace CentralLogger

/-! ## Platform and machine arithmetic -/

/-- Compiler and host dependent constants used by the sources. -/
structure Platform where
  /-- The value of `sizeof(Log)`. -/
  sizeofLog : Nat
  /-- The value `capacity()` reports for a `std::string` copy holding the given number of bytes. -/
  stringCapacity : Nat → Nat
  /-- Ticks of `std::chrono::system_clock` per millisecond. -/
  ticksPerMs : Nat
  /-- Offset of local standard time from UTC in seconds (used by `localtime` and `mktime`). -/
  utcOffsetSec : Int
  /-- Whether daylight saving time is in force at an instant, given in seconds since the
  epoch. -/
  inDst : Int → Bool
  /-- Seconds by which local time is ahead of standard time while daylight saving time is in
  force. -/
  dstBiasSec : Int

/-- MSVC x64 release build on a host whose local time is UTC: 100 ns clock ticks, 32-byte
strings with a 15-byte small buffer, no daylight saving time. -/
def msvc64 : Platform where
  sizeofLog := 112
  stringCapacity := fun n => n ||| 15
  ticksPerMs := 10000
  utcOffsetSec := 0
  inDst := fun _ => false
  dstBiasSec := 3600

/-- The same build on a host in the US Eastern time zone, with the daylight saving period of
2026: from 8 March 07:00 UTC to 1 November 06:00 UTC local time is four hours behind UTC,
otherwise five. -/
def msvc64Eastern : Platform where
  sizeofLog := 112
  stringCapacity := fun n => n ||| 15
  ticksPerMs := 10000
  utcOffsetSec := -18000
  inDst := fun tt => decide (1772953200 ≤ tt) && decide (tt < 1793512800)
  dstBiasSec := 3600

/-- Number of values of `size_t`. -/
def SIZE_MOD : Nat := 2 ^ 64

/-- Addition on `size_t`. -/
def addSizeT (a b : Nat) : Nat := (a + b) % SIZE_MOD

/-- Subtraction on `size_t` (wraps around below zero). -/
def subSizeT (a b : Nat) : Nat := (a % SIZE_MOD + SIZE_MOD - b % SIZE_MOD) % SIZE_MOD

/-! ## `core/LogLevel.h`, `core/Log.h` -/

/-- The enumeration `LogLevel` with its declared values
`DEBUG = 1, INFO = 2, ERRORS = 3, WARN = 4, FATAL = 5`. -/
inductive LogLevel where
  | DEBUG
  | INFO
  | ERRORS
  | WARN
  | FATAL
  deriving DecidableEq, Repr

/-- The data members of class `Log`. -/
structure Log where
  m_Level : LogLevel
  m_SubSystemId : Int
  m_Message : String
  m_Source : String
  m_TimeStamp : Int
  m_TimeStampStr : String
  deriving DecidableEq, Repr

namespace Log

/-- The object left by `Log log;` (`Log() = default`): empty strings and the epoch; the two
scalar members are indeterminate in C++ and are given fixed values here. -/
def blank : Log :=
  { m_Level := LogLevel.DEBUG, m_SubSystemId := 0, m_Message := "", m_Source := "",
    m_TimeStamp := 0, m_TimeStampStr := "" }

/-- The accessor `Log::getTimePoint`. -/
def getTimePoint (l : Log) : Int := l.m_TimeStamp

/-- The accessor `Log::getTimestamp`. -/
def getTimestamp (l : Log) : Int := l.m_TimeStamp

/-- The accessor `Log::getLogLevel`. -/
def getLogLevel (l : Log) : LogLevel := l.m_Level

/-- The accessor `Log::getMessage`. -/
def getMessage (l : Log) : String := l.m_Message

/-- The accessor `Log::getSource`. -/
def getSource (l : Log) : String := l.m_Source

end Log

/-! ## `queue/BaseQueue.h` -/

/-- The helper `IBaseQueue::computeLogSizeInBytes`:
`sizeof(log) + log.getMessage().capacity() + log.getSource().capacity()`. -/
def computeLogSizeInBytes (P : Platform) (log : Log) : Nat :=
  (P.sizeofLog + P.stringCapacity log.getMessage.length
    + P.stringCapacity log.getSource.length) % SIZE_MOD

/-- Sum of the accounted sizes of a sequence of records (a mathematical sum, not `size_t`). -/
def totalSize (P : Platform) (logs : List Log) : Nat :=
  (logs.map (computeLogSizeInBytes P)).sum

/-! ## `queue/LogPriorityQueue.h` -/

/-- The comparator `LogTimestampCompare::operator()`. -/
def LogTimestampCompare (a b : Log) : Bool :=
  decide (a.getTimePoint > b.getTimePoint)

/-- Contract of `top()` followed by `pop()` on
`std::priority_queue<Log, std::vector<Log>, LogTimestampCompare>`: the element taken is one
that the comparator ranks below no other element; the held elements are kept in the order of
their `push`, and among equally ranked ones the earliest pushed is taken. -/
def extractTop : List Log → Option (Log × List Log)
  | [] => none
  | x :: xs =>
    match extractTop xs with
    | none => some (x, [])
    | some (y, rest) =>
      if LogTimestampCompare x y then some (y, x :: rest) else some (x, xs)

/-- The data members of class `LogPriorityQueue` (mutex and condition variable apart). -/
structure LogPriorityQueue where
  m_Queue : List Log
  m_StopFlag : Bool
  m_CurrentSizeInBytes : Nat
  m_MaxCapacityInBytes : Nat
  deriving DecidableEq, Repr

namespace LogPriorityQueue

/-- The constructor `LogPriorityQueue(maxBytesCapacity)`. -/
def mk0 (maxBytesCapacity : Nat) : LogPriorityQueue :=
  { m_Queue := [], m_StopFlag := false, m_CurrentSizeInBytes := 0,
    m_MaxCapacityInBytes := maxBytesCapacity % SIZE_MOD }

/-- The method `LogPriorityQueue::enqueueInternal`. -/
def enqueueInternal (P : Platform) (q : LogPriorityQueue) (log : Log) :
    Bool × LogPriorityQueue :=
  let logSizeInBytes := computeLogSizeInBytes P log
  if logSizeInBytes > q.m_MaxCapacityInBytes then
    (false, q)
  else if addSizeT q.m_CurrentSizeInBytes logSizeInBytes > q.m_MaxCapacityInBytes then
    (false, q)
  else
    (true, { q with m_Queue := q.m_Queue ++ [log],
                    m_CurrentSizeInBytes := addSizeT q.m_CurrentSizeInBytes logSizeInBytes })

/-- The method `LogPriorityQueue::enqueue` (the notification wakes a waiter and changes no
data member). -/
def enqueue (P : Platform) (q : LogPriorityQueue) (log : Log) : Bool × LogPriorityQueue :=
  enqueueInternal P q log

/-- The method `LogPriorityQueue::enqueueBatch`: every record is offered, the result is
always `true`. -/
def enqueueBatch (P : Platform) (q : LogPriorityQueue) (logs : List Log) :
    Bool × LogPriorityQueue :=
  (true, logs.foldl (fun s log => (enqueueInternal P s log).2) q)

/-- The method `LogPriorityQueue::dequeue`. The argument `log` is the caller's output
variable; `none` means that the wait predicate `!m_Queue.empty() || m_StopFlag` is false. -/
def dequeue (P : Platform) (q : LogPriorityQueue) (log : Log) :
    Option (Bool × Log × LogPriorityQueue) :=
  if q.m_Queue.isEmpty && !q.m_StopFlag then none
  else
    match extractTop q.m_Queue with
    | none => some (false, log, q)
    | some (t, rest) =>
      some (true, t, { q with m_Queue := rest,
                              m_CurrentSizeInBytes :=
                                subSizeT q.m_CurrentSizeInBytes (computeLogSizeInBytes P t) })

/-- The loop of `LogPriorityQueue::dequeueBatch`; the first argument is `maxCount - count`. -/
def dequeueBatchLoop (P : Platform) :
    Nat → LogPriorityQueue → List Log → Nat → Nat × List Log × LogPriorityQueue
  | 0, q, outLogs, count => (count, outLogs, q)
  | n + 1, q, outLogs, count =>
    match extractTop q.m_Queue with
    | none => (count, outLogs, q)
    | some (t, rest) =>
      dequeueBatchLoop P n
        { q with m_Queue := rest,
                 m_CurrentSizeInBytes :=
                   subSizeT q.m_CurrentSizeInBytes (computeLogSizeInBytes P t) }
        (outLogs ++ [t]) (count + 1)

/-- The method `LogPriorityQueue::dequeueBatch`; `none` means that the caller waits. -/
def dequeueBatch (P : Platform) (q : LogPriorityQueue) (outLogs : List Log) (maxCount : Nat) :
    Option (Nat × List Log × LogPriorityQueue) :=
  if q.m_Queue.isEmpty && !q.m_StopFlag then none
  else some (dequeueBatchLoop P maxCount q outLogs 0)

/-- The method `LogPriorityQueue::shutdown`. -/
def shutdown (q : LogPriorityQueue) : LogPriorityQueue :=
  { q with m_StopFlag := true }

/-- The method `LogPriorityQueue::size`. -/
def size (q : LogPriorityQueue) : Nat := q.m_Queue.length

/-- The method `LogPriorityQueue::capacityBytes`. -/
def capacityBytes (q : LogPriorityQueue) : Nat := q.m_MaxCapacityInBytes

/-- The method `LogPriorityQueue::usedBytes`. -/
def usedBytes (q : LogPriorityQueue) : Nat := q.m_CurrentSizeInBytes

/-- The method `LogPriorityQueue::empty`. -/
def empty (q : LogPriorityQueue) : Bool := q.m_Queue.isEmpty

/-- The method `LogPriorityQueue::reset`. -/
def reset (q : LogPriorityQueue) : LogPriorityQueue :=
  { q with m_CurrentSizeInBytes := 0, m_Queue := [] }

/-- Repeated `dequeue` with no `enqueue` in between: at most `n` calls, stopping at the first
call that fails or would wait. Returns the delivered records and the final buffer. -/
def drain (P : Platform) : Nat → LogPriorityQueue → List Log × LogPriorityQueue
  | 0, q => ([], q)
  | n + 1, q =>
    match dequeue P q Log.blank with
    | some (true, t, q') => ((t :: (drain P n q').1), (drain P n q').2)
    | _ => ([], q)

end LogPriorityQueue

/-- The calls a client can make on a `LogPriorityQueue`. -/
inductive PQOp where
  | enqueue (log : Log)
  | enqueueBatch (logs : List Log)
  | dequeue
  | dequeueBatch (maxCount : Nat)
  | reset
  | shutdown
  deriving Repr

namespace LogPriorityQueue

/-- The buffer after one call; a call that would wait leaves the buffer as it is. -/
def step (P : Platform) (q : LogPriorityQueue) : PQOp → LogPriorityQueue
  | PQOp.enqueue log => (q.enqueue P log).2
  | PQOp.enqueueBatch logs => (q.enqueueBatch P logs).2
  | PQOp.dequeue =>
    match q.dequeue P Log.blank with
    | some (_, _, q') => q'
    | none => q
  | PQOp.dequeueBatch maxCount =>
    match q.dequeueBatch P [] maxCount with
    | some (_, _, q') => q'
    | none => q
  | PQOp.reset => q.reset
  | PQOp.shutdown => q.shutdown

/-- The buffer after a sequence of calls. -/
def run (P : Platform) (q : LogPriorityQueue) (ops : List PQOp) : LogPriorityQueue :=
  ops.foldl (step P) q

/-- Invariant of the priority queue: the byte counter is the exact sum of the accounted sizes
of the held records and lies within the capacity, which is below `2 ^ 63`. -/
def Inv (P : Platform) (q : LogPriorityQueue) : Prop :=
  q.m_CurrentSizeInBytes = totalSize P q.m_Queue ∧
  q.m_CurrentSizeInBytes ≤ q.m_MaxCapacityInBytes ∧
  q.m_MaxCapacityInBytes < 2 ^ 63

end LogPriorityQueue

/-- A sample record: level `INFO`, subsystem 7, source `"app"`, with the given tick count and
message. -/
def sampleLog (ticks : Int) (message : String) : Log :=
  { m_Level := LogLevel.INFO, m_SubSystemId := 7, m_Message := message, m_Source := "app",
    m_TimeStamp := ticks, m_TimeStampStr := "" }

/-! ## `double` arithmetic

A finite non-negative `double` is represented by the natural number `d` whose value is
`d / 2 ^ 53`. The operations below are the IEEE-754 binary64 ones (round to nearest, ties to
even) on the values the queue code computes with. -/

/-- Number of low-order bits that have to be dropped from `n` to leave 53 bits; the first
argument bounds the recursion. -/
def excessBits : Nat → Nat → Nat
  | 0, _ => 0
  | fuel + 1, n => if n < 2 ^ 53 then 0 else excessBits fuel (n / 2) + 1

/-- Rounding of a natural number to 53 significant bits, to nearest, ties to even. -/
def round53 (n : Nat) : Nat :=
  let sh := excessBits n n
  let q := n / 2 ^ sh
  let r := n % 2 ^ sh
  if sh = 0 then n
  else if r > 2 ^ (sh - 1) ∨ (r = 2 ^ (sh - 1) ∧ q % 2 = 1) then (q + 1) * 2 ^ sh
  else q * 2 ^ sh

/-- The conversion `static_cast<double>(n)` of a `size_t`. -/
def doubleOfSizeT (n : Nat) : Nat := round53 n * 2 ^ 53

/-- The product `n * c` of a `size_t` (converted to `double`) and the `double` `c / 2 ^ 53`. -/
def sizeTimesDouble (n c : Nat) : Nat := round53 (round53 n * c)

/-- The conversion `static_cast<size_t>(d)` (truncation). -/
def sizeTOfDouble (d : Nat) : Nat := d / 2 ^ 53

/-! ## `queue/LogDLQueue.h` -/

/-- The member `m_EvictionThresholdSoft = 0.6`: the nearest `double` is
`5404319552844595 / 2 ^ 53`. -/
def m_EvictionThresholdSoft : Nat := 5404319552844595

/-- The member `m_EvictionThresholdHard = 0.9`: the nearest `double` is
`8106479329266893 / 2 ^ 53`. -/
def m_EvictionThresholdHard : Nat := 8106479329266893

/-- The member `m_EvictionStopThresholdHard = 0.7`: the nearest `double` is
`6305039478318694 / 2 ^ 53`. -/
def m_EvictionStopThresholdHard : Nat := 6305039478318694

/-- The data members of class `LogDLQueue` (mutex and constants apart); the front of the
`std::queue` is the head of the list. -/
structure LogDLQueue where
  m_Queue : List Log
  m_CurrentSizeInBytes : Nat
  m_MaxSizeInBytes : Nat
  deriving DecidableEq, Repr

namespace LogDLQueue

/-- The constructor `LogDLQueue(maxSizeInMB)`. -/
def mk0 (maxSizeInMB : Nat) : LogDLQueue :=
  { m_Queue := [], m_CurrentSizeInBytes := 0,
    m_MaxSizeInBytes := (maxSizeInMB % SIZE_MOD * 1024 * 1024) % SIZE_MOD }

/-- The soft eviction loop `while (itemsToEvict-- > 0 && !m_Queue.empty())`; the first
argument is `itemsToEvict`. -/
def softEvictLoop (P : Platform) : Nat → LogDLQueue → LogDLQueue
  | 0, q => q
  | n + 1, q =>
    match q.m_Queue with
    | [] => q
    | front :: rest =>
      softEvictLoop P n
        { q with m_CurrentSizeInBytes :=
                   subSizeT q.m_CurrentSizeInBytes (computeLogSizeInBytes P front),
                 m_Queue := rest }

/-- The hard eviction loop `while (m_CurrentSizeInBytes > targetSize && !m_Queue.empty())`,
on the queue contents and the byte counter. -/
def hardEvictLoop (P : Platform) (targetSize : Nat) : List Log → Nat → List Log × Nat
  | [], cur => ([], cur)
  | front :: rest, cur =>
    if cur > targetSize then
      hardEvictLoop P targetSize rest (subSizeT cur (computeLogSizeInBytes P front))
    else (front :: rest, cur)

/-- The soft eviction block of `LogDLQueue::enqueueInternal`. -/
def softEvict (P : Platform) (q : LogDLQueue) : LogDLQueue :=
  if doubleOfSizeT q.m_CurrentSizeInBytes >
      sizeTimesDouble q.m_MaxSizeInBytes m_EvictionThresholdSoft then
    softEvictLoop P (min 10 q.m_Queue.length) q
  else q

/-- The hard eviction block of `LogDLQueue::enqueueInternal`. -/
def hardEvict (P : Platform) (q : LogDLQueue) (logSize : Nat) : LogDLQueue :=
  if doubleOfSizeT (addSizeT q.m_CurrentSizeInBytes logSize) >
      sizeTimesDouble q.m_MaxSizeInBytes m_EvictionThresholdHard then
    let targetSize := sizeTOfDouble (sizeTimesDouble q.m_MaxSizeInBytes m_EvictionStopThresholdHard)
    { q with m_Queue := (hardEvictLoop P targetSize q.m_Queue q.m_CurrentSizeInBytes).1,
             m_CurrentSizeInBytes :=
               (hardEvictLoop P targetSize q.m_Queue q.m_CurrentSizeInBytes).2 }
  else q

/-- The method `LogDLQueue::enqueueInternal`. -/
def enqueueInternal (P : Platform) (q : LogDLQueue) (log : Log) : Bool × LogDLQueue :=
  let logSize := computeLogSizeInBytes P log
  if logSize > q.m_MaxSizeInBytes then
    (false, q)
  else
    let q₂ := hardEvict P (softEvict P q) logSize
    (true, { q₂ with m_Queue := q₂.m_Queue ++ [log],
                     m_CurrentSizeInBytes := addSizeT q₂.m_CurrentSizeInBytes logSize })

/-- The method `LogDLQueue::enqueue`. -/
def enqueue (P : Platform) (q : LogDLQueue) (log : Log) : Bool × LogDLQueue :=
  enqueueInternal P q log

/-- The method `LogDLQueue::enqueueBatch`: a record that is refused is skipped, the result is
always `true`. -/
def enqueueBatch (P : Platform) (q : LogDLQueue) (logs : List Log) : Bool × LogDLQueue :=
  (true, logs.foldl (fun s log => (enqueueInternal P s log).2) q)

/-- The method `LogDLQueue::dequeue`; `outLog` is the caller's output variable. -/
def dequeue (P : Platform) (q : LogDLQueue) (outLog : Log) : Bool × Log × LogDLQueue :=
  match q.m_Queue with
  | [] => (false, outLog, q)
  | front :: rest =>
    (true, front,
      { q with m_CurrentSizeInBytes :=
                 subSizeT q.m_CurrentSizeInBytes (computeLogSizeInBytes P front),
               m_Queue := rest })

/-- The loop of `LogDLQueue::dequeueBatch`; the first argument is `maxCount - count`. -/
def dequeueBatchLoop (P : Platform) :
    Nat → LogDLQueue → List Log → Nat → Nat × List Log × LogDLQueue
  | 0, q, outLogs, count => (count, outLogs, q)
  | n + 1, q, outLogs, count =>
    match q.m_Queue with
    | [] => (count, outLogs, q)
    | front :: rest =>
      dequeueBatchLoop P n
        { q with m_CurrentSizeInBytes :=
                   subSizeT q.m_CurrentSizeInBytes (computeLogSizeInBytes P front),
                 m_Queue := rest }
        (outLogs ++ [front]) (count + 1)

/-- The method `LogDLQueue::dequeueBatch`. -/
def dequeueBatch (P : Platform) (q : LogDLQueue) (outLogs : List Log) (maxCount : Nat) :
    Nat × List Log × LogDLQueue :=
  dequeueBatchLoop P maxCount q outLogs 0

/-- The method `LogDLQueue::size`. -/
def size (q : LogDLQueue) : Nat := q.m_Queue.length

/-- The method `LogDLQueue::currentSizeInBytes`. -/
def currentSizeInBytes (q : LogDLQueue) : Nat := q.m_CurrentSizeInBytes

/-- The method `LogDLQueue::reset`. -/
def reset (q : LogDLQueue) : LogDLQueue :=
  { q with m_CurrentSizeInBytes := 0, m_Queue := [] }

end LogDLQueue

/-- The calls a client can make on a `LogDLQueue`. -/
inductive DLQOp where
  | enqueue (log : Log)
  | enqueueBatch (logs : List Log)
  | dequeue
  | dequeueBatch (maxCount : Nat)
  | reset
  deriving Repr

namespace LogDLQueue

/-- The buffer after one call. -/
def step (P : Platform) (q : LogDLQueue) : DLQOp → LogDLQueue
  | DLQOp.enqueue log => (q.enqueue P log).2
  | DLQOp.enqueueBatch logs => (q.enqueueBatch P logs).2
  | DLQOp.dequeue => (q.dequeue P Log.blank).2.2
  | DLQOp.dequeueBatch maxCount => (q.dequeueBatch P [] maxCount).2.2
  | DLQOp.reset => q.reset

/-- The buffer after a sequence of calls. -/
def run (P : Platform) (q : LogDLQueue) (ops : List DLQOp) : LogDLQueue :=
  ops.foldl (step P) q

end LogDLQueue

/-- A record whose message is `n` copies of the byte `x` (level `INFO`, subsystem 7, source
`"app"`). -/
def paddedLog (ticks : Int) (n : Nat) : Log :=
  { m_Level := LogLevel.INFO, m_SubSystemId := 7,
    m_Message := String.mk (List.replicate n 'x'), m_Source := "app",
    m_TimeStamp := ticks, m_TimeStampStr := "" }

/-- A run of a `LogDLQueue` together with its history: the records admitted so far (those for
which `enqueueInternal` returned `true`) and the records handed out by `dequeue` and
`dequeueBatch`, both in the order of the events. -/
structure DLQTrace where
  state : LogDLQueue
  admitted : List Log
  delivered : List Log

namespace DLQTrace

/-- One record offered to `enqueueInternal`. -/
def offer (P : Platform) (t : DLQTrace) (log : Log) : DLQTrace :=
  { state := (t.state.enqueueInternal P log).2,
    admitted := if (t.state.enqueueInternal P log).1 then t.admitted ++ [log] else t.admitted,
    delivered := t.delivered }

/-- One call on the buffer, with the history it leaves. -/
def step (P : Platform) (t : DLQTrace) : DLQOp → DLQTrace
  | DLQOp.enqueue log => offer P t log
  | DLQOp.enqueueBatch logs => logs.foldl (offer P) t
  | DLQOp.dequeue =>
    { state := (t.state.dequeue P Log.blank).2.2,
      admitted := t.admitted,
      delivered :=
        if (t.state.dequeue P Log.blank).1 then
          t.delivered ++ [(t.state.dequeue P Log.blank).2.1]
        else t.delivered }
  | DLQOp.dequeueBatch maxCount =>
    { state := (t.state.dequeueBatch P [] maxCount).2.2,
      admitted := t.admitted,
      delivered := t.delivered ++ (t.state.dequeueBatch P [] maxCount).2.1 }
  | DLQOp.reset => { state := t.state.reset, admitted := t.admitted, delivered := t.delivered }

/-- A sequence of calls starting from the buffer built by `LogDLQueue(maxSizeInMB)`. -/
def run (P : Platform) (maxSizeInMB : Nat) (ops : List DLQOp) : DLQTrace :=
  ops.foldl (step P) { state := LogDLQueue.mk0 maxSizeInMB, admitted := [], delivered := [] }

/-- History invariant: the held records are the newest admitted ones, in admission order, and
everything delivered so far was taken, in order, from the admitted records before them. -/
def Fifo (t : DLQTrace) : Prop :=
  ∃ pre, t.admitted = pre ++ t.state.m_Queue ∧ t.delivered.Sublist pre

end DLQTrace

/-! ## `core/LogLevel.cpp` -/

/-- The two exception classes the code throws, with their message. -/
inductive Exception where
  | invalid_argument (what : String)
  | out_of_range (what : String)
  deriving DecidableEq, Repr

namespace LogLevelHelper

/-- The function `LogLevelHelper::getLogLevel`: the declared value of the enumerator. -/
def getLogLevel : LogLevel → Int
  | LogLevel.DEBUG => 1
  | LogLevel.INFO => 2
  | LogLevel.ERRORS => 3
  | LogLevel.WARN => 4
  | LogLevel.FATAL => 5

/-- The function `LogLevelHelper::logLevelToString`. -/
def logLevelToString : LogLevel → String
  | LogLevel.DEBUG => "DEBUG"
  | LogLevel.INFO => "INFO"
  | LogLevel.ERRORS => "ERROR"
  | LogLevel.WARN => "WARN"
  | LogLevel.FATAL => "FATAL"

/-- The function `LogLevelHelper::StringToLogLevel`. -/
def StringToLogLevel (level : String) : Except Exception LogLevel :=
  if level = "DEBUG" then Except.ok LogLevel.DEBUG
  else if level = "INFO" then Except.ok LogLevel.INFO
  else if level = "WARN" then Except.ok LogLevel.WARN
  else if level = "ERROR" then Except.ok LogLevel.ERRORS
  else if level = "FATAL" then Except.ok LogLevel.FATAL
  else Except.error (Exception.invalid_argument ("Unknown log level string provided: " ++ level))

end LogLevelHelper

/-! ## Library routines used by `core/Log.cpp` -/

/-- The character for a decimal digit `d < 10`. -/
def digitChar (d : Nat) : Char := Char.ofNat (48 + d)

/-- Whether a character is one of `0` .. `9` (`\d`, `isdigit`). -/
def isDigit (c : Char) : Bool := decide (48 ≤ c.toNat) && decide (c.toNat ≤ 57)

/-- Whether a character is white space in the "C" locale (`\s`, `isspace`). -/
def isSpace (c : Char) : Bool :=
  c = ' ' || c = '\t' || c = '\n' || c = '\x0b' || c = '\x0c' || c = '\r'

/-- Whether the regular-expression atom `.` matches a character: anything but a line
terminator. -/
def isDot (c : Char) : Bool := !(c = '\n' || c = '\r')

/-- Decimal digits of a natural number, most significant first, in front of `acc`; the first
argument bounds the recursion. -/
def decimalAux : Nat → Nat → List Char → List Char
  | 0, _, acc => acc
  | fuel + 1, n, acc =>
    if n < 10 then digitChar n :: acc
    else decimalAux fuel (n / 10) (digitChar (n % 10) :: acc)

/-- What `operator<<` writes for a non-negative integer. -/
def decimalNat (n : Nat) : List Char := decimalAux (n + 1) n []

/-- What `operator<<` writes for an integer. -/
def decimalInt : Int → List Char
  | Int.ofNat n => decimalNat n
  | Int.negSucc n => '-' :: decimalNat (n + 1)

/-- Right adjustment to the given width with the fill character (`std::setw`, `std::setfill`). -/
def padLeft (width : Nat) (fill : Char) (s : List Char) : List Char :=
  List.replicate (width - s.length) fill ++ s

/-- A two-digit field of `std::put_time` (`%H`, `%M`, `%S`). -/
def twoDigits (n : Nat) : List Char := [digitChar (n / 10 % 10), digitChar (n % 10)]

/-- The fields of `std::tm` the code uses; `tm_day` stands for the calendar date (the number
of the local day, counted from the epoch), `tm_isdst` is the daylight saving flag. -/
structure Tm where
  tm_day : Int
  tm_hour : Int
  tm_min : Int
  tm_sec : Int
  tm_isdst : Bool
  deriving DecidableEq, Repr

/-- The function `safe_localtime` (`localtime_s`, `localtime_r`): the local time at the
instant `tt`, with the offset in force at that instant, and the daylight saving flag. -/
def safe_localtime (P : Platform) (tt : Int) : Tm :=
  let loc := tt + P.utcOffsetSec + (if P.inDst tt then P.dstBiasSec else 0)
  { tm_day := loc / 86400,
    tm_hour := loc % 86400 / 3600,
    tm_min := loc % 3600 / 60,
    tm_sec := loc % 60,
    tm_isdst := P.inDst tt }

/-- The function `std::mktime` on a `tm` whose flag `tm_isdst` is set or cleared: the fields
are read as daylight saving time or as standard time as the flag says. -/
def mktime (P : Platform) (tm : Tm) : Int :=
  tm.tm_day * 86400 + tm.tm_hour * 3600 + tm.tm_min * 60 + tm.tm_sec - P.utcOffsetSec -
    (if tm.tm_isdst then P.dstBiasSec else 0)

/-- The function `system_clock::to_time_t`: whole seconds, truncated towards zero. -/
def to_time_t (P : Platform) (tp : Int) : Int := Int.tdiv tp (P.ticksPerMs * 1000)

/-- The function `system_clock::from_time_t`. -/
def from_time_t (P : Platform) (tt : Int) : Int := tt * (P.ticksPerMs * 1000)

/-- The conversion `duration_cast<milliseconds>` of a tick count (truncation towards zero). -/
def toMilliseconds (P : Platform) (ticks : Int) : Int := Int.tdiv ticks P.ticksPerMs

/-- Leading digits of the input, accumulated as a number, and the rest of the input. -/
def scanDigits : List Char → Nat → Nat × List Char
  | [], acc => (acc, [])
  | c :: cs, acc =>
    if isDigit c then scanDigits cs (acc * 10 + (c.toNat - 48)) else (acc, c :: cs)

/-- Input with leading white space removed. -/
def skipSpace : List Char → List Char
  | [] => []
  | c :: cs => if isSpace c then skipSpace cs else c :: cs

/-- An unsigned digit sequence with at least one digit. -/
def scanUnsigned : List Char → Option (Nat × List Char)
  | [] => none
  | c :: cs => if isDigit c then some (scanDigits (c :: cs) 0) else none

/-- The conversion `%d` of `sscanf`: optional white space, optional sign, digits. (The value
is the mathematical one; C leaves the result open when it does not fit an `int`.) -/
def scanInt (s : List Char) : Option (Int × List Char) :=
  match skipSpace s with
  | '-' :: rest =>
    match scanUnsigned rest with
    | some (n, rest') => some (-(n : Int), rest')
    | none => none
  | '+' :: rest =>
    match scanUnsigned rest with
    | some (n, rest') => some ((n : Int), rest')
    | none => none
  | rest =>
    match scanUnsigned rest with
    | some (n, rest') => some ((n : Int), rest')
    | none => none

/-- A literal character of a `sscanf` format. -/
def scanLit (c : Char) : List Char → Option (List Char)
  | [] => none
  | x :: xs => if x = c then some xs else none

/-- The call `sscanf_s(timeStr, "%d:%d:%d.%d", &hour, &min, &sec, &ms)`: the four values when
the result is 4, `none` otherwise. -/
def sscanfTime (timeStr : List Char) : Option (Int × Int × Int × Int) :=
  match scanInt timeStr with
  | none => none
  | some (hour, s₁) =>
    match scanLit ':' s₁ with
    | none => none
    | some s₂ =>
      match scanInt s₂ with
      | none => none
      | some (min, s₃) =>
        match scanLit ':' s₃ with
        | none => none
        | some s₄ =>
          match scanInt s₄ with
          | none => none
          | some (sec, s₅) =>
            match scanLit '.' s₅ with
            | none => none
            | some s₆ =>
              match scanInt s₆ with
              | none => none
              | some (ms, _) => some (hour, min, sec, ms)

/-- The function `std::stoi` on a non-empty digit string: the value, or `out_of_range` when it
does not fit an `int`. -/
def stoi (digits : List Char) : Except Exception Int :=
  if (scanDigits digits 0).1 > 2147483647 then
    Except.error (Exception.out_of_range "stoi argument out of range")
  else Except.ok ((scanDigits digits 0).1 : Int)

/-! ### Backtracking matcher for the regular expression of `Log::parseFromString`

A matcher takes the rest of the input and answers with the result of the first successful way
to match, in the order in which an ECMAScript backtracking matcher tries them. -/

/-- A literal character, then `k`. -/
def matchChar {α : Type} (c : Char) (k : List Char → Option α) : List Char → Option α
  | [] => none
  | x :: xs => if x = c then k xs else none

/-- One character of a class, then `k`. -/
def matchClass {α : Type} (p : Char → Bool) (k : List Char → Option α) :
    List Char → Option α
  | [] => none
  | x :: xs => if p x then k xs else none

/-- A lazy repetition `(p*?)`: the shortest capture is tried first; `acc` is the capture so
far, reversed. -/
def lazyStar {α : Type} (p : Char → Bool) (k : List Char → List Char → Option α) :
    List Char → List Char → Option α
  | acc, [] => k acc.reverse []
  | acc, x :: xs =>
    match k acc.reverse (x :: xs) with
    | some r => some r
    | none => if p x then lazyStar p k (x :: acc) xs else none

/-- A greedy repetition `(p*)`: the longest capture is tried first; `acc` is the capture so
far, reversed. -/
def greedyStar {α : Type} (p : Char → Bool) (k : List Char → List Char → Option α) :
    List Char → List Char → Option α
  | acc, [] => k acc.reverse []
  | acc, x :: xs =>
    if p x then
      match greedyStar p k (x :: acc) xs with
      | some r => some r
      | none => k acc.reverse (x :: xs)
    else k acc.reverse (x :: xs)

/-- A greedy repetition `(p+)`. -/
def greedyPlus {α : Type} (p : Char → Bool) (k : List Char → List Char → Option α) :
    List Char → Option α
  | [] => none
  | x :: xs => if p x then greedyStar p k [x] xs else none

/-- End of input (`std::regex_match` matches the whole line). -/
def matchEnd {α : Type} (r : α) : List Char → Option α
  | [] => some r
  | _ :: _ => none

/-- A capturing group `(p*?)`. -/
def lazyGroup {α : Type} (p : Char → Bool) (k : List Char → List Char → Option α) :
    List Char → Option α :=
  lazyStar p k []

/-- A capturing group `(p*)`. -/
def greedyGroup {α : Type} (p : Char → Bool) (k : List Char → List Char → Option α) :
    List Char → Option α :=
  greedyStar p k []

/-- The call `std::regex_match(logLine, match, pattern)` with the pattern
`\[(.*?)\]\[(.*?)\]\[(\d+)\]\((.*?)\)\s(.*)`: the five captures `match[1]` .. `match[5]`. -/
def regexMatchLog (logLine : List Char) :
    Option (List Char × List Char × List Char × List Char × List Char) :=
  (matchChar '[' <| lazyGroup isDot fun g₁ =>
    matchChar ']' <| matchChar '[' <| lazyGroup isDot fun g₂ =>
    matchChar ']' <| matchChar '[' <| greedyPlus isDigit fun g₃ =>
    matchChar ']' <| matchChar '(' <| lazyGroup isDot fun g₄ =>
    matchChar ')' <| matchClass isSpace <| greedyGroup isDot fun g₅ =>
    matchEnd (g₁, g₂, g₃, g₄, g₅)) logLine

/-! ## `core/Log.cpp` -/

namespace Log

/-- The constructor `Log(level, subSystemId, message, source)`; `now` is the value of
`system_clock::now()`. -/
def new (now : Int) (level : LogLevel) (subSystemId : Int) (message source : String) : Log :=
  { m_Level := level, m_SubSystemId := subSystemId, m_Message := message, m_Source := source,
    m_TimeStamp := now, m_TimeStampStr := "" }

/-- The method `Log::formatTimestamp`. -/
def formatTimestamp (P : Platform) (l : Log) : String :=
  let tt := to_time_t P l.m_TimeStamp
  let ms := Int.tmod (toMilliseconds P l.m_TimeStamp) 1000
  let tm := safe_localtime P tt
  String.mk (twoDigits tm.tm_hour.toNat ++ ':' :: twoDigits tm.tm_min.toNat ++
    ':' :: twoDigits tm.tm_sec.toNat ++ '.' :: padLeft 3 '0' (decimalInt ms))

/-- The method `Log::toString`. -/
def toString (P : Platform) (l : Log) : String :=
  "[" ++ l.formatTimestamp P ++ "]" ++
  "[" ++ LogLevelHelper.logLevelToString l.m_Level ++ "]" ++
  "[" ++ String.mk (decimalInt l.m_SubSystemId) ++ "]" ++
  "(" ++ l.m_Source ++ ") " ++
  l.m_Message

/-- The method `Log::parseFromString`; `now` is the value of `system_clock::now()`. -/
def parseFromString (P : Platform) (now : Int) (logLine : String) : Except Exception Log :=
  match regexMatchLog logLine.data with
  | none => Except.error (Exception.invalid_argument ("Invalid log format: " ++ logLine))
  | some (timeStr, levelStr, idStr, source, message) =>
    match stoi idStr with
    | Except.error e => Except.error e
    | Except.ok subsystemId =>
      match LogLevelHelper.StringToLogLevel (String.mk levelStr) with
      | Except.error e => Except.error e
      | Except.ok level =>
        let log := { Log.new now level subsystemId (String.mk message) (String.mk source) with
                     m_TimeStampStr := String.mk timeStr }
        let tm := safe_localtime P (to_time_t P now)
        match sscanfTime timeStr with
        | some (hour, min, sec, ms) =>
          let hour := if hour < 0 ∨ hour > 23 then 0 else hour
          let min := if min < 0 ∨ min > 59 then 0 else min
          let sec := if sec < 0 ∨ sec > 59 then 0 else sec
          let ms := if ms < 0 then 0 else ms
          let ms := if ms > 999 then 999 else ms
          let tt := mktime P { tm with tm_hour := hour, tm_min := min, tm_sec := sec }
          Except.ok { log with m_TimeStamp := from_time_t P tt + ms * P.ticksPerMs }
        | none => Except.ok { log with m_TimeStamp := now }

end Log

/-! ## `thread/LogWriterThreadWorker.h` -/

/-- The value of a 64-bit signed tick count after an arithmetic operation (two's complement
wrap-around). -/
def wrapInt64 (x : Int) : Int := (x + 2 ^ 63) % 2 ^ 64 - 2 ^ 63

/-- The data of a `LogWriterThread` the loop body works on: `m_Latest` and the lines written to
the sink so far. -/
structure LogWriterThread where
  m_Latest : Int
  written : List String
  deriving DecidableEq, Repr

namespace LogWriterThread

/-- The constant `BATCH_SIZE` of `LogWriterThread::run`. -/
def BATCH_SIZE : Nat := 20

/-- The constant `BACKLOG_THRESHOLD` of `LogWriterThread::run`, in milliseconds. -/
def BACKLOG_THRESHOLD : Int := 200

/-- The constructor: `m_Latest` is `system_clock::time_point::min()`. -/
def mk0 : LogWriterThread := { m_Latest := -(2 ^ 63), written := [] }

/-- The line the loop body builds for one record of the batch. -/
def finalLog (P : Platform) (w : LogWriterThread) (log : Log) : String :=
  let logTime := log.getTimestamp
  let delay := toMilliseconds P (wrapInt64 (w.m_Latest - logTime))
  if delay > BACKLOG_THRESHOLD then "[BACKLOG]" ++ log.toString P else log.toString P

/-- The body of the loop `for (const Log& log : batch)` of `LogWriterThread::run`. -/
def processLog (P : Platform) (w : LogWriterThread) (log : Log) : LogWriterThread :=
  let logTime := log.getTimestamp
  { m_Latest := if w.m_Latest < logTime then logTime else w.m_Latest,
    written := w.written ++ [finalLog P w log] }

/-- The loop `for (const Log& log : batch)` of `LogWriterThread::run`. -/
def processBatch (P : Platform) (w : LogWriterThread) (batch : List Log) : LogWriterThread :=
  batch.foldl (processLog P) w

end LogWriterThread

/-- The number read from a digit sequence, continuing from the value `a` read so far. -/
def digitsValue (a : Nat) (l : List Char) : Nat :=
  l.foldl (fun v c => v * 10 + (c.toNat - 48)) a

namespace LogPriorityQueue

/-- Number of records of a batch for which `enqueueInternal` answers `true` when the batch is
offered record by record, as the loop of `enqueueBatch` does. -/
def admittedInBatch (P : Platform) : LogPriorityQueue → List Log → Nat
  | _, [] => 0
  | q, log :: logs =>
    (if (q.enqueueInternal P log).1 then 1 else 0) +
      admittedInBatch P (q.enqueueInternal P log).2 logs

end LogPriorityQueue

/-! ## `thread/MQReaderThreadWorker.h` -/

/-- The data the loop of `MQReaderThreadWorker::run` works on: the two queues behind
`m_LogPriorityQueue` and `m_LogDLQueue`, and the local vector `localBuffer`. -/
structure MQReaderThreadWorker where
  m_LogPriorityQueue : LogPriorityQueue
  m_LogDLQueue : LogDLQueue
  localBuffer : List Log

namespace MQReaderThreadWorker

/-- The constant `BATCH_SIZE` of `MQReaderThreadWorker::run`. -/
def BATCH_SIZE : Nat := 50

/-- The condition of the dead-lettering policy,
`logEntry.getLogLevel() <= LogLevel::INFO && m_LogPriorityQueue->size() > 1000`; the
enumerators compare by their declared values. -/
def deadLettered (w : MQReaderThreadWorker) (logEntry : Log) : Bool :=
  decide (LogLevelHelper.getLogLevel logEntry.getLogLevel ≤
    LogLevelHelper.getLogLevel LogLevel.INFO) &&
  decide (w.m_LogPriorityQueue.size > 1000)

/-- The dead-lettering statement of the loop: the record goes to the dead-letter queue or is
pushed onto `localBuffer`. -/
def route (P : Platform) (w : MQReaderThreadWorker) (logEntry : Log) : MQReaderThreadWorker :=
  if w.deadLettered logEntry then
    { w with m_LogDLQueue := (w.m_LogDLQueue.enqueue P logEntry).2 }
  else
    { w with localBuffer := w.localBuffer ++ [logEntry] }

end MQReaderThreadWorker

/-! ## The render format as the specification words it -/

/-- Specification side: a field of `width` decimal digits of `n`, zero padded, most significant
digit first. -/
def zeroPaddedSpec (width n : Nat) : List Char :=
  (List.range width).reverse.map fun i => Char.ofNat (48 + n / 10 ^ i % 10)

/-- Specification side: the upper-case name of a level; the level declared as `ERRORS` has the
token `ERROR`. -/
def levelTokenSpec : LogLevel → String
  | LogLevel.DEBUG => "DEBUG"
  | LogLevel.INFO => "INFO"
  | LogLevel.WARN => "WARN"
  | LogLevel.ERRORS => "ERROR"
  | LogLevel.FATAL => "FATAL"

/-- Specification side: `HH:MM:SS.mmm` for an instant given in ticks, in local time (with the
offset from UTC in force at that instant): whole milliseconds since the epoch, split into
hour of the day, minute, second and millisecond. -/
def timeOfDaySpec (P : Platform) (ticks : Int) : String :=
  let msTotal := ticks / P.ticksPerMs
  let localSec := msTotal / 1000 + P.utcOffsetSec +
    (if P.inDst (msTotal / 1000) then P.dstBiasSec else 0)
  String.mk (zeroPaddedSpec 2 (localSec / 3600 % 24).toNat ++ [':'] ++
    zeroPaddedSpec 2 (localSec / 60 % 60).toNat ++ [':'] ++
    zeroPaddedSpec 2 (localSec % 60).toNat ++ ['.'] ++
    zeroPaddedSpec 3 (msTotal % 1000).toNat)

/-- Specification side: the line `[HH:MM:SS.mmm][LEVEL][subsystem_id](source) message`. -/
def renderSpec (P : Platform) (r : Log) : String :=
  "[" ++ timeOfDaySpec P r.m_TimeStamp ++ "][" ++ levelTokenSpec r.m_Level ++ "][" ++
    ToString.toString r.m_SubSystemId ++ "](" ++ r.m_Source ++ ") " ++ r.m_Message

/-! ## The line grammar as the specification words it -/

/-- Specification side: `line` is `[time][level][id](source)`, one white-space character and
`message`, where `id` is a non-empty digit string and no field contains a line terminator. -/
def Decomposes (line time level id source message : List Char) : Prop :=
  (∃ s, isSpace s = true ∧
    line = '[' :: (time ++ ']' :: '[' :: (level ++ ']' :: '[' :: (id ++ ']' :: '(' ::
      (source ++ ')' :: s :: message))))) ∧
  (∀ c ∈ time, isDot c = true) ∧ (∀ c ∈ level, isDot c = true) ∧
  id ≠ [] ∧ (∀ c ∈ id, isDigit c = true) ∧
  (∀ c ∈ source, isDot c = true) ∧ (∀ c ∈ message, isDot c = true)

/-- Specification side: the whole line matches the grammar
`\[(time)\]\[(level)\]\[(id)\]\((source)\)\s(message)`. -/
def MatchesGrammar (line : List Char) : Prop :=
  ∃ time level id source message, Decomposes line time level id source message

/-! ## The writer thread on the shared queues -/

namespace LogPriorityQueue

/-- The default argument `threshold = 0.6` of `isOverloaded`: the nearest `double` is
`5404319552844595 / 2 ^ 53`. -/
def overloadThreshold : Nat := 5404319552844595

/-- The quotient `a / b` of two `double`s with integer values `a` and `b > 0`, rounded to
nearest (ties to even), in units of `2 ^ -129`. The exact quotient is cut after 128 binary
places and a last bit records whether anything was cut off, which leaves the rounding to 53
significant bits unchanged. -/
def doubleQuotient (a b : Nat) : Nat :=
  round53 (2 * (a * 2 ^ 128 / b) + (if a * 2 ^ 128 % b = 0 then 0 else 1))

/-- The method `LogPriorityQueue::isOverloaded` with its default threshold:
`(static_cast<double>(usedBytes()) / capacityBytes()) > 0.6`. With capacity 0 the quotient is
infinite, or not a number when the counter is 0 as well. -/
def isOverloaded (q : LogPriorityQueue) : Bool :=
  if round53 q.capacityBytes = 0 then decide (round53 q.usedBytes > 0)
  else decide (doubleQuotient (round53 q.usedBytes) (round53 q.capacityBytes) >
    overloadThreshold * 2 ^ 76)

end LogPriorityQueue

namespace LogWriterThread

/-- The dead-letter statement of `LogWriterThread::run`: when the priority queue is not
overloaded and the dead-letter queue holds a record, one record is taken from it and written
with the prefix `[BACKLOG.DLQ]`. -/
def deadLetterStep (P : Platform) (w : LogWriterThread) (pq : LogPriorityQueue)
    (dlq : LogDLQueue) : LogWriterThread × LogDLQueue :=
  if !pq.isOverloaded && decide (dlq.size > 0) then
    if (dlq.dequeue P Log.blank).1 then
      ({ w with written := w.written ++
                  ["[BACKLOG.DLQ]" ++ (dlq.dequeue P Log.blank).2.1.toString P] },
        (dlq.dequeue P Log.blank).2.2)
    else (w, (dlq.dequeue P Log.blank).2.2)
  else (w, dlq)

end LogWriterThread

/-- Where the writer thread stands in an iteration of the loop of `run`: in the collection
loop with counter `i`, or between the collection loop and the end of the iteration. -/
inductive WriterPhase where
  | collecting (i : Nat)
  | writing
  deriving DecidableEq, Repr

/-- The two queues, the writer thread working on them (its data members, its local vector
`batch` and its position in the loop) and, as history, the records whose lines the batch loop
has written so far. -/
structure Pipeline where
  m_PriorityQueue : LogPriorityQueue
  m_DeadLetterQueue : LogDLQueue
  writer : LogWriterThread
  batch : List Log
  phase : WriterPhase
  sunk : List Log

/-- What happens in a run: a reader thread calls `enqueue` on the priority queue or on the
dead-letter queue, the priority queue is shut down, or the writer thread takes its next
step. -/
inductive PipelineEvent where
  | offer (log : Log)
  | divert (log : Log)
  | shutdown
  | writerStep

namespace Pipeline

/-- The pipeline at start: empty queues, a freshly constructed writer at the top of its
loop. -/
def mk0 (maxBytesCapacity maxSizeInMB : Nat) : Pipeline :=
  { m_PriorityQueue := LogPriorityQueue.mk0 maxBytesCapacity,
    m_DeadLetterQueue := LogDLQueue.mk0 maxSizeInMB,
    writer := LogWriterThread.mk0, batch := [], phase := WriterPhase.collecting 0, sunk := [] }

/-- The next step of the writer thread. In the collection loop it is one `dequeue` call (the
state stays as it is while the call waits; a `false` answer leaves the loop); after the loop
it is the rest of the iteration: the batch loop, the dead-letter statement, and
`batch.clear()` of the next iteration. -/
def writerStep (P : Platform) (s : Pipeline) : Pipeline :=
  match s.phase with
  | WriterPhase.collecting i =>
    if i < LogWriterThread.BATCH_SIZE then
      match s.m_PriorityQueue.dequeue P Log.blank with
      | none => s
      | some (true, log, q) =>
        { s with m_PriorityQueue := q, batch := s.batch ++ [log],
                 phase := WriterPhase.collecting (i + 1) }
      | some (false, _, q) => { s with m_PriorityQueue := q, phase := WriterPhase.writing }
    else { s with phase := WriterPhase.writing }
  | WriterPhase.writing =>
    let w := LogWriterThread.processBatch P s.writer s.batch
    { m_PriorityQueue := s.m_PriorityQueue,
      m_DeadLetterQueue := (w.deadLetterStep P s.m_PriorityQueue s.m_DeadLetterQueue).2,
      writer := (w.deadLetterStep P s.m_PriorityQueue s.m_DeadLetterQueue).1,
      batch := [], phase := WriterPhase.collecting 0, sunk := s.sunk ++ s.batch }

/-- The effect of one event. -/
def step (P : Platform) (s : Pipeline) : PipelineEvent → Pipeline
  | PipelineEvent.offer log => { s with m_PriorityQueue := (s.m_PriorityQueue.enqueue P log).2 }
  | PipelineEvent.divert log =>
    { s with m_DeadLetterQueue := (s.m_DeadLetterQueue.enqueue P log).2 }
  | PipelineEvent.shutdown => { s with m_PriorityQueue := s.m_PriorityQueue.shutdown }
  | PipelineEvent.writerStep => s.writerStep P

/-- The pipeline after a sequence of events. -/
def run (P : Platform) (s : Pipeline) (events : List PipelineEvent) : Pipeline :=
  events.foldl (step P) s

end Pipeline

/-- Whether a line of the sink starts with `[BACKLOG.DLQ]`. -/
def hasDlqPrefix (line : String) : Bool := "[BACKLOG.DLQ]".data.isPrefixOf line.data

/-- The lines of the sink that do not start with `[BACKLOG.DLQ]`. -/
def nonDlqLines (lines : List String) : List String :=
  lines.filter fun line => !hasDlqPrefix line

namespace LogWriterThread

/-- The collection loop `for (size_t i = 0; i < BATCH_SIZE; ++i)` of `LogWriterThread::run`
with no call of another thread in between; the first argument is `BATCH_SIZE - i`. A `false`
answer of `dequeue` leaves the loop; `none` means that a `dequeue` call waits. -/
def collectLoop (P : Platform) : Nat → LogPriorityQueue → List Log →
    Option (List Log × LogPriorityQueue)
  | 0, q, batch => some (batch, q)
  | n + 1, q, batch =>
    match q.dequeue P Log.blank with
    | none => none
    | some (false, _, q₁) => some (batch, q₁)
    | some (true, log, q₁) => collectLoop P n q₁ (batch ++ [log])

/-- The statements `batch.clear()` and the collection loop of one iteration. -/
def collectBatch (P : Platform) (q : LogPriorityQueue) : Option (List Log × LogPriorityQueue) :=
  collectLoop P BATCH_SIZE q []

end LogWriterThread

/-! ## `CentralLogger.cpp` -/

/-- The calls that take part in stopping the program: `ThreadWorkerPool::stopAll`,
`LogPriorityQueue::shutdown` and `BaseThreadWorker::stop` of the writer. -/
inductive SupervisorCall where
  | readerPool_stopAll
  | priorityQueue_shutdown
  | writer_stop
  deriving DecidableEq, Repr

/-- The statements of `main` after the menu loop ("Stop threads cleanly"):
`readerPool.stopAll(); writer.stop();`. -/
def mainStopSequence : List SupervisorCall :=
  [SupervisorCall.readerPool_stopAll, SupervisorCall.writer_stop]

/-- The objects `main` constructs: a priority queue with the default capacity of 15 MiB, a
dead-letter queue of 10 MiB and the writer on them. -/
def mainPipeline : Pipeline := Pipeline.mk0 (15 * 1024 * 1024) 10

/-! # Properties -/

/-! ## Lemmas on the priority queue -/

theorem extractTop_eq_none {l : List Log} : extractTop l = none ↔ l = [] := by
  cases l with
  | nil => simp [extractTop]
  | cons x xs =>
    simp only [extractTop]
    cases h : extractTop xs with
    | none => simp
    | some p =>
      obtain ⟨y, rest⟩ := p
      by_cases hc : LogTimestampCompare x y <;> simp [hc]

theorem extractTop_spec {l : List Log} {t : Log} {rest : List Log}
    (h : extractTop l = some (t, rest)) :
    t ∈ l ∧ (∀ x ∈ l, t.m_TimeStamp ≤ x.m_TimeStamp) ∧ l.Perm (t :: rest) := by
  induction l generalizing t rest with
  | nil => simp [extractTop] at h
  | cons x xs ih =>
    simp only [extractTop] at h
    cases hx : extractTop xs with
    | none =>
      rw [hx] at h
      have hnil : xs = [] := extractTop_eq_none.mp hx
      simp only [Option.some.injEq, Prod.mk.injEq] at h
      obtain ⟨rfl, rfl⟩ := h
      subst hnil
      simp
    | some p =>
      obtain ⟨y, r⟩ := p
      rw [hx] at h
      obtain ⟨hy, hmin, hperm⟩ := ih hx
      by_cases hc : LogTimestampCompare x y
      · simp only [hc, if_true, Option.some.injEq, Prod.mk.injEq] at h
        obtain ⟨rfl, rfl⟩ := h
        have hlt : y.m_TimeStamp < x.m_TimeStamp := by
          simpa [LogTimestampCompare, Log.getTimePoint] using hc
        refine ⟨List.mem_cons_of_mem _ hy, ?_, ?_⟩
        · intro z hz
          rcases List.mem_cons.mp hz with rfl | hz
          · exact le_of_lt hlt
          · exact hmin z hz
        · exact (List.Perm.cons x hperm).trans (List.Perm.swap y x r)
      · simp only [hc, Bool.false_eq_true, if_false, Option.some.injEq, Prod.mk.injEq] at h
        obtain ⟨rfl, rfl⟩ := h
        have hle : x.m_TimeStamp ≤ y.m_TimeStamp := by
          simpa [LogTimestampCompare, Log.getTimePoint] using hc
        refine ⟨List.mem_cons_self _ _, ?_, List.Perm.refl _⟩
        intro z hz
        rcases List.mem_cons.mp hz with rfl | hz
        · exact le_refl _
        · exact le_trans hle (hmin z hz)

theorem extractTop_isSome {l : List Log} (h : l ≠ []) : ∃ t rest, extractTop l = some (t, rest) := by
  cases hx : extractTop l with
  | none => exact absurd (extractTop_eq_none.mp hx) h
  | some p => exact ⟨p.1, p.2, rfl⟩

namespace LogPriorityQueue

theorem dequeue_nonempty (P : Platform) (q : LogPriorityQueue) (out : Log) (hne : q.m_Queue ≠ []) :
    ∃ t rest, extractTop q.m_Queue = some (t, rest) ∧
      q.dequeue P out = some (true, t, { q with m_Queue := rest, m_CurrentSizeInBytes := subSizeT q.m_CurrentSizeInBytes (computeLogSizeInBytes P t) }) := by
  obtain ⟨t, rest, h⟩ := extractTop_isSome hne
  refine ⟨t, rest, h, ?_⟩
  have he : q.m_Queue.isEmpty = false := by
    cases hq : q.m_Queue with
    | nil => exact absurd hq hne
    | cons a l => rfl
  simp [dequeue, he, h]

theorem drain_sorted (P : Platform) (n : Nat) (q : LogPriorityQueue) (hn : q.m_Queue.length ≤ n) :
    (drain P n q).1.Pairwise (fun a b => a.m_TimeStamp ≤ b.m_TimeStamp) ∧
    (drain P n q).1.Perm q.m_Queue ∧ (drain P n q).2.m_Queue = [] := by
  induction n generalizing q with
  | zero =>
    have : q.m_Queue = [] := List.length_eq_zero.mp (Nat.le_zero.mp hn)
    simp [drain, this]
  | succ n ih =>
    by_cases hne : q.m_Queue = []
    · have hd : drain P (n + 1) q = ([], q) := by
        simp only [drain, dequeue, hne, extractTop, List.isEmpty_nil, Bool.true_and]
        cases q.m_StopFlag <;> simp
      simp [hd, hne]
    · obtain ⟨t, rest, hx, hd⟩ := dequeue_nonempty P q Log.blank hne
      obtain ⟨-, hmin, hperm⟩ := extractTop_spec hx
      have hlen : rest.length ≤ n := by
        have := hperm.length_eq
        simp at this; omega
      obtain ⟨ih1, ih2, ih3⟩ := ih { q with m_Queue := rest, m_CurrentSizeInBytes := subSizeT q.m_CurrentSizeInBytes (computeLogSizeInBytes P t) } hlen
      simp only [drain, hd]
      refine ⟨?_, ?_, ih3⟩
      · refine List.pairwise_cons.mpr ⟨?_, ih1⟩
        intro x hxmem
        have : x ∈ rest := ih2.subset hxmem
        exact hmin x (hperm.symm.subset (List.mem_cons_of_mem _ this))
      · exact (List.Perm.cons t ih2).trans hperm.symm

end LogPriorityQueue

theorem computeLogSizeInBytes_lt (P : Platform) (r : Log) :
    computeLogSizeInBytes P r < 2 ^ 64 := by
  unfold computeLogSizeInBytes SIZE_MOD
  exact Nat.mod_lt _ (by norm_num)

theorem addSizeT_eq {a b : Nat} (h : a + b < 2 ^ 64) : addSizeT a b = a + b := by
  unfold addSizeT SIZE_MOD
  exact Nat.mod_eq_of_lt h

theorem subSizeT_eq {a b : Nat} (hb : b ≤ a) (ha : a < 2 ^ 64) : subSizeT a b = a - b := by
  unfold subSizeT SIZE_MOD
  have hb' : b < 2 ^ 64 := lt_of_le_of_lt hb ha
  rw [Nat.mod_eq_of_lt ha, Nat.mod_eq_of_lt hb']
  have : a + 2 ^ 64 - b = (a - b) + 2 ^ 64 := by omega
  rw [this, Nat.add_mod_right]
  exact Nat.mod_eq_of_lt (by omega)

theorem totalSize_nil (P : Platform) : totalSize P [] = 0 := rfl

theorem totalSize_cons (P : Platform) (r : Log) (l : List Log) :
    totalSize P (r :: l) = computeLogSizeInBytes P r + totalSize P l := by
  simp [totalSize]

theorem totalSize_append (P : Platform) (l₁ l₂ : List Log) :
    totalSize P (l₁ ++ l₂) = totalSize P l₁ + totalSize P l₂ := by
  simp [totalSize]

theorem totalSize_perm (P : Platform) {l₁ l₂ : List Log} (h : l₁.Perm l₂) :
    totalSize P l₁ = totalSize P l₂ := by
  unfold totalSize
  exact (h.map _).sum_eq

theorem size_le_totalSize (P : Platform) {l : List Log} {r : Log} (h : r ∈ l) :
    computeLogSizeInBytes P r ≤ totalSize P l := by
  induction l with
  | nil => simp at h
  | cons x xs ih =>
    rw [totalSize_cons]
    rcases List.mem_cons.mp h with rfl | h
    · omega
    · have := ih h; omega

namespace LogPriorityQueue

theorem enqueueInternal_eq (P : Platform) (q : LogPriorityQueue) (r : Log)
    (hcap : q.m_MaxCapacityInBytes < 2 ^ 63)
    (hused : q.m_CurrentSizeInBytes ≤ q.m_MaxCapacityInBytes) :
    q.enqueueInternal P r =
      if q.m_CurrentSizeInBytes + computeLogSizeInBytes P r ≤ q.m_MaxCapacityInBytes then
        (true, { q with m_Queue := q.m_Queue ++ [r],
                        m_CurrentSizeInBytes :=
                          q.m_CurrentSizeInBytes + computeLogSizeInBytes P r })
      else (false, q) := by
  unfold enqueueInternal
  by_cases h1 : computeLogSizeInBytes P r > q.m_MaxCapacityInBytes
  · have : ¬ (q.m_CurrentSizeInBytes + computeLogSizeInBytes P r ≤ q.m_MaxCapacityInBytes) := by
      omega
    simp [h1, this]
  · have hadd : addSizeT q.m_CurrentSizeInBytes (computeLogSizeInBytes P r) =
        q.m_CurrentSizeInBytes + computeLogSizeInBytes P r := addSizeT_eq (by omega)
    simp only [h1, if_false, hadd]
    by_cases h2 : q.m_CurrentSizeInBytes + computeLogSizeInBytes P r ≤ q.m_MaxCapacityInBytes
    · have : ¬ (q.m_CurrentSizeInBytes + computeLogSizeInBytes P r > q.m_MaxCapacityInBytes) := by
        omega
      simp [h2, this]
    · have : q.m_CurrentSizeInBytes + computeLogSizeInBytes P r > q.m_MaxCapacityInBytes := by
        omega
      simp [h2, this]

theorem Inv_enqueueInternal (P : Platform) (q : LogPriorityQueue) (r : Log) (h : Inv P q) :
    Inv P (q.enqueueInternal P r).2 := by
  obtain ⟨h1, h2, h3⟩ := h
  rw [enqueueInternal_eq P q r h3 h2]
  by_cases hc : q.m_CurrentSizeInBytes + computeLogSizeInBytes P r ≤ q.m_MaxCapacityInBytes
  · simp only [hc, if_true]
    refine ⟨?_, hc, h3⟩
    simp [totalSize_append, totalSize_cons, totalSize_nil, h1]
  · simp only [hc, if_false]
    exact ⟨h1, h2, h3⟩

theorem Inv_enqueueBatch (P : Platform) (logs : List Log) (q : LogPriorityQueue) (h : Inv P q) :
    Inv P (q.enqueueBatch P logs).2 := by
  unfold enqueueBatch
  induction logs generalizing q with
  | nil => simpa using h
  | cons r rs ih => exact ih _ (Inv_enqueueInternal P q r h)

theorem Inv_pop (P : Platform) (q : LogPriorityQueue) (t : Log) (rest : List Log)
    (h : Inv P q) (hx : extractTop q.m_Queue = some (t, rest)) :
    computeLogSizeInBytes P t ≤ q.m_CurrentSizeInBytes ∧
    Inv P { q with m_Queue := rest,
                   m_CurrentSizeInBytes :=
                     subSizeT q.m_CurrentSizeInBytes (computeLogSizeInBytes P t) } := by
  obtain ⟨h1, h2, h3⟩ := h
  obtain ⟨-, -, hperm⟩ := extractTop_spec hx
  have hsum := totalSize_perm P hperm
  rw [totalSize_cons] at hsum
  have hle : computeLogSizeInBytes P t ≤ q.m_CurrentSizeInBytes := by omega
  refine ⟨hle, ?_, ?_, h3⟩
  · show subSizeT _ _ = totalSize P rest
    rw [subSizeT_eq hle (by omega)]; omega
  · show subSizeT _ _ ≤ q.m_MaxCapacityInBytes
    rw [subSizeT_eq hle (by omega)]; omega

theorem Inv_dequeue (P : Platform) (q : LogPriorityQueue) (out : Log) (h : Inv P q)
    (b : Bool) (t : Log) (q' : LogPriorityQueue) (hd : q.dequeue P out = some (b, t, q')) :
    Inv P q' := by
  unfold dequeue at hd
  split at hd
  · simp at hd
  · cases hx : extractTop q.m_Queue with
    | none =>
      rw [hx] at hd
      simp only [Option.some.injEq, Prod.mk.injEq] at hd
      obtain ⟨-, -, rfl⟩ := hd
      exact h
    | some p =>
      obtain ⟨t', rest⟩ := p
      rw [hx] at hd
      simp only [Option.some.injEq, Prod.mk.injEq] at hd
      obtain ⟨-, -, rfl⟩ := hd
      exact (Inv_pop P q t' rest h hx).2

theorem Inv_dequeueBatchLoop (P : Platform) (n : Nat) (q : LogPriorityQueue) (out : List Log)
    (count : Nat) (h : Inv P q) : Inv P (dequeueBatchLoop P n q out count).2.2 := by
  induction n generalizing q out count with
  | zero => simpa [dequeueBatchLoop] using h
  | succ n ih =>
    unfold dequeueBatchLoop
    cases hx : extractTop q.m_Queue with
    | none => simpa using h
    | some p =>
      obtain ⟨t, rest⟩ := p
      exact ih _ _ _ (Inv_pop P q t rest h hx).2

theorem Inv_step (P : Platform) (q : LogPriorityQueue) (op : PQOp) (h : Inv P q) :
    Inv P (q.step P op) := by
  cases op with
  | enqueue log => exact Inv_enqueueInternal P q log h
  | enqueueBatch logs => exact Inv_enqueueBatch P logs q h
  | dequeue =>
    simp only [step]
    cases hd : q.dequeue P Log.blank with
    | none => exact h
    | some p =>
      obtain ⟨b, t, q'⟩ := p
      exact Inv_dequeue P q _ h b t q' hd
  | dequeueBatch maxCount =>
    simp only [step, dequeueBatch]
    by_cases hw : (q.m_Queue.isEmpty && !q.m_StopFlag) = true
    · simpa [hw] using h
    · simpa [hw] using Inv_dequeueBatchLoop P maxCount q [] 0 h
  | reset =>
    obtain ⟨-, -, h3⟩ := h
    exact ⟨rfl, Nat.zero_le _, h3⟩
  | shutdown => exact h

theorem Inv_run (P : Platform) (ops : List PQOp) (q : LogPriorityQueue) (h : Inv P q) :
    Inv P (q.run P ops) := by
  unfold run
  induction ops generalizing q with
  | nil => exact h
  | cons op ops ih => exact ih _ (Inv_step P q op h)

theorem Inv_mk0 (P : Platform) (cap : Nat) (h : cap < 2 ^ 63) : Inv P (mk0 cap) := by
  have : cap % SIZE_MOD = cap := Nat.mod_eq_of_lt (by unfold SIZE_MOD; omega)
  exact ⟨rfl, Nat.zero_le _, by show cap % SIZE_MOD < 2 ^ 63; rw [this]; exact h⟩

end LogPriorityQueue

namespace LogPriorityQueue

theorem enqueue_fits (P : Platform) (l : List Log) (f : Bool) (used cap : Nat) (r : Log)
    (hcap : cap < 2 ^ 63) (hfit : used + computeLogSizeInBytes P r ≤ cap) :
    enqueue P (LogPriorityQueue.mk l f used cap) r =
      (true, LogPriorityQueue.mk (l ++ [r]) f (used + computeLogSizeInBytes P r) cap) := by
  unfold enqueue
  rw [enqueueInternal_eq P _ r hcap (by show used ≤ cap; omega)]
  exact if_pos hfit

theorem enqueue_over (P : Platform) (l : List Log) (f : Bool) (used cap : Nat) (r : Log)
    (hcap : cap < 2 ^ 63) (hused : used ≤ cap)
    (hover : ¬ used + computeLogSizeInBytes P r ≤ cap) :
    enqueue P (LogPriorityQueue.mk l f used cap) r = (false, LogPriorityQueue.mk l f used cap) := by
  unfold enqueue
  rw [enqueueInternal_eq P _ r hcap hused]
  exact if_neg hover

theorem enqueueInternal_cap (P : Platform) (q : LogPriorityQueue) (r : Log) :
    (q.enqueueInternal P r).2.m_MaxCapacityInBytes = q.m_MaxCapacityInBytes := by
  unfold enqueueInternal
  simp only []
  split
  · rfl
  · split <;> rfl

theorem dequeueBatchLoop_cap (P : Platform) (n : Nat) (q : LogPriorityQueue) (out : List Log)
    (count : Nat) :
    (dequeueBatchLoop P n q out count).2.2.m_MaxCapacityInBytes = q.m_MaxCapacityInBytes := by
  induction n generalizing q out count with
  | zero => rfl
  | succ n ih =>
    unfold dequeueBatchLoop
    cases hx : extractTop q.m_Queue with
    | none => rfl
    | some p =>
      obtain ⟨t, rest⟩ := p
      simp only []
      rw [ih]

theorem step_cap (P : Platform) (q : LogPriorityQueue) (op : PQOp) :
    (q.step P op).m_MaxCapacityInBytes = q.m_MaxCapacityInBytes := by
  cases op with
  | enqueue log => exact enqueueInternal_cap P q log
  | enqueueBatch logs =>
    simp only [step, enqueueBatch]
    induction logs generalizing q with
    | nil => rfl
    | cons r rs ih =>
      simp only [List.foldl_cons]
      rw [ih, enqueueInternal_cap]
  | dequeue =>
    simp only [step]
    cases hd : q.dequeue P Log.blank with
    | none => rfl
    | some p =>
      obtain ⟨b, t, q'⟩ := p
      unfold dequeue at hd
      split at hd
      · simp at hd
      · cases hx : extractTop q.m_Queue with
        | none =>
          rw [hx] at hd
          simp only [Option.some.injEq, Prod.mk.injEq] at hd
          obtain ⟨-, -, rfl⟩ := hd
          rfl
        | some p =>
          rw [hx] at hd
          simp only [Option.some.injEq, Prod.mk.injEq] at hd
          obtain ⟨-, -, rfl⟩ := hd
          rfl
  | dequeueBatch maxCount =>
    simp only [step, dequeueBatch]
    by_cases hw : (q.m_Queue.isEmpty && !q.m_StopFlag) = true
    · simp [hw]
    · simpa [hw] using dequeueBatchLoop_cap P maxCount q [] 0
  | reset => rfl
  | shutdown => rfl

theorem run_cap (P : Platform) (ops : List PQOp) (q : LogPriorityQueue) :
    (q.run P ops).m_MaxCapacityInBytes = q.m_MaxCapacityInBytes := by
  unfold run
  induction ops generalizing q with
  | nil => rfl
  | cons op ops ih =>
    simp only [List.foldl_cons]
    rw [ih, step_cap]

theorem enqueue_three (P : Platform) (cap : Nat) (a b c : Log)
    (hcap : totalSize P [a, b, c] ≤ cap) (hcap' : cap < 2 ^ 63) :
    ((((mk0 cap).enqueue P a).2.enqueue P b).2.enqueue P c).2 =
      LogPriorityQueue.mk [a, b, c] false (totalSize P [a, b, c]) cap := by
  have hm : cap % SIZE_MOD = cap := Nat.mod_eq_of_lt (by unfold SIZE_MOD; omega)
  simp only [totalSize_cons, totalSize_nil] at hcap ⊢
  have e0 : mk0 cap = LogPriorityQueue.mk [] false 0 cap := by simp [mk0, hm]
  rw [e0, enqueue_fits P _ _ _ _ a hcap' (by omega)]
  simp only []
  rw [enqueue_fits P _ _ _ _ b hcap' (by omega)]
  simp only []
  rw [enqueue_fits P _ _ _ _ c hcap' (by omega)]
  simp [Nat.add_assoc]

end LogPriorityQueue

/-! ## The priority buffer: ordering, admission, byte budget -/

open LogPriorityQueue in
/-- C1 (PriorityBuffer ordering). On a buffer that holds at least one record `dequeue` returns;
the record it delivers is one of the held records, its timestamp is less than or equal to the
timestamp of every held record, and exactly that record leaves the buffer. Draining the
buffer by repeated `dequeue` therefore delivers all held records in non-decreasing timestamp
order and leaves the buffer empty. Records with timestamps `T`, `T - 5 ms`, `T + 2 ms`
admitted in that order to an empty buffer that has room for them are delivered in the order
`T - 5 ms`, `T`, `T + 2 ms`. -/
theorem priority_dequeue_earliest_first (P : Platform) (q : LogPriorityQueue) (out : Log)
    (hne : q.m_Queue ≠ []) :
    (∃ t q', q.dequeue P out = some (true, t, q') ∧ t ∈ q.m_Queue ∧
        (∀ x ∈ q.m_Queue, t.m_TimeStamp ≤ x.m_TimeStamp) ∧ q.m_Queue.Perm (t :: q'.m_Queue)) ∧
    ((drain P q.size q).1.Pairwise (fun x y => x.m_TimeStamp ≤ y.m_TimeStamp) ∧
      (drain P q.size q).1.Perm q.m_Queue ∧ (drain P q.size q).2.m_Queue = []) ∧
    (∀ (cap : Nat) (T : Int) (a b c : Log), 0 < P.ticksPerMs →
      a.m_TimeStamp = T → b.m_TimeStamp = T - 5 * P.ticksPerMs →
      c.m_TimeStamp = T + 2 * P.ticksPerMs → totalSize P [a, b, c] ≤ cap → cap < 2 ^ 63 →
      (drain P 3 ((((mk0 cap).enqueue P a).2.enqueue P b).2.enqueue P c).2).1 = [b, a, c]) := by
  refine ⟨?_, drain_sorted P q.size q (le_refl _), ?_⟩
  · obtain ⟨t, rest, hx, hd⟩ := dequeue_nonempty P q out hne
    obtain ⟨h1, h2, h3⟩ := extractTop_spec hx
    exact ⟨t, _, hd, h1, h2, h3⟩
  · intro cap T a b c htick ha hb hc hcap hcap'
    rw [enqueue_three P cap a b c hcap hcap']
    have hk : (0 : Int) < (P.ticksPerMs : Int) := by exact_mod_cast htick
    have c1 : ¬ (b.m_TimeStamp > c.m_TimeStamp) := by rw [hb, hc]; omega
    have c2 : a.m_TimeStamp > b.m_TimeStamp := by rw [ha, hb]; omega
    have c3 : ¬ (a.m_TimeStamp > c.m_TimeStamp) := by rw [ha, hc]; omega
    simp [drain, dequeue, extractTop, LogTimestampCompare, Log.getTimePoint, c1, c2, c3]



open LogPriorityQueue in
theorem priority_dequeue_earliest_first_witness :
    (LogPriorityQueue.mk [sampleLog 900 "x"] false 142 1000).m_Queue ≠ [] ∧
    (drain msvc64 3 ((((mk0 1000).enqueue msvc64 (sampleLog 60000 "first")).2.enqueue msvc64
      (sampleLog 10000 "second")).2.enqueue msvc64 (sampleLog 80000 "third")).2).1 =
      [sampleLog 10000 "second", sampleLog 60000 "first", sampleLog 80000 "third"] :=
  ⟨by simp, (priority_dequeue_earliest_first msvc64
    (LogPriorityQueue.mk [sampleLog 900 "x"] false 142 1000) Log.blank (by simp)).2.2 1000 60000
    (sampleLog 60000 "first") (sampleLog 10000 "second") (sampleLog 80000 "third")
    (by decide) rfl (by decide) (by decide) (by decide) (by norm_num)⟩

open LogPriorityQueue in
/-- C2 (PriorityBuffer admission). For a buffer whose byte counter is within its capacity
(capacity below `2 ^ 63`, so that the `size_t` sum cannot wrap), `enqueue r` returns `false`
exactly when the accounted size `s` of `r` exceeds the capacity or `used_bytes + s` exceeds
it, and then the buffer is unchanged; otherwise it returns `true`, `r` is added to the held
records and `used_bytes` grows by exactly `s`. With a capacity of exactly two records of size
`s > 0`, three such records offered to the empty buffer are answered `true`, `true`, `false`
and the buffer then holds exactly the first two. -/
theorem priority_enqueue_admission (P : Platform) (q : LogPriorityQueue) (r : Log)
    (hcap : q.m_MaxCapacityInBytes < 2 ^ 63)
    (hused : q.m_CurrentSizeInBytes ≤ q.m_MaxCapacityInBytes) :
    ((q.enqueue P r).1 = false ↔
      (computeLogSizeInBytes P r > q.m_MaxCapacityInBytes ∨
        q.m_CurrentSizeInBytes + computeLogSizeInBytes P r > q.m_MaxCapacityInBytes)) ∧
    ((q.enqueue P r).1 = false → (q.enqueue P r).2 = q) ∧
    ((q.enqueue P r).1 = true →
      (q.enqueue P r).2.m_Queue = q.m_Queue ++ [r] ∧
      (q.enqueue P r).2.m_CurrentSizeInBytes =
        q.m_CurrentSizeInBytes + computeLogSizeInBytes P r ∧
      (q.enqueue P r).2.m_MaxCapacityInBytes = q.m_MaxCapacityInBytes) ∧
    (∀ (a b c : Log) (s : Nat), 0 < s → 2 * s < 2 ^ 63 →
      computeLogSizeInBytes P a = s → computeLogSizeInBytes P b = s →
      computeLogSizeInBytes P c = s →
      ((mk0 (2 * s)).enqueue P a).1 = true ∧
      (((mk0 (2 * s)).enqueue P a).2.enqueue P b).1 = true ∧
      ((((mk0 (2 * s)).enqueue P a).2.enqueue P b).2.enqueue P c).1 = false ∧
      ((((mk0 (2 * s)).enqueue P a).2.enqueue P b).2.enqueue P c).2.m_Queue = [a, b]) := by
  refine ⟨?_, ?_, ?_, ?_⟩
  · unfold enqueue
    rw [enqueueInternal_eq P q r hcap hused]
    by_cases h : q.m_CurrentSizeInBytes + computeLogSizeInBytes P r ≤ q.m_MaxCapacityInBytes
    · simp only [h, if_true]
      constructor
      · intro hf; cases hf
      · intro hor; omega
    · simp only [h, if_false, true_iff]
      right; omega
  · unfold enqueue
    rw [enqueueInternal_eq P q r hcap hused]
    by_cases h : q.m_CurrentSizeInBytes + computeLogSizeInBytes P r ≤ q.m_MaxCapacityInBytes
    · simp [h]
    · simp [h]
  · unfold enqueue
    rw [enqueueInternal_eq P q r hcap hused]
    by_cases h : q.m_CurrentSizeInBytes + computeLogSizeInBytes P r ≤ q.m_MaxCapacityInBytes
    · simp [h]
    · simp [h]
  · intro a b c s hs hs' ha hb hc
    have hm : (2 * s) % SIZE_MOD = 2 * s := Nat.mod_eq_of_lt (by unfold SIZE_MOD; omega)
    have e0 : mk0 (2 * s) = LogPriorityQueue.mk [] false 0 (2 * s) := by simp [mk0, hm]
    rw [e0, enqueue_fits P _ _ _ _ a hs' (by omega)]
    simp only []
    rw [enqueue_fits P _ _ _ _ b hs' (by omega)]
    simp only [true_and, List.nil_append, List.singleton_append]
    rw [enqueue_over P _ _ _ _ c hs' (by omega) (by omega)]
    exact ⟨rfl, rfl⟩

open LogPriorityQueue in
theorem priority_enqueue_admission_witness :
    ((((mk0 (2 * 142)).enqueue msvc64 (sampleLog 1 "a")).2.enqueue msvc64 (sampleLog 2 "b")).2.enqueue
      msvc64 (sampleLog 3 "c")).1 = false ∧
    ((((mk0 (2 * 142)).enqueue msvc64 (sampleLog 1 "a")).2.enqueue msvc64 (sampleLog 2 "b")).2.enqueue
      msvc64 (sampleLog 3 "c")).2.m_Queue = [sampleLog 1 "a", sampleLog 2 "b"] :=
  ((priority_enqueue_admission msvc64 (mk0 (2 * 142)) (sampleLog 1 "a") (by decide)
    (by decide)).2.2.2 (sampleLog 1 "a") (sampleLog 2 "b") (sampleLog 3 "c") 142 (by decide)
    (by decide) (by decide) (by decide) (by decide)).2.2

open LogPriorityQueue in
/-- C3 (PriorityBuffer byte budget). In every state reached from the empty buffer of capacity
`cap < 2 ^ 63` by any sequence of `enqueue`, `enqueueBatch`, `dequeue`, `dequeueBatch`, `reset`
(and `shutdown`) calls, `0 ≤ used_bytes ≤ capacity_bytes = cap`, and the accounted size of
every held record is at most `used_bytes`, so that the subtraction made when a record is
removed never wraps below zero. -/
theorem priority_byte_budget (P : Platform) (cap : Nat) (ops : List PQOp)
    (hcap : cap < 2 ^ 63) :
    0 ≤ ((mk0 cap).run P ops).m_CurrentSizeInBytes ∧
    ((mk0 cap).run P ops).m_CurrentSizeInBytes ≤ ((mk0 cap).run P ops).m_MaxCapacityInBytes ∧
    ((mk0 cap).run P ops).m_MaxCapacityInBytes = cap ∧
    (∀ r ∈ ((mk0 cap).run P ops).m_Queue,
      computeLogSizeInBytes P r ≤ ((mk0 cap).run P ops).m_CurrentSizeInBytes) := by
  have h := Inv_run P ops (mk0 cap) (Inv_mk0 P cap hcap)
  obtain ⟨h1, h2, h3⟩ := h
  refine ⟨Nat.zero_le _, h2, ?_, ?_⟩
  · rw [run_cap]
    exact Nat.mod_eq_of_lt (by unfold SIZE_MOD; omega)
  · intro r hr
    rw [h1]
    exact size_le_totalSize P hr

open LogPriorityQueue in
theorem priority_byte_budget_witness :
    ((mk0 300).run msvc64 [PQOp.enqueue (sampleLog 5 "a"), PQOp.enqueue (sampleLog 3 "b"),
      PQOp.dequeue, PQOp.enqueueBatch [sampleLog 1 "c", sampleLog 2 "d"],
      PQOp.dequeueBatch 1]).m_CurrentSizeInBytes ≤
    ((mk0 300).run msvc64 [PQOp.enqueue (sampleLog 5 "a"), PQOp.enqueue (sampleLog 3 "b"),
      PQOp.dequeue, PQOp.enqueueBatch [sampleLog 1 "c", sampleLog 2 "d"],
      PQOp.dequeueBatch 1]).m_MaxCapacityInBytes :=
  (priority_byte_budget msvc64 300 [PQOp.enqueue (sampleLog 5 "a"),
    PQOp.enqueue (sampleLog 3 "b"), PQOp.dequeue,
    PQOp.enqueueBatch [sampleLog 1 "c", sampleLog 2 "d"], PQOp.dequeueBatch 1]
    (by norm_num)).2.1

/-! ## Lemmas on the dead-letter queue -/

theorem paddedLog_size (t : Int) (n : Nat) :
    computeLogSizeInBytes msvc64 (paddedLog t n) = (112 + (n ||| 15) + 15) % 2 ^ 64 := by
  simp [computeLogSizeInBytes, paddedLog, msvc64, Log.getMessage, Log.getSource, String.length,
    SIZE_MOD]

namespace LogDLQueue

theorem softEvictLoop_queue (P : Platform) (n : Nat) (q : LogDLQueue) :
    (softEvictLoop P n q).m_Queue = q.m_Queue.drop (min n q.m_Queue.length) ∧
    (softEvictLoop P n q).m_MaxSizeInBytes = q.m_MaxSizeInBytes := by
  induction n generalizing q with
  | zero => simp [softEvictLoop]
  | succ n ih =>
    unfold softEvictLoop
    cases hq : q.m_Queue with
    | nil => simp [hq]
    | cons front rest =>
      simp only []
      obtain ⟨h1, h2⟩ := ih (LogDLQueue.mk rest
        (subSizeT q.m_CurrentSizeInBytes (computeLogSizeInBytes P front)) q.m_MaxSizeInBytes)
      rw [h1, h2]
      simp [Nat.succ_min_succ]

theorem hardEvictLoop_queue (P : Platform) (target : Nat) (l : List Log) (cur : Nat) :
    ∃ k, (hardEvictLoop P target l cur).1 = l.drop k := by
  induction l generalizing cur with
  | nil => exact ⟨0, rfl⟩
  | cons front rest ih =>
    unfold hardEvictLoop
    by_cases h : cur > target
    · obtain ⟨k, hk⟩ := ih (subSizeT cur (computeLogSizeInBytes P front))
      exact ⟨k + 1, by simp [h, hk]⟩
    · exact ⟨0, by simp [h]⟩

theorem softEvict_queue (P : Platform) (q : LogDLQueue) :
    (∃ k, (softEvict P q).m_Queue = q.m_Queue.drop k) ∧
    (softEvict P q).m_MaxSizeInBytes = q.m_MaxSizeInBytes := by
  unfold softEvict
  split
  · exact ⟨⟨_, (softEvictLoop_queue P _ q).1⟩, (softEvictLoop_queue P _ q).2⟩
  · exact ⟨⟨0, rfl⟩, rfl⟩

theorem hardEvict_queue (P : Platform) (q : LogDLQueue) (s : Nat) :
    (∃ k, (hardEvict P q s).m_Queue = q.m_Queue.drop k) ∧
    (hardEvict P q s).m_MaxSizeInBytes = q.m_MaxSizeInBytes := by
  unfold hardEvict
  split
  · exact ⟨hardEvictLoop_queue P _ _ _, rfl⟩
  · exact ⟨⟨0, rfl⟩, rfl⟩

theorem dlq_enqueueInternal_queue (P : Platform) (q : LogDLQueue) (r : Log) :
    ∃ k, (q.enqueueInternal P r).2.m_Queue =
      q.m_Queue.drop k ++ (if (q.enqueueInternal P r).1 then [r] else []) := by
  unfold enqueueInternal
  simp only []
  split
  · exact ⟨0, by simp⟩
  · obtain ⟨⟨k1, h1⟩, -⟩ := softEvict_queue P q
    obtain ⟨⟨k2, h2⟩, -⟩ := hardEvict_queue P (softEvict P q) (computeLogSizeInBytes P r)
    refine ⟨k1 + k2, ?_⟩
    simp [h2, h1, List.drop_drop, Nat.add_comm]

theorem dlq_dequeueBatchLoop_queue (P : Platform) (n : Nat) (q : LogDLQueue) (out : List Log)
    (count : Nat) :
    ∃ k, (dequeueBatchLoop P n q out count).2.1 = out ++ q.m_Queue.take k ∧
      (dequeueBatchLoop P n q out count).2.2.m_Queue = q.m_Queue.drop k := by
  induction n generalizing q out count with
  | zero => exact ⟨0, by simp [dequeueBatchLoop]⟩
  | succ n ih =>
    unfold dequeueBatchLoop
    cases hq : q.m_Queue with
    | nil => exact ⟨0, by simp [hq]⟩
    | cons front rest =>
      simp only []
      obtain ⟨k, h1, h2⟩ := ih (LogDLQueue.mk rest
        (subSizeT q.m_CurrentSizeInBytes (computeLogSizeInBytes P front)) q.m_MaxSizeInBytes)
        (out ++ [front]) (count + 1)
      exact ⟨k + 1, by simp [h1], by simp [h2]⟩

end LogDLQueue

namespace DLQTrace

theorem Fifo_offer (P : Platform) (t : DLQTrace) (log : Log) (h : Fifo t) :
    Fifo (offer P t log) := by
  obtain ⟨pre, h1, h2⟩ := h
  obtain ⟨k, hk⟩ := LogDLQueue.dlq_enqueueInternal_queue P t.state log
  refine ⟨pre ++ t.state.m_Queue.take k, ?_, ?_⟩
  · simp only [offer, hk]
    by_cases hb : (t.state.enqueueInternal P log).1 = true
    · simp only [hb, if_true, h1]
      rw [List.append_assoc, List.append_assoc, ← List.append_assoc (List.take k _),
        List.take_append_drop]
    · simp only [hb, if_false, h1, List.append_nil, Bool.false_eq_true]
      rw [List.append_assoc, List.take_append_drop]
  · exact h2.trans (List.sublist_append_left _ _)

theorem Fifo_step (P : Platform) (t : DLQTrace) (op : DLQOp) (h : Fifo t) :
    Fifo (step P t op) := by
  cases op with
  | enqueue log => exact Fifo_offer P t log h
  | enqueueBatch logs =>
    simp only [step]
    induction logs generalizing t with
    | nil => exact h
    | cons r rs ih => exact ih _ (Fifo_offer P t r h)
  | dequeue =>
    obtain ⟨pre, h1, h2⟩ := h
    simp only [step, LogDLQueue.dequeue]
    cases hq : t.state.m_Queue with
    | nil =>
      refine ⟨pre, ?_, ?_⟩
      · simpa [hq] using h1
      · simpa using h2
    | cons front rest =>
      refine ⟨pre ++ [front], ?_, ?_⟩
      · simp [h1, hq]
      · simpa using List.Sublist.append h2 (List.Sublist.refl [front])
  | dequeueBatch maxCount =>
    obtain ⟨pre, h1, h2⟩ := h
    obtain ⟨k, hk1, hk2⟩ := LogDLQueue.dlq_dequeueBatchLoop_queue P maxCount t.state [] 0
    refine ⟨pre ++ t.state.m_Queue.take k, ?_, ?_⟩
    · simp only [step, LogDLQueue.dequeueBatch, hk2, h1]
      rw [List.append_assoc, List.take_append_drop]
    · simp only [step, LogDLQueue.dequeueBatch, hk1, List.nil_append]
      exact List.Sublist.append h2 (List.Sublist.refl _)
  | reset =>
    obtain ⟨pre, h1, h2⟩ := h
    refine ⟨pre ++ t.state.m_Queue, ?_, ?_⟩
    · simp [step, LogDLQueue.reset, h1]
    · exact h2.trans (List.sublist_append_left _ _)

theorem Fifo_run (P : Platform) (maxSizeInMB : Nat) (ops : List DLQOp) :
    Fifo (run P maxSizeInMB ops) := by
  unfold run
  have h0 : Fifo { state := LogDLQueue.mk0 maxSizeInMB, admitted := [], delivered := [] } :=
    ⟨[], by simp [LogDLQueue.mk0], List.Sublist.refl _⟩
  generalize ({ state := LogDLQueue.mk0 maxSizeInMB, admitted := [], delivered := [] } :
    DLQTrace) = t at h0
  induction ops generalizing t with
  | nil => exact h0
  | cons op ops ih => exact ih _ (Fifo_step P t op h0)

theorem run_state (P : Platform) (maxSizeInMB : Nat) (ops : List DLQOp) :
    (run P maxSizeInMB ops).state = (LogDLQueue.mk0 maxSizeInMB).run P ops := by
  unfold run LogDLQueue.run
  have h0 : ({ state := LogDLQueue.mk0 maxSizeInMB, admitted := [], delivered := [] } :
    DLQTrace).state = LogDLQueue.mk0 maxSizeInMB := rfl
  generalize ({ state := LogDLQueue.mk0 maxSizeInMB, admitted := [], delivered := [] } :
    DLQTrace) = t at h0
  generalize LogDLQueue.mk0 maxSizeInMB = q at h0
  induction ops generalizing t q with
  | nil => exact h0
  | cons op ops ih =>
    apply ih
    cases op with
    | enqueue log => simp [step, offer, LogDLQueue.step, LogDLQueue.enqueue, h0]
    | enqueueBatch logs =>
      simp only [step, LogDLQueue.step, LogDLQueue.enqueueBatch]
      induction logs generalizing t q with
      | nil => exact h0
      | cons r rs ih2 =>
        simp only [List.foldl_cons]
        apply ih2
        simp [offer, h0]
    | dequeue => simp [step, LogDLQueue.step, h0]
    | dequeueBatch maxCount => simp [step, LogDLQueue.step, h0]
    | reset => simp [step, LogDLQueue.step, h0]

end DLQTrace

/-! ## The dead-letter buffer: FIFO order -/

/-- C6 (DeadLetterBuffer FIFO). For every sequence of `enqueue`, `enqueueBatch`, `dequeue`,
`dequeueBatch` and `reset` calls on a `LogDLQueue` built by its constructor: the sequence of
records delivered is a subsequence, in the same order, of the sequence of records admitted;
the records held are a suffix of the admission sequence (the newest ones, oldest first);
`dequeue` on a non-empty buffer returns its front record, which is therefore the
earliest-admitted record still held; and `enqueue` only removes records from the front (the
oldest end) before it appends the admitted record. -/
theorem dlq_fifo (P : Platform) (maxSizeInMB : Nat) (ops : List DLQOp) :
    (DLQTrace.run P maxSizeInMB ops).delivered.Sublist (DLQTrace.run P maxSizeInMB ops).admitted ∧
    (DLQTrace.run P maxSizeInMB ops).state.m_Queue <:+ (DLQTrace.run P maxSizeInMB ops).admitted ∧
    (DLQTrace.run P maxSizeInMB ops).state = (LogDLQueue.mk0 maxSizeInMB).run P ops ∧
    (∀ (q : LogDLQueue) (out front : Log) (rest : List Log), q.m_Queue = front :: rest →
      (q.dequeue P out).1 = true ∧ (q.dequeue P out).2.1 = front ∧
      (q.dequeue P out).2.2.m_Queue = rest) ∧
    (∀ (q : LogDLQueue) (r : Log), ∃ k, (q.enqueue P r).2.m_Queue =
      q.m_Queue.drop k ++ (if (q.enqueue P r).1 then [r] else [])) := by
  obtain ⟨pre, h1, h2⟩ := DLQTrace.Fifo_run P maxSizeInMB ops
  refine ⟨?_, ?_, DLQTrace.run_state P maxSizeInMB ops, ?_, ?_⟩
  · rw [h1]; exact h2.trans (List.sublist_append_left _ _)
  · rw [h1]; exact List.suffix_append _ _
  · intro q out front rest hq
    simp [LogDLQueue.dequeue, hq]
  · intro q r
    exact LogDLQueue.dlq_enqueueInternal_queue P q r

/-- A concrete instance of FIFO delivery: after two admissions and one `dequeue` on the
one-MiB buffer the delivered records are a sublist of the admitted ones, and `dequeue` on a
buffer holding two records hands out the front one. -/
theorem dlq_fifo_witness :
    (DLQTrace.run msvc64 1 [DLQOp.enqueue (sampleLog 1 "a"), DLQOp.enqueue (sampleLog 2 "b"),
      DLQOp.dequeue]).delivered.Sublist
      (DLQTrace.run msvc64 1 [DLQOp.enqueue (sampleLog 1 "a"), DLQOp.enqueue (sampleLog 2 "b"),
        DLQOp.dequeue]).admitted ∧
    ((LogDLQueue.mk [sampleLog 1 "a", sampleLog 2 "b"] 284 1048576).dequeue msvc64
      Log.blank).2.1 = sampleLog 1 "a" :=
  ⟨(dlq_fifo msvc64 1 [DLQOp.enqueue (sampleLog 1 "a"), DLQOp.enqueue (sampleLog 2 "b"),
      DLQOp.dequeue]).1,
    ((dlq_fifo msvc64 1 []).2.2.2.1 (LogDLQueue.mk [sampleLog 1 "a", sampleLog 2 "b"] 284 1048576)
      Log.blank (sampleLog 1 "a") [sampleLog 2 "b"] rfl).2.1⟩

namespace LogDLQueue

theorem totalSize_drop_le (P : Platform) (l : List Log) (k : Nat) :
    totalSize P (l.drop k) ≤ totalSize P l := by
  have h := totalSize_append P (l.take k) (l.drop k)
  rw [List.take_append_drop] at h
  omega

theorem softEvictLoop_acc (P : Platform) (n : Nat) (q : LogDLQueue)
    (hacc : q.m_CurrentSizeInBytes = totalSize P q.m_Queue)
    (hlt : q.m_CurrentSizeInBytes < 2 ^ 64) :
    (softEvictLoop P n q).m_CurrentSizeInBytes = totalSize P (softEvictLoop P n q).m_Queue := by
  induction n generalizing q with
  | zero => simpa [softEvictLoop] using hacc
  | succ n ih =>
    unfold softEvictLoop
    cases hq : q.m_Queue with
    | nil => simpa [hq] using hacc
    | cons front rest =>
      simp only []
      rw [hq, totalSize_cons] at hacc
      have hle : computeLogSizeInBytes P front ≤ q.m_CurrentSizeInBytes := by omega
      have hsub := subSizeT_eq hle hlt
      apply ih
      · show subSizeT _ _ = totalSize P rest
        rw [hsub]; omega
      · show subSizeT _ _ < 2 ^ 64
        rw [hsub]; omega

theorem hardEvictLoop_acc (P : Platform) (target : Nat) (l : List Log) (cur : Nat)
    (hacc : cur = totalSize P l) (hlt : cur < 2 ^ 64) :
    (hardEvictLoop P target l cur).2 = totalSize P (hardEvictLoop P target l cur).1 ∧
    ((hardEvictLoop P target l cur).2 ≤ target ∨ (hardEvictLoop P target l cur).1 = []) := by
  induction l generalizing cur with
  | nil => exact ⟨by simpa [hardEvictLoop] using hacc, Or.inr rfl⟩
  | cons front rest ih =>
    unfold hardEvictLoop
    by_cases h : cur > target
    · simp only [h, if_true]
      rw [totalSize_cons] at hacc
      have hle : computeLogSizeInBytes P front ≤ cur := by omega
      have hsub := subSizeT_eq hle hlt
      apply ih
      · rw [hsub]; omega
      · rw [hsub]; omega
    · simp only [h, if_false]
      exact ⟨hacc, Or.inl (by omega)⟩

theorem softEvict_acc (P : Platform) (q : LogDLQueue)
    (hacc : q.m_CurrentSizeInBytes = totalSize P q.m_Queue)
    (hlt : q.m_CurrentSizeInBytes < 2 ^ 64) :
    (softEvict P q).m_CurrentSizeInBytes = totalSize P (softEvict P q).m_Queue ∧
    (softEvict P q).m_CurrentSizeInBytes ≤ q.m_CurrentSizeInBytes := by
  have h1 : (softEvict P q).m_CurrentSizeInBytes = totalSize P (softEvict P q).m_Queue := by
    unfold softEvict
    split
    · exact softEvictLoop_acc P _ q hacc hlt
    · exact hacc
  refine ⟨h1, ?_⟩
  obtain ⟨⟨k, hk⟩, -⟩ := softEvict_queue P q
  rw [h1, hk, hacc]
  exact totalSize_drop_le P _ _

theorem hardEvict_acc (P : Platform) (q : LogDLQueue) (s : Nat)
    (hacc : q.m_CurrentSizeInBytes = totalSize P q.m_Queue)
    (hlt : q.m_CurrentSizeInBytes < 2 ^ 64) :
    (hardEvict P q s).m_CurrentSizeInBytes = totalSize P (hardEvict P q s).m_Queue ∧
    (hardEvict P q s).m_CurrentSizeInBytes ≤ q.m_CurrentSizeInBytes := by
  have h1 : (hardEvict P q s).m_CurrentSizeInBytes = totalSize P (hardEvict P q s).m_Queue := by
    unfold hardEvict
    split
    · exact (hardEvictLoop_acc P _ _ _ hacc hlt).1
    · exact hacc
  refine ⟨h1, ?_⟩
  obtain ⟨⟨k, hk⟩, -⟩ := hardEvict_queue P q s
  rw [h1, hk, hacc]
  exact totalSize_drop_le P _ _

theorem dlq_enqueueInternal_reject (P : Platform) (q : LogDLQueue) (r : Log) :
    ((q.enqueueInternal P r).1 = false ↔ computeLogSizeInBytes P r > q.m_MaxSizeInBytes) ∧
    ((q.enqueueInternal P r).1 = false → (q.enqueueInternal P r).2 = q) := by
  unfold enqueueInternal
  simp only []
  by_cases h : computeLogSizeInBytes P r > q.m_MaxSizeInBytes
  · simp [h]
  · simp [h]

theorem dlq_enqueueInternal_admit (P : Platform) (q : LogDLQueue) (r : Log)
    (h : (q.enqueueInternal P r).1 = true) :
    (q.enqueueInternal P r).2.m_Queue =
      (hardEvict P (softEvict P q) (computeLogSizeInBytes P r)).m_Queue ++ [r] ∧
    (q.enqueueInternal P r).2.m_CurrentSizeInBytes =
      addSizeT (hardEvict P (softEvict P q) (computeLogSizeInBytes P r)).m_CurrentSizeInBytes
        (computeLogSizeInBytes P r) ∧
    (q.enqueueInternal P r).2.m_MaxSizeInBytes = q.m_MaxSizeInBytes := by
  unfold enqueueInternal at h ⊢
  simp only [] at h ⊢
  by_cases hc : computeLogSizeInBytes P r > q.m_MaxSizeInBytes
  · simp [hc] at h
  · simp only [hc, if_false, true_and]
    rw [(hardEvict_queue P _ _).2, (softEvict_queue P q).2]

end LogDLQueue

/-! ## The dead-letter buffer: admission result -/

/-- C7 (DeadLetterBuffer admission result). `enqueue r` returns `false` exactly when the
accounted size `s` of `r` exceeds the capacity, and then the buffer (held records and
`used_bytes`) is unchanged, so nothing is evicted for a rejected record. Otherwise it returns
`true`, `r` is the last (newest) record of the buffer, the records before it are what is left
of the previous contents after removing some from the front, and `used_bytes` is the byte
count after the two eviction blocks plus `s` (in `size_t` arithmetic); when the byte counter
was the exact sum of the held sizes (counter and capacity below `2 ^ 63`) it is exactly
the sum of the sizes of the surviving old records plus `s`. -/
theorem dlq_enqueue_result (P : Platform) (q : LogDLQueue) (r : Log) :
    ((q.enqueue P r).1 = false ↔ computeLogSizeInBytes P r > q.m_MaxSizeInBytes) ∧
    ((q.enqueue P r).1 = false → (q.enqueue P r).2 = q) ∧
    ((q.enqueue P r).1 = true →
      (q.enqueue P r).2.m_Queue.getLast? = some r ∧
      (∃ k, (q.enqueue P r).2.m_Queue = q.m_Queue.drop k ++ [r] ∧
        (q.m_CurrentSizeInBytes = totalSize P q.m_Queue → q.m_CurrentSizeInBytes < 2 ^ 63 →
          q.m_MaxSizeInBytes < 2 ^ 63 →
          (q.enqueue P r).2.m_CurrentSizeInBytes =
            totalSize P (q.m_Queue.drop k) + computeLogSizeInBytes P r)) ∧
      (q.enqueue P r).2.m_CurrentSizeInBytes =
        addSizeT
          (LogDLQueue.hardEvict P (LogDLQueue.softEvict P q)
            (computeLogSizeInBytes P r)).m_CurrentSizeInBytes
          (computeLogSizeInBytes P r) ∧
      (q.enqueue P r).2.m_MaxSizeInBytes = q.m_MaxSizeInBytes) := by
  unfold LogDLQueue.enqueue
  refine ⟨(LogDLQueue.dlq_enqueueInternal_reject P q r).1,
    (LogDLQueue.dlq_enqueueInternal_reject P q r).2, ?_⟩
  intro h
  obtain ⟨h1, h2, h3⟩ := LogDLQueue.dlq_enqueueInternal_admit P q r h
  obtain ⟨⟨k1, hk1⟩, -⟩ := LogDLQueue.softEvict_queue P q
  obtain ⟨⟨k2, hk2⟩, -⟩ :=
    LogDLQueue.hardEvict_queue P (LogDLQueue.softEvict P q) (computeLogSizeInBytes P r)
  have hq : (LogDLQueue.hardEvict P (LogDLQueue.softEvict P q)
      (computeLogSizeInBytes P r)).m_Queue = q.m_Queue.drop (k1 + k2) := by
    rw [hk2, hk1, List.drop_drop, Nat.add_comm]
  refine ⟨by rw [h1]; simp, ⟨k1 + k2, by rw [h1, hq], ?_⟩, h2, h3⟩
  intro hacc hlt hcap
  obtain ⟨a1, a2⟩ := LogDLQueue.softEvict_acc P q hacc (by omega)
  obtain ⟨b1, b2⟩ := LogDLQueue.hardEvict_acc P (LogDLQueue.softEvict P q)
    (computeLogSizeInBytes P r) a1 (by omega)
  rw [h2, b1, hq]
  rw [b1, hq] at b2
  have := computeLogSizeInBytes_lt P r
  have hs : computeLogSizeInBytes P r ≤ q.m_MaxSizeInBytes := by
    by_contra hc
    have := (LogDLQueue.dlq_enqueueInternal_reject P q r).1.mpr (by omega)
    rw [this] at h
    cases h
  exact addSizeT_eq (by omega)

/-- A concrete instance of the admission result on the one-MiB buffer. -/
theorem dlq_enqueue_result_witness :
    ((LogDLQueue.mk0 1).enqueue msvc64 (sampleLog 1 "a")).1 = true ∧
    ((LogDLQueue.mk0 1).enqueue msvc64 (sampleLog 1 "a")).2.m_Queue.getLast? =
      some (sampleLog 1 "a") :=
  ⟨by decide, ((dlq_enqueue_result msvc64 (LogDLQueue.mk0 1) (sampleLog 1 "a")).2.2
    (by decide)).1⟩

/-! ## Lemmas on `double` rounding -/

theorem excessBits_spec (fuel n : Nat) (h : n < 2 ^ (53 + fuel)) :
    n / 2 ^ excessBits fuel n < 2 ^ 53 ∧
    (excessBits fuel n ≠ 0 → 2 ^ 52 ≤ n / 2 ^ excessBits fuel n) := by
  induction fuel generalizing n with
  | zero =>
    have h' : n < 2 ^ 53 := h
    exact ⟨by simpa [excessBits] using h', fun hne => absurd rfl hne⟩
  | succ f ih =>
    unfold excessBits
    by_cases hn : n < 2 ^ 53
    · rw [if_pos hn]
      exact ⟨by simpa using hn, fun hne => absurd rfl hne⟩
    · rw [if_neg hn]
      have h2 : n / 2 < 2 ^ (53 + f) := by
        have : (2 : Nat) ^ (53 + (f + 1)) = 2 * 2 ^ (53 + f) := by
          rw [← Nat.add_assoc, Nat.pow_succ, Nat.mul_comm]
        omega
      obtain ⟨ih1, ih2⟩ := ih (n / 2) h2
      have hdiv : n / 2 ^ (excessBits f (n / 2) + 1) = n / 2 / 2 ^ excessBits f (n / 2) := by
        rw [Nat.pow_succ, Nat.mul_comm, Nat.div_div_eq_div_mul]
      rw [hdiv]
      refine ⟨ih1, fun _ => ?_⟩
      by_cases he : excessBits f (n / 2) = 0
      · rw [he, Nat.pow_zero, Nat.div_one]; omega
      · exact ih2 he

theorem lt_two_pow_add (n : Nat) : n < 2 ^ (53 + n) :=
  lt_of_lt_of_le (Nat.lt_two_pow n) (Nat.pow_le_pow_right (by norm_num) (by omega))

theorem round53_of_lt {n : Nat} (h : n < 2 ^ 53) : round53 n = n := by
  have : excessBits n n = 0 := by
    cases n with
    | zero => rfl
    | succ m =>
      unfold excessBits
      rw [if_pos h]
  unfold round53
  simp only [this, if_true]

/-- The rounding error of `round53` is at most `n / 2 ^ 53`, and values from `2 ^ 53` on stay
there. -/
theorem round53_bounds (n : Nat) :
    round53 n * 2 ^ 53 ≤ n * (2 ^ 53 + 1) ∧ n * (2 ^ 53 - 1) ≤ round53 n * 2 ^ 53 ∧
    (2 ^ 53 ≤ n → 2 ^ 53 ≤ round53 n) := by
  obtain ⟨h1, h2⟩ := excessBits_spec n n (lt_two_pow_add n)
  unfold round53
  simp only []
  by_cases hsh : excessBits n n = 0
  · simp only [hsh, if_true]
    refine ⟨by omega, by omega, fun h => h⟩
  · simp only [hsh, if_false]
    have h2' := h2 hsh
    obtain ⟨k, hk⟩ : ∃ k, excessBits n n = k + 1 := ⟨excessBits n n - 1, by omega⟩
    rw [hk] at h1 h2' ⊢
    simp only [Nat.add_sub_cancel]
    have hX : (2 : Nat) ^ (k + 1) = 2 * 2 ^ k := by rw [Nat.pow_succ, Nat.mul_comm]
    have hpos : 0 < (2 : Nat) ^ k := Nat.two_pow_pos k
    generalize (2 : Nat) ^ k = H at hX hpos ⊢
    generalize (2 : Nat) ^ (k + 1) = X at hX h1 h2' ⊢
    subst hX
    have hdm := Nat.div_add_mod n (2 * H)
    have hr := Nat.mod_lt n (show 0 < 2 * H by omega)
    have hA : 2 ^ 52 * (2 * H) ≤ n / (2 * H) * (2 * H) := Nat.mul_le_mul_right _ h2'
    have hcomm : 2 * H * (n / (2 * H)) = n / (2 * H) * (2 * H) := Nat.mul_comm _ _
    have hsucc : (n / (2 * H) + 1) * (2 * H) = n / (2 * H) * (2 * H) + 2 * H := by ring
    rw [hsucc]
    rw [hcomm] at hdm
    generalize n / (2 * H) * (2 * H) = A at hdm hA ⊢
    generalize n % (2 * H) = r at hdm hr ⊢
    split
    · rename_i hup
      have hrH : H ≤ r := by rcases hup with h | ⟨h, -⟩ <;> omega
      refine ⟨by omega, by omega, fun _ => by omega⟩
    · rename_i hdn
      have hrH : r ≤ H := by
        by_contra hc
        exact hdn (Or.inl (by omega))
      refine ⟨by omega, by omega, fun _ => by omega⟩


/-- For capacities below `2 ^ 49` the hard threshold test fires whenever the byte count exceeds
nine tenths of the capacity. -/
theorem hard_trigger_of_gt {cap x : Nat} (hcap : cap < 2 ^ 49)
    (h : 10 * x > 9 * cap) :
    doubleOfSizeT x > sizeTimesDouble cap m_EvictionThresholdHard := by
  unfold doubleOfSizeT sizeTimesDouble m_EvictionThresholdHard
  rw [round53_of_lt (show cap < 2 ^ 53 by omega)]
  obtain ⟨hD, -, -⟩ := round53_bounds (cap * 8106479329266893)
  obtain ⟨-, -, hx⟩ := round53_bounds x
  generalize round53 (cap * 8106479329266893) = D at hD ⊢
  by_cases hx53 : x < 2 ^ 53
  · rw [round53_of_lt hx53]
    omega
  · have := hx (by omega)
    generalize round53 x = X at this ⊢
    omega

/-- For capacities below `2 ^ 49` the hard stop target is at most seven tenths of the
capacity. -/
theorem hard_target_le {cap : Nat} (hcap : cap < 2 ^ 49) :
    10 * sizeTOfDouble (sizeTimesDouble cap m_EvictionStopThresholdHard) ≤ 7 * cap := by
  unfold sizeTOfDouble sizeTimesDouble m_EvictionStopThresholdHard
  rw [round53_of_lt (show cap < 2 ^ 53 by omega)]
  obtain ⟨hD, -, -⟩ := round53_bounds (cap * 6305039478318694)
  generalize round53 (cap * 6305039478318694) = D at hD ⊢
  omega

theorem paddedLog_size_600000 (t : Int) :
    computeLogSizeInBytes msvc64 (paddedLog t 600000) = 600142 := by
  rw [paddedLog_size]; decide

namespace LogDLQueue

theorem hardEvictLoop_noop (P : Platform) (target : Nat) (l : List Log) (cur : Nat)
    (h : cur ≤ target) : hardEvictLoop P target l cur = (l, cur) := by
  cases l with
  | nil => rfl
  | cons front rest =>
    unfold hardEvictLoop
    have : ¬ cur > target := by omega
    simp [this]

/-- An admission during which neither eviction block removes anything. -/
theorem dlq_enqueue_no_evict (P : Platform) (l : List Log) (used cap s : Nat) (r : Log)
    (hs : computeLogSizeInBytes P r = s) (hfit : s ≤ cap)
    (hsoft : ¬ doubleOfSizeT used > sizeTimesDouble cap m_EvictionThresholdSoft)
    (hhard : used ≤ sizeTOfDouble (sizeTimesDouble cap m_EvictionStopThresholdHard)) :
    enqueue P (LogDLQueue.mk l used cap) r =
      (true, LogDLQueue.mk (l ++ [r]) (addSizeT used s) cap) := by
  have hfit' : ¬ s > cap := by omega
  unfold enqueue enqueueInternal
  simp only [hs, hfit', if_false, softEvict, hsoft]
  unfold hardEvict
  split
  · simp only [hardEvictLoop_noop P _ l used hhard]
  · rfl

end LogDLQueue

namespace LogDLQueue

theorem dlq_run_nil (P : Platform) (q : LogDLQueue) : q.run P [] = q := rfl

theorem dlq_run_cons (P : Platform) (q : LogDLQueue) (op : DLQOp) (ops : List DLQOp) :
    q.run P (op :: ops) = (q.step P op).run P ops := rfl

theorem dlq_step_enqueue (P : Platform) (q : LogDLQueue) (r : Log) :
    q.step P (DLQOp.enqueue r) = (q.enqueue P r).2 := rfl

end LogDLQueue

/-! ## The dead-letter buffer: byte budget -/

/-- C4 (DeadLetterBuffer byte budget), the code evaluated at an input that breaks the budget.
On the buffer built by `LogDLQueue(1)` (capacity 1 MiB = 1048576 bytes) two records with a
600000-byte message are offered. Each has accounted size 600142, which is below the capacity,
so neither is refused. At the second `enqueue` the byte counter is 600142: the soft test
`600142 > 0.6 * 1048576` is false, the hard test `1200284 > 0.9 * 1048576` is true, the hard
loop stops at once because `600142 <= 734003` (the stop target), and the record is appended.
The buffer then holds both records and `used_bytes = 1200284 > 1048576 = capacity_bytes`. -/
theorem dlq_byte_budget_exceeded :
    (LogDLQueue.mk0 1).run msvc64
      [DLQOp.enqueue (paddedLog 1 600000), DLQOp.enqueue (paddedLog 2 600000)] =
      LogDLQueue.mk [paddedLog 1 600000, paddedLog 2 600000] 1200284 1048576 ∧
    ¬ (((LogDLQueue.mk0 1).run msvc64
      [DLQOp.enqueue (paddedLog 1 600000),
        DLQOp.enqueue (paddedLog 2 600000)]).m_CurrentSizeInBytes ≤
      ((LogDLQueue.mk0 1).run msvc64
      [DLQOp.enqueue (paddedLog 1 600000),
        DLQOp.enqueue (paddedLog 2 600000)]).m_MaxSizeInBytes) := by
  have hcap : (LogDLQueue.mk0 1) = LogDLQueue.mk [] 0 1048576 := by decide
  have step1 : (LogDLQueue.mk [] 0 1048576).enqueue msvc64 (paddedLog 1 600000) =
      (true, LogDLQueue.mk [paddedLog 1 600000] 600142 1048576) :=
    LogDLQueue.dlq_enqueue_no_evict msvc64 [] 0 1048576 600142 (paddedLog 1 600000)
      (paddedLog_size_600000 1) (by decide) (by decide) (by decide)
  have step2 : (LogDLQueue.mk [paddedLog 1 600000] 600142 1048576).enqueue msvc64
      (paddedLog 2 600000) =
      (true, LogDLQueue.mk [paddedLog 1 600000, paddedLog 2 600000] 1200284 1048576) :=
    LogDLQueue.dlq_enqueue_no_evict msvc64 [paddedLog 1 600000] 600142 1048576 600142
      (paddedLog 2 600000) (paddedLog_size_600000 2) (by decide) (by decide) (by decide)
  have hrun : (LogDLQueue.mk0 1).run msvc64
      [DLQOp.enqueue (paddedLog 1 600000), DLQOp.enqueue (paddedLog 2 600000)] =
      LogDLQueue.mk [paddedLog 1 600000, paddedLog 2 600000] 1200284 1048576 := by
    rw [hcap, LogDLQueue.dlq_run_cons, LogDLQueue.dlq_step_enqueue, step1,
      LogDLQueue.dlq_run_cons, LogDLQueue.dlq_step_enqueue, step2, LogDLQueue.dlq_run_nil]
  refine ⟨hrun, ?_⟩
  rw [hrun]
  decide

namespace LogDLQueue

theorem hardEvictLoop_spec (P : Platform) (target : Nat) (l : List Log) (cur : Nat)
    (hacc : cur = totalSize P l) (hlt : cur < 2 ^ 64) :
    ∃ k, (hardEvictLoop P target l cur).1 = l.drop k ∧
      (hardEvictLoop P target l cur).2 = totalSize P (l.drop k) ∧
      (totalSize P (l.drop k) ≤ target ∨ l.drop k = []) ∧
      ∀ j, j < k → target < totalSize P (l.drop j) := by
  induction l generalizing cur with
  | nil => exact ⟨0, rfl, by simpa [hardEvictLoop] using hacc, Or.inr rfl, by intro j hj; omega⟩
  | cons front rest ih =>
    unfold hardEvictLoop
    by_cases h : cur > target
    · simp only [h, if_true]
      have hacc' := hacc
      rw [totalSize_cons] at hacc'
      have hle : computeLogSizeInBytes P front ≤ cur := by omega
      have hsub := subSizeT_eq hle hlt
      obtain ⟨k, h1, h2, h3, h4⟩ := ih (subSizeT cur (computeLogSizeInBytes P front))
        (by rw [hsub]; omega) (by rw [hsub]; omega)
      refine ⟨k + 1, by simpa using h1, by simpa using h2, by simpa using h3, ?_⟩
      intro j hj
      cases j with
      | zero => simpa [← hacc] using h
      | succ j => simpa using h4 j (by omega)
    · simp only [h, if_false]
      refine ⟨0, rfl, by simpa using hacc, Or.inl (by simp; omega), by intro j hj; omega⟩

/-- An admission, in terms of the states after the two eviction blocks, for a buffer whose byte
counter is the exact sum of the held sizes. -/
theorem dlq_enqueue_acc (P : Platform) (q : LogDLQueue) (r : Log)
    (hacc : q.m_CurrentSizeInBytes = totalSize P q.m_Queue)
    (hused : q.m_CurrentSizeInBytes < 2 ^ 63) (hcap : q.m_MaxSizeInBytes < 2 ^ 63)
    (hfit : computeLogSizeInBytes P r ≤ q.m_MaxSizeInBytes) :
    (q.enqueue P r).1 = true ∧
    (q.enqueue P r).2.m_Queue =
      (hardEvict P (softEvict P q) (computeLogSizeInBytes P r)).m_Queue ++ [r] ∧
    (q.enqueue P r).2.m_CurrentSizeInBytes =
      (hardEvict P (softEvict P q) (computeLogSizeInBytes P r)).m_CurrentSizeInBytes +
        computeLogSizeInBytes P r ∧
    (softEvict P q).m_CurrentSizeInBytes = totalSize P (softEvict P q).m_Queue ∧
    (softEvict P q).m_CurrentSizeInBytes ≤ q.m_CurrentSizeInBytes := by
  have hadm : (q.enqueue P r).1 = true := by
    cases hb : (q.enqueue P r).1 with
    | true => rfl
    | false =>
      have := (dlq_enqueueInternal_reject P q r).1.mp hb
      omega
  obtain ⟨h1, h2, -⟩ := dlq_enqueueInternal_admit P q r hadm
  obtain ⟨a1, a2⟩ := softEvict_acc P q hacc (by omega)
  obtain ⟨-, b2⟩ := hardEvict_acc P (softEvict P q) (computeLogSizeInBytes P r) a1 (by omega)
  refine ⟨hadm, h1, ?_, a1, a2⟩
  show (q.enqueueInternal P r).2.m_CurrentSizeInBytes = _
  rw [h2]
  exact addSizeT_eq (by omega)

/-- The hard eviction block when its test fires. -/
theorem hardEvict_fired (P : Platform) (q : LogDLQueue) (s : Nat)
    (hacc : q.m_CurrentSizeInBytes = totalSize P q.m_Queue)
    (hlt : q.m_CurrentSizeInBytes < 2 ^ 64)
    (hfire : doubleOfSizeT (addSizeT q.m_CurrentSizeInBytes s) >
      sizeTimesDouble q.m_MaxSizeInBytes m_EvictionThresholdHard) :
    ∃ k, (hardEvict P q s).m_Queue = q.m_Queue.drop k ∧
      (hardEvict P q s).m_CurrentSizeInBytes = totalSize P (q.m_Queue.drop k) ∧
      (totalSize P (q.m_Queue.drop k) ≤
          sizeTOfDouble (sizeTimesDouble q.m_MaxSizeInBytes m_EvictionStopThresholdHard) ∨
        q.m_Queue.drop k = []) ∧
      ∀ j, j < k →
        sizeTOfDouble (sizeTimesDouble q.m_MaxSizeInBytes m_EvictionStopThresholdHard) <
          totalSize P (q.m_Queue.drop j) := by
  unfold hardEvict
  rw [if_pos hfire]
  exact hardEvictLoop_spec P _ q.m_Queue q.m_CurrentSizeInBytes hacc hlt

end LogDLQueue

/-! ## The dead-letter buffer: hard drain and the bound after admission -/

/-- C8 (post-admission bound), amended. For a buffer whose byte counter is the exact sum of the
held sizes (counter below `2 ^ 63`, capacity below `2 ^ 49`) and a record of size
`s <= 0.2 * capacity_bytes`: `enqueue` admits the record, and afterwards either
`used_bytes <= 0.9 * capacity_bytes` or the buffer contains only the newly admitted record. -/
theorem dlq_post_admission_bound (P : Platform) (q : LogDLQueue) (r : Log)
    (hacc : q.m_CurrentSizeInBytes = totalSize P q.m_Queue)
    (hused : q.m_CurrentSizeInBytes < 2 ^ 63) (hcap : q.m_MaxSizeInBytes < 2 ^ 49)
    (hsmall : 10 * computeLogSizeInBytes P r ≤ 2 * q.m_MaxSizeInBytes) :
    (q.enqueue P r).1 = true ∧
    (10 * (q.enqueue P r).2.m_CurrentSizeInBytes ≤ 9 * q.m_MaxSizeInBytes ∨
      (q.enqueue P r).2.m_Queue = [r]) := by
  have hfit : computeLogSizeInBytes P r ≤ q.m_MaxSizeInBytes := by omega
  obtain ⟨hadm, hq, hu, a1, a2⟩ := LogDLQueue.dlq_enqueue_acc P q r hacc hused (by omega) hfit
  refine ⟨hadm, Or.inl ?_⟩
  obtain ⟨-, hc₁⟩ := LogDLQueue.softEvict_queue P q
  have hadd : addSizeT (LogDLQueue.softEvict P q).m_CurrentSizeInBytes
      (computeLogSizeInBytes P r) =
      (LogDLQueue.softEvict P q).m_CurrentSizeInBytes + computeLogSizeInBytes P r :=
    addSizeT_eq (by omega)
  rw [hu]
  by_cases hfire : doubleOfSizeT (addSizeT (LogDLQueue.softEvict P q).m_CurrentSizeInBytes
      (computeLogSizeInBytes P r)) >
      sizeTimesDouble (LogDLQueue.softEvict P q).m_MaxSizeInBytes m_EvictionThresholdHard
  · obtain ⟨k₂, -, h2, h3, -⟩ := LogDLQueue.hardEvict_fired P (LogDLQueue.softEvict P q)
      (computeLogSizeInBytes P r) a1 (by omega) hfire
    rw [hc₁] at h3
    have htar := hard_target_le hcap
    rw [h2]
    rcases h3 with h3 | h3
    · omega
    · rw [h3, totalSize_nil]; omega
  · have hno : LogDLQueue.hardEvict P (LogDLQueue.softEvict P q) (computeLogSizeInBytes P r) =
        LogDLQueue.softEvict P q := by
      unfold LogDLQueue.hardEvict
      rw [if_neg hfire]
    rw [hno]
    rw [hadd, hc₁] at hfire
    by_contra hc
    exact hfire (hard_trigger_of_gt hcap (by omega))


theorem paddedLog_size_500000 (t : Int) :
    computeLogSizeInBytes msvc64 (paddedLog t 500000) = 500142 := by
  rw [paddedLog_size]; decide

/-- C8 (post-admission bound) fails as stated. The buffer built by `LogDLQueue(1)` (capacity
1048576) holds one record of accounted size 500142 after one `enqueue`, and its byte counter
500142 is the sum of the held sizes. A second record of size 500142 (not above the capacity)
is admitted without any eviction: `500142 > 0.6 * 1048576` is false, and although
`1000284 > 0.9 * 1048576` the hard loop stops at once because `500142 <= 734003`. Afterwards
`used_bytes = 1000284 > 0.9 * 1048576 = 943718.4` and the buffer holds two records. -/
theorem dlq_post_admission_bound_counterexample :
    (LogDLQueue.mk0 1).run msvc64 [DLQOp.enqueue (paddedLog 1 500000)] =
      LogDLQueue.mk [paddedLog 1 500000] 500142 1048576 ∧
    (LogDLQueue.mk [paddedLog 1 500000] 500142 1048576).m_CurrentSizeInBytes =
      totalSize msvc64 (LogDLQueue.mk [paddedLog 1 500000] 500142 1048576).m_Queue ∧
    computeLogSizeInBytes msvc64 (paddedLog 2 500000) ≤
      (LogDLQueue.mk [paddedLog 1 500000] 500142 1048576).m_MaxSizeInBytes ∧
    ((LogDLQueue.mk [paddedLog 1 500000] 500142 1048576).enqueue msvc64
      (paddedLog 2 500000)).1 = true ∧
    ¬ (10 * ((LogDLQueue.mk [paddedLog 1 500000] 500142 1048576).enqueue msvc64
          (paddedLog 2 500000)).2.m_CurrentSizeInBytes ≤
        9 * (LogDLQueue.mk [paddedLog 1 500000] 500142 1048576).m_MaxSizeInBytes ∨
      ((LogDLQueue.mk [paddedLog 1 500000] 500142 1048576).enqueue msvc64
          (paddedLog 2 500000)).2.m_Queue = [paddedLog 2 500000]) := by
  have hcap : (LogDLQueue.mk0 1) = LogDLQueue.mk [] 0 1048576 := by decide
  have step1 : (LogDLQueue.mk [] 0 1048576).enqueue msvc64 (paddedLog 1 500000) =
      (true, LogDLQueue.mk [paddedLog 1 500000] 500142 1048576) :=
    LogDLQueue.dlq_enqueue_no_evict msvc64 [] 0 1048576 500142 (paddedLog 1 500000)
      (paddedLog_size_500000 1) (by decide) (by decide) (by decide)
  have step2 : (LogDLQueue.mk [paddedLog 1 500000] 500142 1048576).enqueue msvc64
      (paddedLog 2 500000) =
      (true, LogDLQueue.mk [paddedLog 1 500000, paddedLog 2 500000] 1000284 1048576) :=
    LogDLQueue.dlq_enqueue_no_evict msvc64 [paddedLog 1 500000] 500142 1048576 500142
      (paddedLog 2 500000) (paddedLog_size_500000 2) (by decide) (by decide) (by decide)
  refine ⟨?_, ?_, ?_, ?_, ?_⟩
  · rw [hcap, LogDLQueue.dlq_run_cons, LogDLQueue.dlq_step_enqueue, step1,
      LogDLQueue.dlq_run_nil]
  · show 500142 = totalSize msvc64 [paddedLog 1 500000]
    rw [totalSize_cons, totalSize_nil, paddedLog_size_500000]
  · rw [paddedLog_size_500000]
    decide
  · rw [step2]
  · rw [step2]
    intro h
    rcases h with h | h
    · revert h; decide
    · have hlen := congrArg List.length h
      simp at hlen

/-- A concrete instance of the bound after admission: a small record is offered to the
one-MiB buffer that holds one small record. -/
theorem dlq_post_admission_bound_witness :
    (((LogDLQueue.mk0 1).enqueue msvc64 (sampleLog 1 "a")).2.enqueue msvc64
      (sampleLog 2 "b")).1 = true ∧
    (10 * (((LogDLQueue.mk0 1).enqueue msvc64 (sampleLog 1 "a")).2.enqueue msvc64
        (sampleLog 2 "b")).2.m_CurrentSizeInBytes ≤
        9 * ((LogDLQueue.mk0 1).enqueue msvc64 (sampleLog 1 "a")).2.m_MaxSizeInBytes ∨
      (((LogDLQueue.mk0 1).enqueue msvc64 (sampleLog 1 "a")).2.enqueue msvc64
        (sampleLog 2 "b")).2.m_Queue = [sampleLog 2 "b"]) :=
  dlq_post_admission_bound msvc64 ((LogDLQueue.mk0 1).enqueue msvc64 (sampleLog 1 "a")).2
    (sampleLog 2 "b") (by decide) (by decide) (by decide) (by decide)

/-! ## The drain worker: backlog tagging -/

theorem wrapInt64_of_range {x : Int} (h1 : -(2 ^ 63) ≤ x) (h2 : x < 2 ^ 63) :
    wrapInt64 x = x := by
  unfold wrapInt64
  rw [Int.emod_eq_of_lt (by omega) (by omega)]
  omega

/-- Truncating division by a positive number exceeds `c` exactly from `(c + 1) * d` on. -/
theorem tdiv_gt_iff {x d c : Int} (hd : 0 < d) (hc : 0 ≤ c) :
    Int.tdiv x d > c ↔ x ≥ (c + 1) * d := by
  by_cases hx : 0 ≤ x
  · rw [Int.tdiv_eq_ediv hx (le_of_lt hd)]
    constructor
    · intro h
      have h1 : c + 1 ≤ x / d := h
      have := Int.mul_le_mul_of_nonneg_right h1 (le_of_lt hd)
      have h3 := Int.ediv_mul_le x (ne_of_gt hd)
      omega
    · intro h
      have : c + 1 ≤ x / d := (Int.le_ediv_iff_mul_le hd).mpr h
      omega
  · have hneg : x < 0 := by omega
    have h0 : Int.tdiv x d ≤ 0 := by
      have : Int.tdiv x d = -(Int.tdiv (-x) d) := by
        rw [Int.neg_tdiv, neg_neg]
      rw [this]
      have := Int.tdiv_nonneg (show 0 ≤ -x by omega) (le_of_lt hd)
      omega
    constructor
    · intro h; omega
    · intro h
      have : 0 < (c + 1) * d := Int.mul_pos (by omega) hd
      omega


open LogWriterThread in
/-- C10 (backlog tagging), amended. Let `L` be the latest-seen instant of the drain worker and
`r` a record such that `L - r.timestamp` is representable in the 64-bit tick count of the
clock. The line written for `r` is `"[BACKLOG]"` followed by `r.toString()` exactly when the
delay truncated to whole milliseconds exceeds 200, that is when
`L - r.timestamp >= 201 ms`, and is `r.toString()` unchanged otherwise; the line is appended
to the sink and afterwards latest-seen is `max(L, r.timestamp)`. Processing a record with
timestamp `T` and then one with timestamp `T - 500 ms` writes as second line `"[BACKLOG]"`
followed by the rendering of the second record. -/
theorem backlog_tagging (P : Platform) (w : LogWriterThread) (r : Log)
    (htick : 0 < P.ticksPerMs)
    (hlo : -(2 ^ 63) ≤ w.m_Latest - r.m_TimeStamp) (hhi : w.m_Latest - r.m_TimeStamp < 2 ^ 63) :
    finalLog P w r =
      (if w.m_Latest - r.m_TimeStamp ≥ 201 * P.ticksPerMs then "[BACKLOG]" ++ r.toString P
       else r.toString P) ∧
    (processLog P w r).written = w.written ++ [finalLog P w r] ∧
    (processLog P w r).m_Latest = max w.m_Latest r.m_TimeStamp ∧
    (∀ (w₀ : LogWriterThread) (T : Int) (a b : Log), a.m_TimeStamp = T →
      b.m_TimeStamp = T - 500 * P.ticksPerMs → w₀.m_Latest < 2 ^ 62 → T < 2 ^ 62 →
      -(2 ^ 62) ≤ T - 500 * P.ticksPerMs →
      (processBatch P w₀ [a, b]).written =
        w₀.written ++ [finalLog P w₀ a, "[BACKLOG]" ++ b.toString P]) := by
  have hk : (0 : Int) < (P.ticksPerMs : Int) := by exact_mod_cast htick
  have hfinal : ∀ (w : LogWriterThread) (r : Log),
      -(2 ^ 63) ≤ w.m_Latest - r.m_TimeStamp → w.m_Latest - r.m_TimeStamp < 2 ^ 63 →
      finalLog P w r =
        (if w.m_Latest - r.m_TimeStamp ≥ 201 * P.ticksPerMs then "[BACKLOG]" ++ r.toString P
         else r.toString P) := by
    intro w r h1 h2
    unfold finalLog toMilliseconds BACKLOG_THRESHOLD Log.getTimestamp
    simp only []
    rw [wrapInt64_of_range h1 h2]
    have := @tdiv_gt_iff (w.m_Latest - r.m_TimeStamp) P.ticksPerMs 200 hk (by norm_num)
    by_cases hc : Int.tdiv (w.m_Latest - r.m_TimeStamp) P.ticksPerMs > 200
    · rw [if_pos hc, if_pos (by have := this.mp hc; omega)]
    · rw [if_neg hc, if_neg (by intro h; exact hc (this.mpr (by omega)))]
  refine ⟨hfinal w r hlo hhi, rfl, ?_, ?_⟩
  · unfold processLog Log.getTimestamp
    simp only []
    by_cases hc : w.m_Latest < r.m_TimeStamp
    · rw [if_pos hc, max_eq_right (le_of_lt hc)]
    · rw [if_neg hc, max_eq_left (by omega)]
  · intro w₀ T a b ha hb hw₀ hT hT'
    have hlat : (processLog P w₀ a).m_Latest = max w₀.m_Latest T := by
      unfold processLog Log.getTimestamp
      simp only [ha]
      by_cases hc : w₀.m_Latest < T
      · rw [if_pos hc, max_eq_right (le_of_lt hc)]
      · rw [if_neg hc, max_eq_left (by omega)]
    have hge : T ≤ (processLog P w₀ a).m_Latest := by rw [hlat]; exact le_max_right _ _
    have hlt : (processLog P w₀ a).m_Latest < 2 ^ 62 := by rw [hlat]; exact max_lt hw₀ hT
    have h2 := hfinal (processLog P w₀ a) b (by rw [hb]; omega) (by rw [hb]; omega)
    rw [if_pos (by rw [hb]; omega)] at h2
    show (processLog P (processLog P w₀ a) b).written = _
    show (processLog P w₀ a).written ++ [finalLog P (processLog P w₀ a) b] = _
    rw [h2]
    show (w₀.written ++ [finalLog P w₀ a]) ++ _ = _
    simp

/-- The claim as stated fails at sub-millisecond delays: with latest-seen 200.0001 ms after the
timestamp of the record (2000001 ticks of 100 ns against 0), `L - r.timestamp > 200 ms` holds
but the line written is the plain rendering, without the `"[BACKLOG]"` prefix; the code
compares the delay after `duration_cast<milliseconds>` has truncated it to 200 ms. -/
theorem backlog_tagging_counterexample :
    (LogWriterThread.mk 2000001 []).m_Latest - (sampleLog 0 "late").m_TimeStamp >
      200 * (msvc64.ticksPerMs : Int) ∧
    LogWriterThread.finalLog msvc64 (LogWriterThread.mk 2000001 []) (sampleLog 0 "late") =
      (sampleLog 0 "late").toString msvc64 ∧
    LogWriterThread.finalLog msvc64 (LogWriterThread.mk 2000001 []) (sampleLog 0 "late") ≠
      "[BACKLOG]" ++ (sampleLog 0 "late").toString msvc64 := by
  have h : LogWriterThread.finalLog msvc64 (LogWriterThread.mk 2000001 [])
      (sampleLog 0 "late") = (sampleLog 0 "late").toString msvc64 := by
    unfold LogWriterThread.finalLog
    simp only []
    rw [if_neg (by decide)]
  refine ⟨by decide, h, ?_⟩
  rw [h]
  intro he
  have := congrArg String.length he
  rw [String.length_append] at this
  have h9 : "[BACKLOG]".length = 9 := by decide
  omega

/-- A concrete instance of backlog tagging: latest-seen at 1 s, a record stamped 0.5 s; then
the scenario with `T` = 1 s from a fresh worker. -/
theorem backlog_tagging_witness :
    LogWriterThread.finalLog msvc64 (LogWriterThread.mk 10000000 []) (sampleLog 5000000 "b") =
      "[BACKLOG]" ++ (sampleLog 5000000 "b").toString msvc64 ∧
    (LogWriterThread.processBatch msvc64 LogWriterThread.mk0
      [sampleLog 10000000 "a", sampleLog 5000000 "b"]).written =
      LogWriterThread.mk0.written ++
        [LogWriterThread.finalLog msvc64 LogWriterThread.mk0 (sampleLog 10000000 "a"),
          "[BACKLOG]" ++ (sampleLog 5000000 "b").toString msvc64] := by
  have h := backlog_tagging msvc64 (LogWriterThread.mk 10000000 []) (sampleLog 5000000 "b")
    (by decide) (by decide) (by decide)
  refine ⟨?_, h.2.2.2 LogWriterThread.mk0 10000000 (sampleLog 10000000 "a")
    (sampleLog 5000000 "b") rfl (by decide) (by decide) (by decide) (by decide)⟩
  rw [h.1, if_pos (by decide)]

/-! ## Rendering and parsing: the matcher -/

theorem lazyStar_cons {α : Type} (p : Char → Bool) (k : List Char → List Char → Option α)
    (acc : List Char) (x : Char) (xs : List Char) :
    lazyStar p k acc (x :: xs) =
      match k acc.reverse (x :: xs) with
      | some r => some r
      | none => if p x = true then lazyStar p k (x :: acc) xs else none := rfl

theorem greedyStar_cons {α : Type} (p : Char → Bool) (k : List Char → List Char → Option α)
    (acc : List Char) (x : Char) (xs : List Char) :
    greedyStar p k acc (x :: xs) =
      if p x = true then
        match greedyStar p k (x :: acc) xs with
        | some r => some r
        | none => k acc.reverse (x :: xs)
      else k acc.reverse (x :: xs) := rfl

theorem lazyStar_found {α : Type} (p : Char → Bool) (k : List Char → List Char → Option α)
    (a rest acc : List Char) (r : α) (hp : ∀ c ∈ a, p c = true)
    (hfail : ∀ a₁ c a₂, a = a₁ ++ c :: a₂ → k (acc.reverse ++ a₁) (c :: a₂ ++ rest) = none)
    (hk : k (acc.reverse ++ a) rest = some r) :
    lazyStar p k acc (a ++ rest) = some r := by
  induction a generalizing acc with
  | nil =>
    simp only [List.nil_append, List.append_nil] at hk ⊢
    cases rest with
    | nil => simpa [lazyStar] using hk
    | cons x xs => rw [lazyStar_cons, hk]
  | cons c a' ih =>
    have h0 := hfail [] c a' rfl
    simp only [List.append_nil, List.cons_append] at h0
    have hpc : p c = true := hp c (List.mem_cons_self _ _)
    rw [List.cons_append, lazyStar_cons, h0]
    simp only [hpc, if_true]
    apply ih
    · intro x hx; exact hp x (List.mem_cons_of_mem _ hx)
    · intro a₁ x a₂ he
      have := hfail (c :: a₁) x a₂ (by rw [he]; rfl)
      simpa using this
    · simpa using hk

theorem greedyStar_found {α : Type} (p : Char → Bool) (k : List Char → List Char → Option α)
    (a rest acc : List Char) (r : α) (hp : ∀ c ∈ a, p c = true)
    (hrest : ∀ x xs, rest = x :: xs → p x = false)
    (hk : k (acc.reverse ++ a) rest = some r) :
    greedyStar p k acc (a ++ rest) = some r := by
  induction a generalizing acc with
  | nil =>
    simp only [List.nil_append, List.append_nil] at hk ⊢
    cases rest with
    | nil => simpa [greedyStar] using hk
    | cons x xs =>
      rw [greedyStar_cons, if_neg (by rw [hrest x xs rfl]; simp), hk]
  | cons c a' ih =>
    have hpc : p c = true := hp c (List.mem_cons_self _ _)
    have := ih (c :: acc) (fun x hx => hp x (List.mem_cons_of_mem _ hx)) (by simpa using hk)
    rw [List.cons_append, greedyStar_cons, if_pos hpc, this]

/-- The regular expression applied to a rendered line recovers the five fields. -/
theorem regexMatchLog_render (t lv id src msg : List Char)
    (ht : ∀ c ∈ t, isDot c = true ∧ c ≠ ']')
    (hlv : ∀ c ∈ lv, isDot c = true ∧ c ≠ ']')
    (hid : id ≠ []) (hid' : ∀ c ∈ id, isDigit c = true)
    (hsrc : ∀ c ∈ src, isDot c = true)
    (hsrc' : ∀ a₁ c a₂, src = a₁ ++ ')' :: c :: a₂ → isSpace c = false)
    (hmsg : ∀ c ∈ msg, isDot c = true) :
    regexMatchLog ('[' :: (t ++ ']' :: '[' :: (lv ++ ']' :: '[' :: (id ++ ']' :: '(' ::
      (src ++ ')' :: ' ' :: msg))))) = some (t, lv, id, src, msg) := by
  unfold regexMatchLog lazyGroup greedyGroup
  simp only [matchChar, if_true]
  apply lazyStar_found _ _ t _ [] _ (fun c hc => (ht c hc).1)
  · intro a₁ c a₂ he
    have hc : c ≠ ']' := (ht c (by rw [he]; simp)).2
    simp [matchChar, hc]
  simp only [matchChar, if_true, List.reverse_nil, List.nil_append]
  apply lazyStar_found _ _ lv _ [] _ (fun c hc => (hlv c hc).1)
  · intro a₁ c a₂ he
    have hc : c ≠ ']' := (hlv c (by rw [he]; simp)).2
    simp [matchChar, hc]
  simp only [matchChar, if_true, List.reverse_nil, List.nil_append]
  obtain ⟨d, ds, rfl⟩ := List.exists_cons_of_ne_nil hid
  have hd : isDigit d = true := hid' d (List.mem_cons_self _ _)
  simp only [List.cons_append, greedyPlus, hd, if_true]
  apply greedyStar_found _ _ ds _ [d] _ (fun c hc => hid' c (List.mem_cons_of_mem _ hc))
  · intro x xs he
    simp only [List.cons.injEq] at he
    rw [← he.1]; decide
  simp only [matchChar, if_true, List.reverse_cons, List.reverse_nil, List.nil_append,
    List.singleton_append]
  apply lazyStar_found _ _ src _ [] _ hsrc
  · intro a₁ c a₂ he
    by_cases hc : c = ')'
    · subst hc
      cases a₂ with
      | nil =>
        have hns : isSpace ')' = false := by decide
        simp [matchChar, matchClass, hns]
      | cons y ys =>
        have := hsrc' a₁ y ys he
        simp [matchChar, matchClass, this]
    · simp [matchChar, hc]
  simp only [matchChar, matchClass, if_true, List.reverse_nil, List.nil_append]
  have hsp : isSpace ' ' = true := by decide
  simp only [hsp, if_true]
  have := greedyStar_found isDot
    (fun g₅ => matchEnd (t, lv, d :: ds, src, g₅)) msg [] [] (t, lv, d :: ds, src, msg) hmsg
    (by intro x xs he; cases he) (by simp [matchEnd])
  simpa using this

/-! ## Rendering and parsing: decimal numbers -/

theorem digitChar_facts : ∀ k, k < 10 →
    (digitChar k).toNat = 48 + k ∧ isDigit (digitChar k) = true ∧ isDot (digitChar k) = true ∧
    isSpace (digitChar k) = false ∧ digitChar k ≠ ']' ∧ digitChar k ≠ '-' ∧
    digitChar k ≠ '+' := by
  decide

theorem isDigit_facts (c : Char) (h : isDigit c = true) :
    isDot c = true ∧ isSpace c = false ∧ c ≠ ']' ∧ c ≠ '-' ∧ c ≠ '+' := by
  have h1 : 48 ≤ c.toNat ∧ c.toNat ≤ 57 := by
    simpa [isDigit] using h
  have hne : ∀ d : Char, (d.toNat < 48 ∨ 57 < d.toNat) → c ≠ d := by
    intro d hd he
    rw [he] at h1
    omega
  refine ⟨?_, ?_, hne _ (by decide), hne _ (by decide), hne _ (by decide)⟩
  · have a1 := hne '\n' (by decide)
    have a2 := hne '\r' (by decide)
    simp [isDot, a1, a2]
  · have a1 := hne ' ' (by decide)
    have a2 := hne '\t' (by decide)
    have a3 := hne '\n' (by decide)
    have a4 := hne '\x0b' (by decide)
    have a5 := hne '\x0c' (by decide)
    have a6 := hne '\r' (by decide)
    simp [isSpace, a1, a2, a3, a4, a5, a6]

theorem digitsValue_append (a : Nat) (l₁ l₂ : List Char) :
    digitsValue a (l₁ ++ l₂) = digitsValue (digitsValue a l₁) l₂ := by
  simp [digitsValue, List.foldl_append]

theorem scanDigits_append (l rest : List Char) (a : Nat) (hl : ∀ c ∈ l, isDigit c = true) :
    scanDigits (l ++ rest) a = scanDigits rest (digitsValue a l) := by
  induction l generalizing a with
  | nil => rfl
  | cons c cs ih =>
    have hc : isDigit c = true := hl c (List.mem_cons_self _ _)
    rw [List.cons_append, scanDigits, if_pos hc, ih _ (fun x hx => hl x (List.mem_cons_of_mem _ hx))]
    rfl

theorem scanDigits_stop (rest : List Char) (a : Nat)
    (hrest : ∀ x xs, rest = x :: xs → isDigit x = false) : scanDigits rest a = (a, rest) := by
  cases rest with
  | nil => rfl
  | cons x xs => rw [scanDigits, if_neg (by rw [hrest x xs rfl]; simp)]

/-- The digits written for `n`: a non-empty digit sequence whose value is `n`. -/
theorem decimalAux_spec (f : Nat) : ∀ (n : Nat) (acc : List Char), n < 10 ^ (f + 1) →
    ∃ l, decimalAux (f + 1) n acc = l ++ acc ∧ l ≠ [] ∧ (∀ c ∈ l, isDigit c = true) ∧
      ∀ a, digitsValue a l = a * 10 ^ l.length + n := by
  induction f with
  | zero =>
    intro n acc hn
    have hn' : n < 10 := by simpa using hn
    refine ⟨[digitChar n], by simp [decimalAux, hn'], by simp, ?_, ?_⟩
    · intro c hc
      rw [List.mem_singleton.mp hc]
      exact (digitChar_facts n hn').2.1
    · intro a
      simp [digitsValue, (digitChar_facts n hn').1]
  | succ f ih =>
    intro n acc hn
    by_cases hn' : n < 10
    · refine ⟨[digitChar n], by simp [decimalAux, hn'], by simp, ?_, ?_⟩
      · intro c hc
        rw [List.mem_singleton.mp hc]
        exact (digitChar_facts n hn').2.1
      · intro a
        simp [digitsValue, (digitChar_facts n hn').1]
    · have hdiv : n / 10 < 10 ^ (f + 1) := by
        have : 10 ^ (f + 1 + 1) = 10 * 10 ^ (f + 1) := by rw [Nat.pow_succ, Nat.mul_comm]
        omega
      obtain ⟨l, h1, h2, h3, h4⟩ := ih (n / 10) (digitChar (n % 10) :: acc) hdiv
      have hmod : n % 10 < 10 := Nat.mod_lt _ (by norm_num)
      refine ⟨l ++ [digitChar (n % 10)], ?_, by simp, ?_, ?_⟩
      · rw [decimalAux, if_neg hn', h1]
        simp
      · intro c hc
        rcases List.mem_append.mp hc with hc | hc
        · exact h3 c hc
        · rw [List.mem_singleton.mp hc]
          exact (digitChar_facts _ hmod).2.1
      · intro a
        rw [digitsValue_append, h4 a]
        simp only [digitsValue, List.foldl_cons, List.foldl_nil, (digitChar_facts _ hmod).1,
          List.length_append, List.length_singleton, Nat.pow_succ]
        have := Nat.div_add_mod n 10
        generalize 10 ^ l.length = X
        have e : 48 + n % 10 - 48 = n % 10 := by omega
        rw [e]
        ring_nf
        omega

theorem decimalNat_spec (n : Nat) :
    decimalNat n ≠ [] ∧ (∀ c ∈ decimalNat n, isDigit c = true) ∧
    digitsValue 0 (decimalNat n) = n := by
  have hn : n < 10 ^ (n + 1) :=
    lt_of_lt_of_le (Nat.lt_pow_self (by norm_num) n) (Nat.pow_le_pow_right (by norm_num) (by omega))
  obtain ⟨l, h1, h2, h3, h4⟩ := decimalAux_spec n n [] hn
  have : decimalNat n = l := by
    unfold decimalNat
    rw [h1, List.append_nil]
  rw [this]
  exact ⟨h2, h3, by rw [h4 0]; simp⟩

/-- The conversion `%d` on a non-empty digit sequence followed by something that is not a
digit. -/
theorem scanInt_digits (l rest : List Char) (hl : l ≠ []) (hd : ∀ c ∈ l, isDigit c = true)
    (hrest : ∀ x xs, rest = x :: xs → isDigit x = false) :
    scanInt (l ++ rest) = some ((digitsValue 0 l : Int), rest) := by
  obtain ⟨d, ds, rfl⟩ := List.exists_cons_of_ne_nil hl
  have hdd : isDigit d = true := hd d (List.mem_cons_self _ _)
  obtain ⟨-, hsp, -, hm, hp⟩ := isDigit_facts d hdd
  have hskip : skipSpace (d :: ds ++ rest) = d :: ds ++ rest := by
    rw [List.cons_append, skipSpace, if_neg (by rw [hsp]; simp)]
  have hun : scanUnsigned (d :: ds ++ rest) = some (digitsValue 0 (d :: ds), rest) := by
    rw [List.cons_append, scanUnsigned, if_pos hdd, ← List.cons_append,
      scanDigits_append _ _ _ hd, scanDigits_stop _ _ hrest]
  unfold scanInt
  rw [hskip]
  split
  · rename_i h; simp only [List.cons_append, List.cons.injEq] at h; exact absurd h.1 hm
  · rename_i h; simp only [List.cons_append, List.cons.injEq] at h; exact absurd h.1 hp
  · rw [hun]

/-! ## Rendering and parsing: the time of day -/

theorem twoDigits_spec (n : Nat) (hn : n < 100) :
    twoDigits n ≠ [] ∧ (∀ c ∈ twoDigits n, isDigit c = true) ∧
    digitsValue 0 (twoDigits n) = n := by
  have h1 : n / 10 % 10 < 10 := Nat.mod_lt _ (by norm_num)
  have h2 : n % 10 < 10 := Nat.mod_lt _ (by norm_num)
  refine ⟨by simp [twoDigits], ?_, ?_⟩
  · intro c hc
    simp only [twoDigits, List.mem_cons, List.mem_singleton, List.not_mem_nil, or_false] at hc
    rcases hc with rfl | rfl
    · exact (digitChar_facts _ h1).2.1
    · exact (digitChar_facts _ h2).2.1
  · simp only [twoDigits, digitsValue, List.foldl_cons, List.foldl_nil,
      (digitChar_facts _ h1).1, (digitChar_facts _ h2).1]
    omega

theorem padLeft_zero_spec (w : Nat) (l : List Char) (hl : l ≠ [])
    (hd : ∀ c ∈ l, isDigit c = true) :
    padLeft w '0' l ≠ [] ∧ (∀ c ∈ padLeft w '0' l, isDigit c = true) ∧
    digitsValue 0 (padLeft w '0' l) = digitsValue 0 l := by
  unfold padLeft
  generalize w - l.length = k
  refine ⟨by simp [hl], ?_, ?_⟩
  · intro c hc
    rcases List.mem_append.mp hc with hc | hc
    · rw [(List.mem_replicate.mp hc).2]; decide
    · exact hd c hc
  · rw [digitsValue_append]
    have : digitsValue 0 (List.replicate k '0') = 0 := by
      induction k with
      | zero => rfl
      | succ k ih =>
        rw [List.replicate_succ, ← List.singleton_append, digitsValue_append]
        exact ih
    rw [this]

/-- Scanning a time of day written as two-digit fields and a digit sequence for the
milliseconds gives the four numbers back. -/
theorem sscanfTime_render (H M S : Nat) (msl : List Char) (hH : H < 100) (hM : M < 100)
    (hS : S < 100) (hms : msl ≠ []) (hms' : ∀ c ∈ msl, isDigit c = true) :
    sscanfTime (twoDigits H ++ ':' :: (twoDigits M ++ ':' :: (twoDigits S ++ '.' :: msl))) =
      some ((H : Int), (M : Int), (S : Int), (digitsValue 0 msl : Int)) := by
  obtain ⟨a1, a2, a3⟩ := twoDigits_spec H hH
  obtain ⟨b1, b2, b3⟩ := twoDigits_spec M hM
  obtain ⟨c1, c2, c3⟩ := twoDigits_spec S hS
  have hcolon : ∀ (rest : List Char) (x : Char) (xs : List Char),
      ':' :: rest = x :: xs → isDigit x = false := by
    intro rest x xs he
    simp only [List.cons.injEq] at he
    rw [← he.1]; decide
  have hdot : ∀ (rest : List Char) (x : Char) (xs : List Char),
      '.' :: rest = x :: xs → isDigit x = false := by
    intro rest x xs he
    simp only [List.cons.injEq] at he
    rw [← he.1]; decide
  have hend : ∀ (x : Char) (xs : List Char), ([] : List Char) = x :: xs → isDigit x = false := by
    intro x xs he
    cases he
  unfold sscanfTime
  rw [scanInt_digits _ _ a1 a2 (hcolon _)]
  simp only [scanLit, if_true]
  rw [scanInt_digits _ _ b1 b2 (hcolon _)]
  simp only [scanLit, if_true]
  rw [scanInt_digits _ _ c1 c2 (hdot _)]
  simp only [scanLit, if_true]
  have := scanInt_digits msl [] hms hms' hend
  rw [List.append_nil] at this
  rw [this, a3, b3, c3]

/-- The characters of a rendered time of day: no line terminator and no closing bracket. -/
theorem time_chars (H M S : Nat) (msl : List Char) (hms' : ∀ c ∈ msl, isDigit c = true) :
    ∀ c ∈ twoDigits H ++ ':' :: (twoDigits M ++ ':' :: (twoDigits S ++ '.' :: msl)),
      isDot c = true ∧ c ≠ ']' := by
  have hd : ∀ k, isDot (digitChar (k % 10)) = true ∧ digitChar (k % 10) ≠ ']' := by
    intro k
    have := digitChar_facts (k % 10) (Nat.mod_lt _ (by norm_num))
    exact ⟨this.2.2.1, this.2.2.2.2.1⟩
  intro c hc
  simp only [twoDigits, List.cons_append, List.nil_append, List.mem_cons] at hc
  rcases hc with rfl | rfl | rfl | rfl | rfl | rfl | rfl | rfl | hc
  · exact hd _
  · exact hd _
  · decide
  · exact hd _
  · exact hd _
  · decide
  · exact hd _
  · exact hd _
  · rcases hc with rfl | hc
    · decide
    · have := isDigit_facts c (hms' c hc)
      exact ⟨this.1, this.2.2.1⟩

/-! ## Rendering and parsing: the round trip -/

theorem toString_data (P : Platform) (r : Log) :
    (r.toString P).data =
      '[' :: ((r.formatTimestamp P).data ++ ']' :: '[' ::
        ((LogLevelHelper.logLevelToString r.m_Level).data ++ ']' :: '[' ::
          (decimalInt r.m_SubSystemId ++ ']' :: '(' ::
            (r.m_Source.data ++ ')' :: ' ' :: r.m_Message.data)))) := by
  simp [Log.toString, String.data_append]

theorem level_chars (l : LogLevel) :
    (∀ c ∈ (LogLevelHelper.logLevelToString l).data, isDot c = true ∧ c ≠ ']') ∧
    LogLevelHelper.StringToLogLevel (String.mk (LogLevelHelper.logLevelToString l).data) =
      Except.ok l := by
  cases l <;> exact ⟨by decide, rfl⟩

theorem stoi_decimalNat (n : Nat) (hn : n ≤ 2147483647) :
    stoi (decimalNat n) = Except.ok (n : Int) := by
  obtain ⟨-, h2, h3⟩ := decimalNat_spec n
  have h := scanDigits_append (decimalNat n) [] 0 h2
  rw [List.append_nil, h3] at h
  unfold stoi
  rw [h]
  simp only [scanDigits]
  rw [if_neg (by omega)]

/-- The local date and time of day of an instant, read back with the daylight saving flag of
that instant, give the instant. -/
theorem mktime_localtime (P : Platform) (tt : Int) :
    mktime P { tm_day := (safe_localtime P tt).tm_day,
               tm_hour := (safe_localtime P tt).tm_hour,
               tm_min := (safe_localtime P tt).tm_min,
               tm_sec := (safe_localtime P tt).tm_sec,
               tm_isdst := P.inDst tt } = tt := by
  unfold mktime safe_localtime
  simp only []
  generalize (if P.inDst tt = true then P.dstBiasSec else 0) = d
  omega

theorem localtime_ranges (P : Platform) (tt : Int) :
    0 ≤ (safe_localtime P tt).tm_hour ∧ (safe_localtime P tt).tm_hour ≤ 23 ∧
    0 ≤ (safe_localtime P tt).tm_min ∧ (safe_localtime P tt).tm_min ≤ 59 ∧
    0 ≤ (safe_localtime P tt).tm_sec ∧ (safe_localtime P tt).tm_sec ≤ 59 := by
  unfold safe_localtime
  simp only []
  generalize tt + P.utcOffsetSec + (if P.inDst tt = true then P.dstBiasSec else 0) = loc
  omega


/-- C5 (render/parse round trip), amended. Let `r` be a record whose timestamp is at or after
the epoch, whose subsystem id is a non-negative `int`, whose source contains no line
terminator and no `)` directly followed by a white-space character, and whose message
contains no line terminator (`\n`, `\r`); let the current local date be the local date of
`r`, and let daylight saving time be in force at the current instant exactly if it is in
force at the timestamp of `r`. Then `Log::parseFromString(r.toString())` succeeds and yields
a record with the same level, subsystem id, source and message as `r` and with the timestamp
of `r` truncated to milliseconds (its time string is the rendered time of `r`). -/
theorem render_parse_round_trip (P : Platform) (now : Int) (r : Log)
    (htick : 0 < P.ticksPerMs) (hts : 0 ≤ r.m_TimeStamp)
    (hid : 0 ≤ r.m_SubSystemId) (hid' : r.m_SubSystemId ≤ 2147483647)
    (hsrc : ∀ c ∈ r.m_Source.data, isDot c = true)
    (hsrc' : ∀ a₁ c a₂, r.m_Source.data = a₁ ++ ')' :: c :: a₂ → isSpace c = false)
    (hmsg : ∀ c ∈ r.m_Message.data, isDot c = true)
    (hdate : (safe_localtime P (to_time_t P now)).tm_day =
      (safe_localtime P (to_time_t P r.m_TimeStamp)).tm_day)
    (hdst : P.inDst (to_time_t P now) = P.inDst (to_time_t P r.m_TimeStamp)) :
    Log.parseFromString P now (r.toString P) = Except.ok
      { m_Level := r.m_Level, m_SubSystemId := r.m_SubSystemId, m_Message := r.m_Message,
        m_Source := r.m_Source, m_TimeStamp := r.m_TimeStamp / P.ticksPerMs * P.ticksPerMs,
        m_TimeStampStr := r.formatTimestamp P } := by
  have hk : (0 : Int) < (P.ticksPerMs : Int) := by exact_mod_cast htick
  obtain ⟨hh0, hh1, hm0, hm1, hs0, hs1⟩ := localtime_ranges P (to_time_t P r.m_TimeStamp)
  have hmsTot : toMilliseconds P r.m_TimeStamp = r.m_TimeStamp / P.ticksPerMs :=
    Int.tdiv_eq_ediv hts (le_of_lt hk)
  have hq0 : 0 ≤ r.m_TimeStamp / (P.ticksPerMs : Int) := Int.ediv_nonneg hts (le_of_lt hk)
  have hms : Int.tmod (toMilliseconds P r.m_TimeStamp) 1000 =
      r.m_TimeStamp / P.ticksPerMs % 1000 := by
    rw [hmsTot]; exact Int.tmod_eq_emod hq0 (by norm_num)
  obtain ⟨n, hn⟩ := Int.eq_ofNat_of_zero_le
    (Int.emod_nonneg (r.m_TimeStamp / P.ticksPerMs) (show (1000 : Int) ≠ 0 by norm_num))
  obtain ⟨idn, hidn⟩ := Int.eq_ofNat_of_zero_le hid
  obtain ⟨d1, d2, d3⟩ := decimalNat_spec n
  obtain ⟨p1, p2, p3⟩ := padLeft_zero_spec 3 (decimalNat n) d1 d2
  obtain ⟨i1, i2, -⟩ := decimalNat_spec idn
  have hH : (safe_localtime P (to_time_t P r.m_TimeStamp)).tm_hour.toNat < 100 := by omega
  have hM : (safe_localtime P (to_time_t P r.m_TimeStamp)).tm_min.toNat < 100 := by omega
  have hS : (safe_localtime P (to_time_t P r.m_TimeStamp)).tm_sec.toNat < 100 := by omega
  have hfmt : (r.formatTimestamp P).data =
      twoDigits (safe_localtime P (to_time_t P r.m_TimeStamp)).tm_hour.toNat ++ ':' ::
        (twoDigits (safe_localtime P (to_time_t P r.m_TimeStamp)).tm_min.toNat ++ ':' ::
          (twoDigits (safe_localtime P (to_time_t P r.m_TimeStamp)).tm_sec.toNat ++ '.' ::
            padLeft 3 '0' (decimalNat n))) := by
    unfold Log.formatTimestamp
    simp only [hms, hn]
    rfl
  have hregex := regexMatchLog_render (r.formatTimestamp P).data
    (LogLevelHelper.logLevelToString r.m_Level).data (decimalInt r.m_SubSystemId)
    r.m_Source.data r.m_Message.data
    (by rw [hfmt]; exact time_chars _ _ _ _ p2)
    (level_chars r.m_Level).1
    (by rw [hidn]; exact i1) (by rw [hidn]; exact i2) hsrc hsrc' hmsg
  have hstoi : stoi (decimalInt r.m_SubSystemId) = Except.ok r.m_SubSystemId := by
    rw [hidn]
    exact stoi_decimalNat idn (by omega)
  have hscan := sscanfTime_render _ _ _ _ hH hM hS p1 p2
  rw [← hfmt, p3, d3] at hscan
  unfold Log.parseFromString
  rw [toString_data, hregex]
  simp only [hstoi, (level_chars r.m_Level).2, hscan]
  have e1 : ((safe_localtime P (to_time_t P r.m_TimeStamp)).tm_hour.toNat : Int) =
      (safe_localtime P (to_time_t P r.m_TimeStamp)).tm_hour := Int.toNat_of_nonneg hh0
  have e2 : ((safe_localtime P (to_time_t P r.m_TimeStamp)).tm_min.toNat : Int) =
      (safe_localtime P (to_time_t P r.m_TimeStamp)).tm_min := Int.toNat_of_nonneg hm0
  have e3 : ((safe_localtime P (to_time_t P r.m_TimeStamp)).tm_sec.toNat : Int) =
      (safe_localtime P (to_time_t P r.m_TimeStamp)).tm_sec := Int.toNat_of_nonneg hs0
  rw [e1, e2, e3]
  have hn999 : (n : Int) ≤ 999 := by
    rw [← hn]
    have := Int.emod_lt_of_pos (r.m_TimeStamp / P.ticksPerMs) (show (0 : Int) < 1000 by norm_num)
    omega
  have hflag : (safe_localtime P (to_time_t P now)).tm_isdst =
      P.inDst (to_time_t P r.m_TimeStamp) := hdst
  rw [if_neg (by omega), if_neg (by omega), if_neg (by omega), if_neg (by omega),
    if_neg (by omega), hdate, hflag, mktime_localtime]
  have hfinal : from_time_t P (to_time_t P r.m_TimeStamp) + (n : Int) * P.ticksPerMs =
      r.m_TimeStamp / P.ticksPerMs * P.ticksPerMs := by
    unfold from_time_t to_time_t
    rw [Int.tdiv_eq_ediv hts (by positivity)]
    obtain ⟨A, hA⟩ := Int.eq_ofNat_of_zero_le hts
    rw [hA] at hn ⊢
    have hn' : A / P.ticksPerMs % 1000 = n := by exact_mod_cast hn
    have hnat : A / (P.ticksPerMs * 1000) * (P.ticksPerMs * 1000) + n * P.ticksPerMs =
        A / P.ticksPerMs * P.ticksPerMs := by
      rw [← Nat.div_div_eq_div_mul, ← hn']
      have := Nat.div_add_mod (A / P.ticksPerMs) 1000
      generalize A / P.ticksPerMs / 1000 = q at this ⊢
      generalize A / P.ticksPerMs % 1000 = m at this ⊢
      rw [← this]
      ring
    exact_mod_cast hnat
  simp only [Log.new, hfinal]


/-- The round trip fails as stated for arbitrary sources and messages. A record with source
`a) b` and message `m` is rendered as `[00:00:00.000][INFO][7](a) b) m`; the lazy group for
the source stops at the first `)` that is followed by white space, so parsing succeeds but
yields source `a` and message `b) m`. A record whose message contains a line feed is rendered
to a line the pattern does not match (`.` matches no line terminator), and parsing throws
`invalid_argument`. The timestamp fails across the end of daylight saving time: on a US
Eastern host a record stamped 2026-11-01 05:30:00 UTC (01:30 daylight time) is rendered with
the time `01:30:00.000`; parsed at 06:10:00 UTC (01:10 standard time, the same local date) it
gets the daylight saving flag of the current instant and comes back stamped 06:30:00 UTC, one
hour late. -/
theorem render_parse_round_trip_counterexample :
    Log.parseFromString msvc64 0
        ((Log.mk LogLevel.INFO 7 "m" "a) b" 0 "").toString msvc64) =
      Except.ok (Log.mk LogLevel.INFO 7 "b) m" "a" 0 "00:00:00.000") ∧
    (Log.mk LogLevel.INFO 7 "b) m" "a" 0 "00:00:00.000").m_Source ≠
      (Log.mk LogLevel.INFO 7 "m" "a) b" 0 "").m_Source ∧
    Log.parseFromString msvc64 0
        ((Log.mk LogLevel.INFO 7 "line1\nline2" "app" 0 "").toString msvc64) =
      Except.error (Exception.invalid_argument
        "Invalid log format: [00:00:00.000][INFO][7](app) line1\nline2") ∧
    Log.parseFromString msvc64Eastern 17935134000000000
        ((Log.mk LogLevel.INFO 7 "m" "app" 17935110000000000 "").toString msvc64Eastern) =
      Except.ok (Log.mk LogLevel.INFO 7 "m" "app" 17935146000000000 "01:30:00.000") ∧
    (safe_localtime msvc64Eastern (to_time_t msvc64Eastern 17935134000000000)).tm_day =
      (safe_localtime msvc64Eastern (to_time_t msvc64Eastern 17935110000000000)).tm_day ∧
    (17935146000000000 : Int) ≠ 17935110000000000 :=
  ⟨rfl, by decide, rfl, rfl, by decide, by decide⟩

/-- Two concrete instances of the round trip: a record stamped 12.3456789 s after the epoch,
read back on the same day on a UTC host; and on a US Eastern host a record stamped
2026-11-01 05:30:00.1234567 UTC, read back ten minutes later, before daylight saving time
ends. -/
theorem render_parse_round_trip_witness :
    Log.parseFromString msvc64 0 ((sampleLog 123456789 "hello (world) [x]").toString msvc64) =
      Except.ok (Log.mk LogLevel.INFO 7 "hello (world) [x]" "app"
        (123456789 / (msvc64.ticksPerMs : Int) * (msvc64.ticksPerMs : Int))
        ((sampleLog 123456789 "hello (world) [x]").formatTimestamp msvc64)) ∧
    Log.parseFromString msvc64Eastern 17935116000000000
        ((sampleLog 17935110001234567 "hello").toString msvc64Eastern) =
      Except.ok (Log.mk LogLevel.INFO 7 "hello" "app"
        (17935110001234567 / (msvc64Eastern.ticksPerMs : Int) *
          (msvc64Eastern.ticksPerMs : Int))
        ((sampleLog 17935110001234567 "hello").formatTimestamp msvc64Eastern)) :=
  ⟨render_parse_round_trip msvc64 0 (sampleLog 123456789 "hello (world) [x]") (by decide)
    (by decide) (by decide) (by decide) (by decide)
    (by
      intro a₁ c a₂ h
      have h' : ['a', 'p', 'p'] = a₁ ++ ')' :: c :: a₂ := h
      have hm : ')' ∈ ['a', 'p', 'p'] := by rw [h']; simp
      have hno : ')' ∉ ['a', 'p', 'p'] := by decide
      exact absurd hm hno)
    (by decide) (by decide) (by decide),
   render_parse_round_trip msvc64Eastern 17935116000000000
    (sampleLog 17935110001234567 "hello") (by decide)
    (by decide) (by decide) (by decide) (by decide)
    (by
      intro a₁ c a₂ h
      have h' : ['a', 'p', 'p'] = a₁ ++ ')' :: c :: a₂ := h
      have hm : ')' ∈ ['a', 'p', 'p'] := by rw [h']; simp
      have hno : ')' ∉ ['a', 'p', 'p'] := by decide
      exact absurd hm hno)
    (by decide) (by decide) (by decide)⟩

/-! ## Level names and ranks -/

/-- C16. `StringToLogLevel(t)` returns a level exactly when `t` is one of the five tokens
`DEBUG`, `INFO`, `WARN`, `ERROR`, `FATAL`; every other string (other case, surrounding white
space, the empty string, the enumerator name `ERRORS`) is refused with `invalid_argument`
carrying the text `Unknown log level string provided: ` followed by `t`; and reading back the
name of a level gives the level. -/
theorem level_token_parsing :
    (∀ t : String, (∃ l, LogLevelHelper.StringToLogLevel t = Except.ok l) ↔
      t ∈ ["DEBUG", "INFO", "WARN", "ERROR", "FATAL"]) ∧
    (∀ t : String, t ∉ ["DEBUG", "INFO", "WARN", "ERROR", "FATAL"] →
      LogLevelHelper.StringToLogLevel t =
        Except.error (Exception.invalid_argument ("Unknown log level string provided: " ++ t))) ∧
    (∀ l : LogLevel,
      LogLevelHelper.StringToLogLevel (LogLevelHelper.logLevelToString l) = Except.ok l) ∧
    LogLevelHelper.StringToLogLevel "DEBUG" = Except.ok LogLevel.DEBUG ∧
    LogLevelHelper.StringToLogLevel "INFO" = Except.ok LogLevel.INFO ∧
    LogLevelHelper.StringToLogLevel "WARN" = Except.ok LogLevel.WARN ∧
    LogLevelHelper.StringToLogLevel "ERROR" = Except.ok LogLevel.ERRORS ∧
    LogLevelHelper.StringToLogLevel "FATAL" = Except.ok LogLevel.FATAL ∧
    (∀ t ∈ ["debug", "Info", " WARN", "WARN ", "ERRORS", ""],
      LogLevelHelper.StringToLogLevel t =
        Except.error (Exception.invalid_argument ("Unknown log level string provided: " ++ t))) := by
  have hbad : ∀ t : String, t ∉ ["DEBUG", "INFO", "WARN", "ERROR", "FATAL"] →
      LogLevelHelper.StringToLogLevel t =
        Except.error (Exception.invalid_argument ("Unknown log level string provided: " ++ t)) := by
    intro t ht
    simp only [List.mem_cons, List.mem_singleton, List.not_mem_nil, or_false, not_or] at ht
    obtain ⟨h1, h2, h3, h4, h5⟩ := ht
    unfold LogLevelHelper.StringToLogLevel
    rw [if_neg h1, if_neg h2, if_neg h3, if_neg h4, if_neg h5]
  refine ⟨?_, hbad, ?_, rfl, rfl, rfl, rfl, rfl, ?_⟩
  · intro t
    constructor
    · rintro ⟨l, hl⟩
      by_contra hn
      rw [hbad t hn] at hl
      cases hl
    · intro ht
      simp only [List.mem_cons, List.mem_singleton, List.not_mem_nil, or_false] at ht
      rcases ht with rfl | rfl | rfl | rfl | rfl
      · exact ⟨_, rfl⟩
      · exact ⟨_, rfl⟩
      · exact ⟨_, rfl⟩
      · exact ⟨_, rfl⟩
      · exact ⟨_, rfl⟩
  · intro l
    cases l <;> rfl
  · intro t ht
    exact hbad t (by
      simp only [List.mem_cons, List.mem_singleton, List.not_mem_nil, or_false] at ht
      rcases ht with rfl | rfl | rfl | rfl | rfl | rfl <;> decide)

namespace LogPriorityQueue

theorem enqueueInternal_length (P : Platform) (q : LogPriorityQueue) (r : Log) :
    (q.enqueueInternal P r).2.m_Queue.length =
      q.m_Queue.length + (if (q.enqueueInternal P r).1 then 1 else 0) := by
  unfold enqueueInternal
  simp only []
  split
  · simp
  · split
    · simp
    · simp

theorem admittedInBatch_spec (P : Platform) (rs : List Log) (q : LogPriorityQueue) :
    admittedInBatch P q rs ≤ rs.length ∧
    (rs.foldl (fun s log => (enqueueInternal P s log).2) q).m_Queue.length =
      q.m_Queue.length + admittedInBatch P q rs := by
  induction rs generalizing q with
  | nil => simp [admittedInBatch]
  | cons r rs ih =>
    obtain ⟨h1, h2⟩ := ih (q.enqueueInternal P r).2
    have h3 := enqueueInternal_length P q r
    simp only [admittedInBatch, List.foldl_cons, List.length_cons]
    refine ⟨?_, ?_⟩
    · split <;> omega
    · rw [h2, h3]; omega

end LogPriorityQueue

/-- C19, as stated, fails: `enqueueBatch` returns a `bool`, and it is `true` whatever number
of records was admitted. On a buffer of 300 bytes a batch of two records that are both
admitted and a batch of two records of which none is admitted (each larger than a buffer of
100 bytes) give the same result `true`. -/
theorem priority_batch_result_counterexample :
    ((LogPriorityQueue.mk0 300).enqueueBatch msvc64 [sampleLog 1 "a", sampleLog 2 "b"]).1 = true ∧
    LogPriorityQueue.admittedInBatch msvc64 (LogPriorityQueue.mk0 300)
      [sampleLog 1 "a", sampleLog 2 "b"] = 2 ∧
    ((LogPriorityQueue.mk0 100).enqueueBatch msvc64 [sampleLog 1 "a", sampleLog 2 "b"]).1 = true ∧
    LogPriorityQueue.admittedInBatch msvc64 (LogPriorityQueue.mk0 100)
      [sampleLog 1 "a", sampleLog 2 "b"] = 0 := by
  decide

/-- C19, amended. For every state and every sequence `rs`, `enqueueBatch(rs)` returns `true`;
it offers the records one by one under the per-record admission rule, the number admitted lies
between 0 and the length of `rs`, and the number of held records grows by exactly that
number. -/
theorem priority_batch_result (P : Platform) (q : LogPriorityQueue) (rs : List Log) :
    (q.enqueueBatch P rs).1 = true ∧
    0 ≤ LogPriorityQueue.admittedInBatch P q rs ∧
    LogPriorityQueue.admittedInBatch P q rs ≤ rs.length ∧
    (q.enqueueBatch P rs).2.size = q.size + LogPriorityQueue.admittedInBatch P q rs ∧
    (q.enqueueBatch P rs).2 = rs.foldl (fun s r => (s.enqueue P r).2) q := by
  obtain ⟨h1, h2⟩ := LogPriorityQueue.admittedInBatch_spec P rs q
  exact ⟨rfl, Nat.zero_le _, h1, h2, rfl⟩

/-- C20. In every state reached from the empty buffer (capacity below `2 ^ 63`) by any
sequence of `enqueue`, `enqueueBatch`, `dequeue`, `dequeueBatch`, `reset` (and `shutdown`)
calls, `usedBytes()` is the sum of `computeLogSizeInBytes` over the records held; so it is 0
exactly when that sum is 0, it is 0 when no record is held, and it is 0 for the empty
buffer. -/
theorem priority_accounting (P : Platform) (cap : Nat) (ops : List PQOp) (hcap : cap < 2 ^ 63) :
    ((LogPriorityQueue.mk0 cap).run P ops).usedBytes =
      totalSize P ((LogPriorityQueue.mk0 cap).run P ops).m_Queue ∧
    (((LogPriorityQueue.mk0 cap).run P ops).usedBytes = 0 ↔
      totalSize P ((LogPriorityQueue.mk0 cap).run P ops).m_Queue = 0) ∧
    (((LogPriorityQueue.mk0 cap).run P ops).empty = true →
      ((LogPriorityQueue.mk0 cap).run P ops).usedBytes = 0) ∧
    (LogPriorityQueue.mk0 cap).usedBytes = 0 := by
  have h := (LogPriorityQueue.Inv_run P ops _ (LogPriorityQueue.Inv_mk0 P cap hcap)).1
  refine ⟨h, ?_, ?_, rfl⟩
  · unfold LogPriorityQueue.usedBytes; rw [h]
  · intro he
    unfold LogPriorityQueue.usedBytes
    rw [h]
    unfold LogPriorityQueue.empty at he
    rw [List.isEmpty_iff] at he
    rw [he]; rfl

/-- An instance of the accounting: two records admitted, the earlier one taken out; the
counter is the size of the one record left, 142 bytes. -/
theorem priority_accounting_witness :
    ((LogPriorityQueue.mk0 300).run msvc64 [PQOp.enqueue (sampleLog 5 "a"),
      PQOp.enqueue (sampleLog 3 "b"), PQOp.dequeue]).usedBytes =
      totalSize msvc64 ((LogPriorityQueue.mk0 300).run msvc64 [PQOp.enqueue (sampleLog 5 "a"),
        PQOp.enqueue (sampleLog 3 "b"), PQOp.dequeue]).m_Queue ∧
    ((LogPriorityQueue.mk0 300).run msvc64 [PQOp.enqueue (sampleLog 5 "a"),
      PQOp.enqueue (sampleLog 3 "b"), PQOp.dequeue]).usedBytes = 142 :=
  ⟨(priority_accounting msvc64 300 [PQOp.enqueue (sampleLog 5 "a"),
      PQOp.enqueue (sampleLog 3 "b"), PQOp.dequeue] (by norm_num)).1, by decide⟩

/-! ## The reader worker: dead-lettering -/

/-- C13. For every record `r` and every state, the reader enqueues `r` into the dead-letter
queue, leaving `localBuffer` and the priority queue alone, exactly when the rank of `r` is at
most that of `INFO` (the level is `DEBUG` or `INFO`) and `size()` of the priority queue
exceeds 1000; otherwise `r` is appended to `localBuffer` and both queues are untouched. An
`INFO` record arriving at 1001 held records is enqueued into the dead-letter queue (and is its
newest record unless it is larger than the whole queue); a `WARN`, `ERROR` or `FATAL` record
is never diverted, and nothing is diverted at 1000 held records. -/
theorem low_level_diversion (P : Platform) (w : MQReaderThreadWorker) (r : Log) :
    (w.deadLettered r = true ↔
      (r.m_Level = LogLevel.DEBUG ∨ r.m_Level = LogLevel.INFO) ∧
        w.m_LogPriorityQueue.size > 1000) ∧
    (w.deadLettered r = true →
      w.route P r = MQReaderThreadWorker.mk w.m_LogPriorityQueue
        (w.m_LogDLQueue.enqueue P r).2 w.localBuffer) ∧
    (w.deadLettered r = false →
      w.route P r = MQReaderThreadWorker.mk w.m_LogPriorityQueue w.m_LogDLQueue
        (w.localBuffer ++ [r])) ∧
    (r.m_Level = LogLevel.INFO → w.m_LogPriorityQueue.size = 1001 →
      (w.route P r).m_LogDLQueue = (w.m_LogDLQueue.enqueue P r).2 ∧
      (w.route P r).localBuffer = w.localBuffer ∧
      (w.route P r).m_LogPriorityQueue = w.m_LogPriorityQueue ∧
      (computeLogSizeInBytes P r ≤ w.m_LogDLQueue.m_MaxSizeInBytes →
        (w.route P r).m_LogDLQueue.m_Queue.getLast? = some r)) ∧
    (r.m_Level = LogLevel.WARN ∨ r.m_Level = LogLevel.ERRORS ∨ r.m_Level = LogLevel.FATAL →
      w.deadLettered r = false ∧ (w.route P r).m_LogDLQueue = w.m_LogDLQueue ∧
      (w.route P r).localBuffer = w.localBuffer ++ [r]) ∧
    (w.m_LogPriorityQueue.size ≤ 1000 →
      w.deadLettered r = false ∧ (w.route P r).m_LogDLQueue = w.m_LogDLQueue ∧
      (w.route P r).localBuffer = w.localBuffer ++ [r]) := by
  have hiff : w.deadLettered r = true ↔
      (r.m_Level = LogLevel.DEBUG ∨ r.m_Level = LogLevel.INFO) ∧
        w.m_LogPriorityQueue.size > 1000 := by
    unfold MQReaderThreadWorker.deadLettered Log.getLogLevel
    rw [Bool.and_eq_true, decide_eq_true_iff, decide_eq_true_iff]
    have : LogLevelHelper.getLogLevel r.m_Level ≤ LogLevelHelper.getLogLevel LogLevel.INFO ↔
        (r.m_Level = LogLevel.DEBUG ∨ r.m_Level = LogLevel.INFO) := by
      cases r.m_Level <;> decide
    rw [this]
  have hyes : w.deadLettered r = true →
      w.route P r = MQReaderThreadWorker.mk w.m_LogPriorityQueue
        (w.m_LogDLQueue.enqueue P r).2 w.localBuffer := by
    intro h
    unfold MQReaderThreadWorker.route
    rw [if_pos h]
  have hno : w.deadLettered r = false →
      w.route P r = MQReaderThreadWorker.mk w.m_LogPriorityQueue w.m_LogDLQueue
        (w.localBuffer ++ [r]) := by
    intro h
    unfold MQReaderThreadWorker.route
    rw [if_neg (by rw [h]; decide)]
  refine ⟨hiff, hyes, hno, ?_, ?_, ?_⟩
  · intro hl hs
    have hd : w.deadLettered r = true := hiff.mpr ⟨Or.inr hl, by omega⟩
    rw [hyes hd]
    refine ⟨rfl, rfl, rfl, ?_⟩
    intro hfit
    have hadm : (w.m_LogDLQueue.enqueueInternal P r).1 = true := by
      cases hb : (w.m_LogDLQueue.enqueueInternal P r).1 with
      | true => rfl
      | false =>
        have := (LogDLQueue.dlq_enqueueInternal_reject P w.m_LogDLQueue r).1.mp hb
        omega
    show (w.m_LogDLQueue.enqueueInternal P r).2.m_Queue.getLast? = some r
    rw [(LogDLQueue.dlq_enqueueInternal_admit P w.m_LogDLQueue r hadm).1]
    simp
  · intro hl
    have hd : w.deadLettered r = false := by
      cases hb : w.deadLettered r with
      | false => rfl
      | true =>
        have := (hiff.mp hb).1
        rcases hl with h | h | h <;> rw [h] at this <;> simp at this
    rw [hno hd]
    exact ⟨hd, rfl, rfl⟩
  · intro hs
    have hd : w.deadLettered r = false := by
      cases hb : w.deadLettered r with
      | false => rfl
      | true =>
        have := (hiff.mp hb).2
        omega
    rw [hno hd]
    exact ⟨hd, rfl, rfl⟩

/-- The scenario at 1001 held records: an `INFO` record goes to the dead-letter queue and not
to `localBuffer`. -/
theorem low_level_diversion_witness :
    ((MQReaderThreadWorker.mk
        (LogPriorityQueue.mk (List.replicate 1001 (sampleLog 0 "a")) false 142142 1048576)
        (LogDLQueue.mk0 1) []).route msvc64 (sampleLog 5 "x")).m_LogDLQueue.m_Queue.getLast? =
      some (sampleLog 5 "x") ∧
    ((MQReaderThreadWorker.mk
        (LogPriorityQueue.mk (List.replicate 1001 (sampleLog 0 "a")) false 142142 1048576)
        (LogDLQueue.mk0 1) []).route msvc64 (sampleLog 5 "x")).localBuffer = [] :=
  have h := (low_level_diversion msvc64
    (MQReaderThreadWorker.mk
      (LogPriorityQueue.mk (List.replicate 1001 (sampleLog 0 "a")) false 142142 1048576)
      (LogDLQueue.mk0 1) []) (sampleLog 5 "x")).2.2.2.1 rfl
      (List.length_replicate _ _)
  ⟨h.2.2.2 (by decide), h.2.1⟩

/-! ## The drain worker: the first record -/

/-- C11 fails on the code. A freshly constructed worker has `m_Latest` at the minimum of the
64-bit clock, `-2 ^ 63` ticks. For every record stamped after the epoch (and at least 201 ms
before the maximum of the clock) the difference `m_Latest - logTime` is below the minimum and
wraps to `2 ^ 63 - logTime`, a delay far above 200 ms: the first line written is `"[BACKLOG]"`
followed by the rendering. Only records stamped at or before the epoch are written without
the prefix. -/
theorem first_record_tagged (P : Platform) (r : Log) (htick : 0 < P.ticksPerMs)
    (h0 : 0 < r.m_TimeStamp) (hhi : r.m_TimeStamp + 201 * P.ticksPerMs ≤ 2 ^ 63) :
    wrapInt64 (LogWriterThread.mk0.m_Latest - r.m_TimeStamp) = 2 ^ 63 - r.m_TimeStamp ∧
    LogWriterThread.finalLog P LogWriterThread.mk0 r = "[BACKLOG]" ++ r.toString P ∧
    (LogWriterThread.processBatch P LogWriterThread.mk0 [r]).written =
      ["[BACKLOG]" ++ r.toString P] ∧
    (∀ r₀ : Log, -(2 ^ 63) ≤ r₀.m_TimeStamp → r₀.m_TimeStamp ≤ 0 →
      LogWriterThread.finalLog P LogWriterThread.mk0 r₀ = r₀.toString P) := by
  have hk : (0 : Int) < (P.ticksPerMs : Int) := by exact_mod_cast htick
  have hw : wrapInt64 (LogWriterThread.mk0.m_Latest - r.m_TimeStamp) =
      2 ^ 63 - r.m_TimeStamp := by
    show wrapInt64 (-(2 ^ 63) - r.m_TimeStamp) = _
    unfold wrapInt64
    have : (-(2 ^ 63) - r.m_TimeStamp + 2 ^ 63) % 2 ^ 64 = 2 ^ 64 - r.m_TimeStamp := by
      have e : -(2 ^ 63 : Int) - r.m_TimeStamp + 2 ^ 63 =
          (2 ^ 64 - r.m_TimeStamp) + (-1) * 2 ^ 64 := by ring
      rw [e, Int.add_mul_emod_self]
      exact Int.emod_eq_of_lt (by omega) (by omega)
    rw [this]; ring
  have hf : LogWriterThread.finalLog P LogWriterThread.mk0 r = "[BACKLOG]" ++ r.toString P := by
    unfold LogWriterThread.finalLog toMilliseconds LogWriterThread.BACKLOG_THRESHOLD
      Log.getTimestamp
    simp only []
    rw [hw]
    have := @tdiv_gt_iff (2 ^ 63 - r.m_TimeStamp) P.ticksPerMs 200 hk (by norm_num)
    rw [if_pos (this.mpr (by omega))]
  refine ⟨hw, hf, ?_, ?_⟩
  · show ([] : List String) ++ [LogWriterThread.finalLog P LogWriterThread.mk0 r] = _
    rw [hf]; rfl
  · intro r₀ hlo hle
    unfold LogWriterThread.finalLog toMilliseconds LogWriterThread.BACKLOG_THRESHOLD
      Log.getTimestamp
    simp only []
    have hr : wrapInt64 (LogWriterThread.mk0.m_Latest - r₀.m_TimeStamp) =
        -(2 ^ 63) - r₀.m_TimeStamp :=
      wrapInt64_of_range (by show -(2 ^ 63) ≤ -(2 ^ 63) - r₀.m_TimeStamp; omega)
        (by show -(2 ^ 63) - r₀.m_TimeStamp < 2 ^ 63; omega)
    rw [hr]
    have := @tdiv_gt_iff (-(2 ^ 63) - r₀.m_TimeStamp) P.ticksPerMs 200 hk (by norm_num)
    rw [if_neg (by
      intro hc
      have h2 := this.mp hc
      have h3 : (0 : Int) < (200 + 1) * (P.ticksPerMs : Int) := by positivity
      show False
      have h4 : (-(2 ^ 63) - r₀.m_TimeStamp : Int) ≤ 0 := by omega
      omega)]

/-- The failing input: a fresh worker and a first record stamped 2026-11-01 00:00:00 UTC
(17934912000000000 ticks of 100 ns); the line written carries the `"[BACKLOG]"` prefix. -/
theorem first_record_tagged_witness :
    (LogWriterThread.processBatch msvc64 LogWriterThread.mk0
      [sampleLog 17934912000000000 "first"]).written =
      ["[BACKLOG][00:00:00.000][INFO][7](app) first"] := by
  have h := (first_record_tagged msvc64 (sampleLog 17934912000000000 "first") (by decide)
    (by decide) (by decide)).2.2.1
  rw [h]
  decide

/-! ## Parsing: time fields out of range -/

/-- C18 fails on the code. An hour, minute or second outside its range is not clamped to the
nearest bound but replaced by 0: the time `25:61:75.000` is read as `00:00:00.000`, where
clamping gives `23:59:59.000`. Milliseconds are clamped (`1000` is read as `999`), fields in
range are kept, and none of these lines makes the call fail. -/
theorem time_fields_reset_not_clamped :
    (∃ r, Log.parseFromString msvc64 0 "[25:61:75.000][INFO][1](app) x" = Except.ok r ∧
      r.formatTimestamp msvc64 = "00:00:00.000" ∧ r.m_TimeStamp = 0) ∧
    (∃ r, Log.parseFromString msvc64 0 "[25:00:00.000][INFO][1](app) x" = Except.ok r ∧
      r.formatTimestamp msvc64 = "00:00:00.000") ∧
    (∃ r, Log.parseFromString msvc64 0 "[12:60:30.000][INFO][1](app) x" = Except.ok r ∧
      r.formatTimestamp msvc64 = "12:00:30.000") ∧
    (∃ r, Log.parseFromString msvc64 0 "[12:30:60.000][INFO][1](app) x" = Except.ok r ∧
      r.formatTimestamp msvc64 = "12:30:00.000") ∧
    (∃ r, Log.parseFromString msvc64 0 "[12:30:45.1000][INFO][1](app) x" = Except.ok r ∧
      r.formatTimestamp msvc64 = "12:30:45.999") ∧
    (∃ r, Log.parseFromString msvc64 0 "[23:59:59.999][INFO][1](app) x" = Except.ok r ∧
      r.formatTimestamp msvc64 = "23:59:59.999") := by
  refine ⟨⟨_, rfl, by decide, by decide⟩, ⟨_, rfl, by decide⟩, ⟨_, rfl, by decide⟩,
    ⟨_, rfl, by decide⟩, ⟨_, rfl, by decide⟩, ⟨_, rfl, by decide⟩⟩

/-! ## The render format -/

theorem decimalAux_succ (f n : Nat) (acc : List Char) :
    decimalAux (f + 1) n acc =
      if n < 10 then digitChar n :: acc
      else decimalAux f (n / 10) (digitChar (n % 10) :: acc) := rfl

theorem digitChar_eq_library : ∀ d, d < 10 → Nat.digitChar d = digitChar d := by
  decide

theorem decimalAux_eq_toDigitsCore (f : Nat) : ∀ (n : Nat) (acc : List Char),
    decimalAux f n acc = Nat.toDigitsCore 10 f n acc := by
  induction f with
  | zero => intro n acc; rfl
  | succ f ih =>
    intro n acc
    rw [decimalAux_succ]
    unfold Nat.toDigitsCore
    simp only []
    rw [digitChar_eq_library (n % 10) (Nat.mod_lt _ (by norm_num))]
    by_cases h : n < 10
    · rw [if_pos h, if_pos (by omega)]
      rw [Nat.mod_eq_of_lt h]
    · rw [if_neg h, if_neg (by omega)]
      exact ih _ _

/-- What the stream inserter writes for an `int` is its usual decimal notation. -/
theorem decimalInt_eq_toString (i : Int) : String.mk (decimalInt i) = ToString.toString i := by
  cases i with
  | ofNat n =>
    show String.mk (decimalAux (n + 1) n []) = _
    rw [decimalAux_eq_toDigitsCore]
    rfl
  | negSucc n =>
    show String.mk ('-' :: decimalAux (n + 1 + 1) (n + 1) []) = _
    rw [decimalAux_eq_toDigitsCore]
    rfl

theorem twoDigits_eq_spec (n : Nat) : twoDigits n = zeroPaddedSpec 2 n := by
  simp [twoDigits, zeroPaddedSpec, digitChar, List.range, List.range.loop]

theorem threeDigits_eq_spec (n : Nat) (hn : n < 1000) :
    padLeft 3 '0' (decimalInt (n : Int)) = zeroPaddedSpec 3 n := by
  have hspec : zeroPaddedSpec 3 n =
      [digitChar (n / 100 % 10), digitChar (n / 10 % 10), digitChar (n % 10)] := by
    simp [zeroPaddedSpec, digitChar, List.range, List.range.loop]
  rw [hspec]
  show padLeft 3 '0' (decimalAux (n + 1) n []) = _
  rw [decimalAux_succ]
  by_cases h1 : n < 10
  · rw [if_pos h1]
    have a : n / 100 % 10 = 0 := by omega
    have b : n / 10 % 10 = 0 := by omega
    have c : n % 10 = n := by omega
    rw [a, b, c]
    rfl
  · rw [if_neg h1]
    obtain ⟨m, rfl⟩ : ∃ m, n = m + 1 := ⟨n - 1, by omega⟩
    rw [decimalAux_succ]
    by_cases h2 : (m + 1) / 10 < 10
    · rw [if_pos h2]
      have a : (m + 1) / 100 % 10 = 0 := by omega
      have b : (m + 1) / 10 % 10 = (m + 1) / 10 := by omega
      rw [a, b]
      rfl
    · rw [if_neg h2]
      obtain ⟨k, rfl⟩ : ∃ k, m = k + 1 := ⟨m - 1, by omega⟩
      rw [decimalAux_succ]
      have h3 : (k + 1 + 1) / 10 / 10 < 10 := by omega
      rw [if_pos h3]
      have a : (k + 1 + 1) / 100 % 10 = (k + 1 + 1) / 10 / 10 := by omega
      have b : (k + 1 + 1) / 10 % 10 = (k + 1 + 1) / 10 % 10 := rfl
      rw [a]
      rfl

theorem formatTimestamp_eq_spec (P : Platform) (r : Log) (htick : 0 < P.ticksPerMs)
    (hts : 0 ≤ r.m_TimeStamp) : r.formatTimestamp P = timeOfDaySpec P r.m_TimeStamp := by
  have hk : (0 : Int) < (P.ticksPerMs : Int) := by exact_mod_cast htick
  have hq0 : 0 ≤ r.m_TimeStamp / (P.ticksPerMs : Int) := Int.ediv_nonneg hts (le_of_lt hk)
  have hmsTot : toMilliseconds P r.m_TimeStamp = r.m_TimeStamp / P.ticksPerMs :=
    Int.tdiv_eq_ediv hts (le_of_lt hk)
  have hms : Int.tmod (toMilliseconds P r.m_TimeStamp) 1000 =
      r.m_TimeStamp / P.ticksPerMs % 1000 := by
    rw [hmsTot]; exact Int.tmod_eq_emod hq0 (by norm_num)
  have htt : to_time_t P r.m_TimeStamp = r.m_TimeStamp / P.ticksPerMs / 1000 := by
    unfold to_time_t
    rw [Int.tdiv_eq_ediv hts (by positivity)]
    obtain ⟨a, ha⟩ := Int.eq_ofNat_of_zero_le hts
    rw [ha]
    have : (a : Int) / ((P.ticksPerMs : Int) * 1000) = ((a / (P.ticksPerMs * 1000) : Nat) : Int) := by
      push_cast; rfl
    rw [this, ← Nat.div_div_eq_div_mul]
    push_cast; rfl
  obtain ⟨n, hn⟩ := Int.eq_ofNat_of_zero_le
    (Int.emod_nonneg (r.m_TimeStamp / P.ticksPerMs) (show (1000 : Int) ≠ 0 by norm_num))
  have hn1000 : n < 1000 := by
    have := Int.emod_lt_of_pos (r.m_TimeStamp / P.ticksPerMs) (show (0 : Int) < 1000 by norm_num)
    omega
  unfold Log.formatTimestamp timeOfDaySpec safe_localtime
  simp only []
  rw [hms, htt, hn, Int.toNat_ofNat, threeDigits_eq_spec n hn1000, twoDigits_eq_spec,
    twoDigits_eq_spec, twoDigits_eq_spec]
  generalize r.m_TimeStamp / (P.ticksPerMs : Int) / 1000 + P.utcOffsetSec +
    (if P.inDst (r.m_TimeStamp / (P.ticksPerMs : Int) / 1000) = true then P.dstBiasSec
      else 0) = loc
  have e1 : loc % 86400 / 3600 = loc / 3600 % 24 := by omega
  have e2 : loc % 3600 / 60 = loc / 60 % 60 := by omega
  rw [e1, e2]
  simp

/-- C15. For every record `r` with a timestamp at or after the epoch (every instant a wall
clock delivers), `toString(r)` is exactly `"[" + HH:MM:SS.mmm + "][" + LEVEL + "][" + decimal
subsystem id + "](" + source + ") " + message`: `HH`, `MM`, `SS` are the two-digit and `mmm`
the three-digit zero-padded hour, minute, second and millisecond of the timestamp in local
time, `LEVEL` is the upper-case level name (`ERROR` for the level declared as `ERRORS`), and
the subsystem id is in the usual decimal notation. Each time field consists of digits only
and reads back as its number. -/
theorem render_format (P : Platform) (r : Log) (htick : 0 < P.ticksPerMs)
    (hts : 0 ≤ r.m_TimeStamp) :
    r.toString P = renderSpec P r ∧
    r.toString P = "[" ++ timeOfDaySpec P r.m_TimeStamp ++ "][" ++ levelTokenSpec r.m_Level ++
      "][" ++ ToString.toString r.m_SubSystemId ++ "](" ++ r.m_Source ++ ") " ++ r.m_Message ∧
    (timeOfDaySpec P r.m_TimeStamp).length = 12 ∧
    (∀ n, n < 100 → (zeroPaddedSpec 2 n).length = 2 ∧
      (∀ c ∈ zeroPaddedSpec 2 n, isDigit c = true) ∧ digitsValue 0 (zeroPaddedSpec 2 n) = n) ∧
    (∀ n, n < 1000 → (zeroPaddedSpec 3 n).length = 3 ∧
      (∀ c ∈ zeroPaddedSpec 3 n, isDigit c = true) ∧ digitsValue 0 (zeroPaddedSpec 3 n) = n) ∧
    LogLevelHelper.logLevelToString LogLevel.ERRORS = "ERROR" ∧
    (∀ l, LogLevelHelper.logLevelToString l = levelTokenSpec l) := by
  have hlev : ∀ l, LogLevelHelper.logLevelToString l = levelTokenSpec l := by
    intro l; cases l <;> rfl
  have hmain : r.toString P = renderSpec P r := by
    unfold Log.toString renderSpec
    rw [formatTimestamp_eq_spec P r htick hts, hlev, decimalInt_eq_toString]
    simp only [String.append_assoc]
    rfl
  refine ⟨hmain, hmain, ?_, ?_, ?_, rfl, hlev⟩
  · simp [timeOfDaySpec, zeroPaddedSpec, String.length]
  · intro n hn
    rw [← twoDigits_eq_spec]
    obtain ⟨-, h2, h3⟩ := twoDigits_spec n hn
    exact ⟨rfl, h2, h3⟩
  · intro n hn
    rw [← threeDigits_eq_spec n hn]
    obtain ⟨d1, d2, d3⟩ := decimalNat_spec n
    obtain ⟨-, p2, p3⟩ := padLeft_zero_spec 3 (decimalNat n) d1 d2
    have hd : decimalInt (n : Int) = decimalNat n := rfl
    rw [hd]
    refine ⟨?_, p2, by rw [p3, d3]⟩
    rw [← hd, threeDigits_eq_spec n hn]
    simp [zeroPaddedSpec]

/-- An instance of the render format: a record stamped 12.3456789 s after the epoch. -/
theorem render_format_witness :
    (sampleLog 123456789 "hello").toString msvc64 = renderSpec msvc64 (sampleLog 123456789 "hello") ∧
    renderSpec msvc64 (sampleLog 123456789 "hello") = "[00:00:12.345][INFO][7](app) hello" ∧
    renderSpec msvc64 (Log.mk LogLevel.ERRORS (-3) "disk full" "io" 863999990000 "") =
      "[23:59:59.999][ERROR][-3](io) disk full" :=
  ⟨(render_format msvc64 (sampleLog 123456789 "hello") (by decide) (by decide)).1,
    by decide, by decide⟩

/-! ## Parsing: acceptance and rejection -/

theorem lazyStar_sound {α : Type} (p : Char → Bool) (k : List Char → List Char → Option α)
    (s acc : List Char) (r : α) (h : lazyStar p k acc s = some r) :
    ∃ a rest, s = a ++ rest ∧ (∀ c ∈ a, p c = true) ∧ k (acc.reverse ++ a) rest = some r := by
  induction s generalizing acc with
  | nil => exact ⟨[], [], rfl, by simp, by simpa [lazyStar] using h⟩
  | cons x xs ih =>
    rw [lazyStar_cons] at h
    cases hk : k acc.reverse (x :: xs) with
    | some r' =>
      rw [hk] at h
      exact ⟨[], x :: xs, rfl, by simp, by simpa [hk] using h⟩
    | none =>
      rw [hk] at h
      by_cases hp : p x = true
      · simp only [hp, if_true] at h
        obtain ⟨a, rest, h1, h2, h3⟩ := ih (x :: acc) h
        refine ⟨x :: a, rest, by rw [h1]; rfl, ?_, by simpa using h3⟩
        intro c hc
        rcases List.mem_cons.mp hc with rfl | hc
        · exact hp
        · exact h2 c hc
      · simp [hp] at h

theorem lazyStar_complete {α : Type} (p : Char → Bool) (k : List Char → List Char → Option α)
    (a rest acc : List Char) (hp : ∀ c ∈ a, p c = true)
    (hk : (k (acc.reverse ++ a) rest).isSome = true) :
    (lazyStar p k acc (a ++ rest)).isSome = true := by
  induction a generalizing acc with
  | nil =>
    simp only [List.append_nil, List.nil_append] at hk ⊢
    cases rest with
    | nil => simpa [lazyStar] using hk
    | cons x xs =>
      rw [lazyStar_cons]
      cases hx : k acc.reverse (x :: xs) with
      | some r' => rfl
      | none => rw [hx] at hk; simp at hk
  | cons c a' ih =>
    rw [List.cons_append, lazyStar_cons]
    cases hx : k acc.reverse (c :: (a' ++ rest)) with
    | some r' => rfl
    | none =>
      have hpc : p c = true := hp c (List.mem_cons_self _ _)
      simp only [hpc, if_true]
      apply ih
      · intro x hx'; exact hp x (List.mem_cons_of_mem _ hx')
      · simpa using hk

theorem greedyStar_sound {α : Type} (p : Char → Bool) (k : List Char → List Char → Option α)
    (s acc : List Char) (r : α) (h : greedyStar p k acc s = some r) :
    ∃ a rest, s = a ++ rest ∧ (∀ c ∈ a, p c = true) ∧ k (acc.reverse ++ a) rest = some r := by
  induction s generalizing acc with
  | nil => exact ⟨[], [], rfl, by simp, by simpa [greedyStar] using h⟩
  | cons x xs ih =>
    rw [greedyStar_cons] at h
    by_cases hp : p x = true
    · simp only [hp, if_true] at h
      cases hg : greedyStar p k (x :: acc) xs with
      | some r' =>
        rw [hg] at h
        have hr : r' = r := by simpa using h
        subst hr
        obtain ⟨a, rest, h1, h2, h3⟩ := ih (x :: acc) hg
        refine ⟨x :: a, rest, by rw [h1]; rfl, ?_, by simpa using h3⟩
        intro c hc
        rcases List.mem_cons.mp hc with rfl | hc
        · exact hp
        · exact h2 c hc
      | none =>
        rw [hg] at h
        exact ⟨[], x :: xs, rfl, by simp, by simpa using h⟩
    · simp only [hp] at h
      exact ⟨[], x :: xs, rfl, by simp, by simpa using h⟩

theorem greedyStar_complete {α : Type} (p : Char → Bool) (k : List Char → List Char → Option α)
    (a rest acc : List Char) (hp : ∀ c ∈ a, p c = true)
    (hk : (k (acc.reverse ++ a) rest).isSome = true) :
    (greedyStar p k acc (a ++ rest)).isSome = true := by
  induction a generalizing acc with
  | nil =>
    simp only [List.append_nil, List.nil_append] at hk ⊢
    cases rest with
    | nil => simpa [greedyStar] using hk
    | cons x xs =>
      rw [greedyStar_cons]
      by_cases hpx : p x = true
      · simp only [hpx, if_true]
        cases hg : greedyStar p k (x :: acc) xs with
        | some r' => rfl
        | none => exact hk
      · simp only [hpx]
        exact hk
  | cons c a' ih =>
    have hpc : p c = true := hp c (List.mem_cons_self _ _)
    rw [List.cons_append, greedyStar_cons]
    simp only [hpc, if_true]
    have := ih (c :: acc) (fun x hx' => hp x (List.mem_cons_of_mem _ hx')) (by simpa using hk)
    cases hg : greedyStar p k (c :: acc) (a' ++ rest) with
    | some r' => rfl
    | none => rw [hg] at this; simp at this

theorem matchChar_some {α : Type} (c : Char) (k : List Char → Option α) (s : List Char) (r : α)
    (h : matchChar c k s = some r) : ∃ xs, s = c :: xs ∧ k xs = some r := by
  cases s with
  | nil => simp [matchChar] at h
  | cons x xs =>
    by_cases hx : x = c
    · subst hx
      exact ⟨xs, rfl, by simpa [matchChar] using h⟩
    · simp [matchChar, hx] at h

theorem matchClass_some {α : Type} (p : Char → Bool) (k : List Char → Option α)
    (s : List Char) (r : α) (h : matchClass p k s = some r) :
    ∃ x xs, s = x :: xs ∧ p x = true ∧ k xs = some r := by
  cases s with
  | nil => simp [matchClass] at h
  | cons x xs =>
    by_cases hx : p x = true
    · exact ⟨x, xs, rfl, hx, by simpa [matchClass, hx] using h⟩
    · simp [matchClass, hx] at h

theorem greedyPlus_sound {α : Type} (p : Char → Bool) (k : List Char → List Char → Option α)
    (s : List Char) (r : α) (h : greedyPlus p k s = some r) :
    ∃ a rest, s = a ++ rest ∧ a ≠ [] ∧ (∀ c ∈ a, p c = true) ∧ k a rest = some r := by
  cases s with
  | nil => simp [greedyPlus] at h
  | cons x xs =>
    by_cases hx : p x = true
    · simp only [greedyPlus, hx, if_true] at h
      obtain ⟨a, rest, h1, h2, h3⟩ := greedyStar_sound p k xs [x] r h
      refine ⟨x :: a, rest, by rw [h1]; rfl, by simp, ?_, by simpa using h3⟩
      intro c hc
      rcases List.mem_cons.mp hc with rfl | hc
      · exact hx
      · exact h2 c hc
    · simp [greedyPlus, hx] at h

theorem greedyPlus_complete {α : Type} (p : Char → Bool)
    (k : List Char → List Char → Option α) (a rest : List Char) (ha : a ≠ [])
    (hp : ∀ c ∈ a, p c = true) (hk : (k a rest).isSome = true) :
    (greedyPlus p k (a ++ rest)).isSome = true := by
  obtain ⟨x, a', rfl⟩ := List.exists_cons_of_ne_nil ha
  have hx : p x = true := hp x (List.mem_cons_self _ _)
  simp only [List.cons_append, greedyPlus, hx, if_true]
  exact greedyStar_complete p k a' rest [x] (fun c hc => hp c (List.mem_cons_of_mem _ hc))
    (by simpa using hk)

/-- The matcher answers with a decomposition of the line. -/
theorem regexMatchLog_sound (line t lv id src msg : List Char)
    (h : regexMatchLog line = some (t, lv, id, src, msg)) :
    Decomposes line t lv id src msg := by
  unfold regexMatchLog lazyGroup greedyGroup at h
  obtain ⟨s1, e1, h⟩ := matchChar_some _ _ _ _ h
  obtain ⟨g1, s2, e2, p1, h⟩ := lazyStar_sound _ _ _ _ _ h
  obtain ⟨s3, e3, h⟩ := matchChar_some _ _ _ _ h
  obtain ⟨s4, e4, h⟩ := matchChar_some _ _ _ _ h
  obtain ⟨g2, s5, e5, p2, h⟩ := lazyStar_sound _ _ _ _ _ h
  obtain ⟨s6, e6, h⟩ := matchChar_some _ _ _ _ h
  obtain ⟨s7, e7, h⟩ := matchChar_some _ _ _ _ h
  obtain ⟨g3, s8, e8, n3, p3, h⟩ := greedyPlus_sound _ _ _ _ h
  obtain ⟨s9, e9, h⟩ := matchChar_some _ _ _ _ h
  obtain ⟨s10, e10, h⟩ := matchChar_some _ _ _ _ h
  obtain ⟨g4, s11, e11, p4, h⟩ := lazyStar_sound _ _ _ _ _ h
  obtain ⟨s12, e12, h⟩ := matchChar_some _ _ _ _ h
  obtain ⟨sp, s13, e13, psp, h⟩ := matchClass_some _ _ _ _ h
  obtain ⟨g5, s14, e14, p5, h⟩ := greedyStar_sound _ _ _ _ _ h
  simp only [List.reverse_nil, List.nil_append] at h
  cases s14 with
  | cons y ys => simp [matchEnd] at h
  | nil =>
    simp only [matchEnd, Option.some.injEq, Prod.mk.injEq] at h
    obtain ⟨rfl, rfl, rfl, rfl, rfl⟩ := h
    refine ⟨⟨sp, psp, ?_⟩, p1, p2, n3, p3, p4, p5⟩
    subst e14 e13 e12 e11 e10 e9 e8 e7 e6 e5 e4 e3 e2 e1
    simp

/-- Every line that has a decomposition is matched. -/
theorem regexMatchLog_complete (line t lv id src msg : List Char)
    (h : Decomposes line t lv id src msg) : (regexMatchLog line).isSome = true := by
  obtain ⟨⟨sp, hsp, rfl⟩, p1, p2, n3, p3, p4, p5⟩ := h
  unfold regexMatchLog lazyGroup greedyGroup
  simp only [matchChar, if_true]
  apply lazyStar_complete _ _ t _ [] p1
  simp only [List.reverse_nil, List.nil_append, matchChar, if_true]
  apply lazyStar_complete _ _ lv _ [] p2
  simp only [List.reverse_nil, List.nil_append, matchChar, if_true]
  apply greedyPlus_complete _ _ id _ n3 p3
  simp only [matchChar, if_true]
  apply lazyStar_complete _ _ src _ [] p4
  simp only [List.reverse_nil, List.nil_append, matchChar, if_true, matchClass, hsp]
  have := greedyStar_complete isDot
    (fun g₅ => matchEnd (t, lv, id, src, g₅)) msg [] [] p5 (by simp [matchEnd])
  simpa using this

theorem regexMatchLog_iff (line : List Char) :
    (regexMatchLog line).isSome = true ↔ MatchesGrammar line := by
  constructor
  · intro h
    obtain ⟨⟨t, lv, id, src, msg⟩, hr⟩ := Option.isSome_iff_exists.mp h
    exact ⟨t, lv, id, src, msg, regexMatchLog_sound _ _ _ _ _ _ hr⟩
  · rintro ⟨t, lv, id, src, msg, hd⟩
    exact regexMatchLog_complete _ _ _ _ _ _ hd

theorem stoi_digits (id : List Char) (hd : ∀ c ∈ id, isDigit c = true) :
    stoi id = if digitsValue 0 id > 2147483647 then
        Except.error (Exception.out_of_range "stoi argument out of range")
      else Except.ok (digitsValue 0 id : Int) := by
  have h := scanDigits_append id [] 0 hd
  rw [List.append_nil] at h
  unfold stoi
  rw [h]
  rfl

theorem StringToLogLevel_unknown (t : String)
    (ht : t ∉ ["DEBUG", "INFO", "WARN", "ERROR", "FATAL"]) :
    LogLevelHelper.StringToLogLevel t =
      Except.error (Exception.invalid_argument ("Unknown log level string provided: " ++ t)) := by
  simp only [List.mem_cons, List.mem_singleton, List.not_mem_nil, or_false, not_or] at ht
  obtain ⟨h1, h2, h3, h4, h5⟩ := ht
  unfold LogLevelHelper.StringToLogLevel
  rw [if_neg h1, if_neg h2, if_neg h3, if_neg h4, if_neg h5]

theorem StringToLogLevel_known (t : String)
    (ht : t ∈ ["DEBUG", "INFO", "WARN", "ERROR", "FATAL"]) :
    ∃ l, LogLevelHelper.StringToLogLevel t = Except.ok l ∧
      LogLevelHelper.logLevelToString l = t := by
  simp only [List.mem_cons, List.mem_singleton, List.not_mem_nil, or_false] at ht
  rcases ht with rfl | rfl | rfl | rfl | rfl
  · exact ⟨_, rfl, rfl⟩
  · exact ⟨_, rfl, rfl⟩
  · exact ⟨_, rfl, rfl⟩
  · exact ⟨_, rfl, rfl⟩
  · exact ⟨_, rfl, rfl⟩

/-- C14, as stated, fails: the line `[12:00:00.000][INFO][2147483648](app) x` matches the
grammar and its level token is `INFO`, but the id does not fit the `int` the record holds;
`std::stoi` throws `out_of_range` and no record is returned. -/
theorem parse_acceptance_counterexample :
    MatchesGrammar "[12:00:00.000][INFO][2147483648](app) x".data ∧
    regexMatchLog "[12:00:00.000][INFO][2147483648](app) x".data =
      some ("12:00:00.000".data, "INFO".data, "2147483648".data, "app".data, "x".data) ∧
    Log.parseFromString msvc64 0 "[12:00:00.000][INFO][2147483648](app) x" =
      Except.error (Exception.out_of_range "stoi argument out of range") := by
  refine ⟨⟨"12:00:00.000".data, "INFO".data, "2147483648".data, "app".data, "x".data,
    ⟨' ', by decide, by decide⟩, by decide, by decide, by decide, by decide, by decide,
    by decide⟩, by decide, rfl⟩

/-- C14, amended. For every input line: when the whole line does not match the grammar
`\[(time)\]\[(level)\]\[(id)\]\((source)\)\s(message)` (id a non-empty digit string, message
the possibly empty remainder, no line terminator in a field), `parseFromString` fails with
`invalid_argument` carrying `Invalid log format: ` and the line, and returns no record; when
it matches, the pattern captures a decomposition of the line, and if the captured id is at
most 2147483647 and the captured level token is one of `DEBUG`, `INFO`, `WARN`, `ERROR`,
`FATAL`, a record with that level, id, source and message is returned. A captured id above
2147483647 gives `out_of_range`, an unknown level token (with an id in range) gives
`invalid_argument`; a record is returned for no other line. -/
theorem parse_acceptance (P : Platform) (now : Int) (line : String) :
    (¬ MatchesGrammar line.data →
      Log.parseFromString P now line =
        Except.error (Exception.invalid_argument ("Invalid log format: " ++ line))) ∧
    (MatchesGrammar line.data →
      ∃ t lv id src msg, regexMatchLog line.data = some (t, lv, id, src, msg) ∧
        Decomposes line.data t lv id src msg ∧
        (digitsValue 0 id ≤ 2147483647 →
          String.mk lv ∈ ["DEBUG", "INFO", "WARN", "ERROR", "FATAL"] →
          ∃ r, Log.parseFromString P now line = Except.ok r ∧
            LogLevelHelper.logLevelToString r.m_Level = String.mk lv ∧
            r.m_SubSystemId = digitsValue 0 id ∧ r.m_Source = String.mk src ∧
            r.m_Message = String.mk msg) ∧
        (digitsValue 0 id > 2147483647 →
          Log.parseFromString P now line =
            Except.error (Exception.out_of_range "stoi argument out of range")) ∧
        (digitsValue 0 id ≤ 2147483647 →
          String.mk lv ∉ ["DEBUG", "INFO", "WARN", "ERROR", "FATAL"] →
          Log.parseFromString P now line =
            Except.error (Exception.invalid_argument
              ("Unknown log level string provided: " ++ String.mk lv)))) ∧
    ((∃ r, Log.parseFromString P now line = Except.ok r) → MatchesGrammar line.data) := by
  have hnone : regexMatchLog line.data = none →
      Log.parseFromString P now line =
        Except.error (Exception.invalid_argument ("Invalid log format: " ++ line)) := by
    intro h
    unfold Log.parseFromString
    rw [h]
  have hno : ¬ MatchesGrammar line.data →
      Log.parseFromString P now line =
        Except.error (Exception.invalid_argument ("Invalid log format: " ++ line)) := by
    intro hm
    apply hnone
    cases hr : regexMatchLog line.data with
    | none => rfl
    | some caps =>
      exact absurd ((regexMatchLog_iff line.data).mp (by rw [hr]; rfl)) hm
  refine ⟨hno, ?_, ?_⟩
  · intro hm
    have hs := (regexMatchLog_iff line.data).mpr hm
    obtain ⟨⟨t, lv, id, src, msg⟩, hr⟩ := Option.isSome_iff_exists.mp hs
    have hd := regexMatchLog_sound _ _ _ _ _ _ hr
    have hst := stoi_digits id hd.2.2.2.2.1
    refine ⟨t, lv, id, src, msg, hr, hd, ?_, ?_, ?_⟩
    · intro hid hlv
      rw [if_neg (by omega)] at hst
      obtain ⟨l, hl, hname⟩ := StringToLogLevel_known (String.mk lv) hlv
      unfold Log.parseFromString
      rw [hr]
      simp only [hst, hl]
      cases sscanfTime t with
      | none => exact ⟨_, rfl, hname, rfl, rfl, rfl⟩
      | some v =>
        obtain ⟨a, b, c, d⟩ := v
        exact ⟨_, rfl, hname, rfl, rfl, rfl⟩
    · intro hid
      rw [if_pos hid] at hst
      unfold Log.parseFromString
      rw [hr]
      simp only [hst]
    · intro hid hlv
      rw [if_neg (by omega)] at hst
      have hl := StringToLogLevel_unknown (String.mk lv) hlv
      unfold Log.parseFromString
      rw [hr]
      simp only [hst, hl]
  · rintro ⟨r, hr⟩
    by_contra hm
    rw [hno hm] at hr
    cases hr

/-- An instance of acceptance and rejection: a well-formed line is read as a record, a line
without the white-space character after the source is refused. -/
theorem parse_acceptance_witness :
    (∃ r, Log.parseFromString msvc64 0 "[12:00:00.000][WARN][42](db) slow query" =
      Except.ok r) ∧
    Log.parseFromString msvc64 0 "[12:00:00.000][WARN][42](db)slow" =
      Except.error (Exception.invalid_argument
        "Invalid log format: [12:00:00.000][WARN][42](db)slow") ∧
    MatchesGrammar "[12:00:00.000][WARN][42](db) slow query".data :=
  ⟨⟨_, rfl⟩, rfl,
    (parse_acceptance msvc64 0 "[12:00:00.000][WARN][42](db) slow query").2.2 ⟨_, rfl⟩⟩

/-! ## The sink: order of the lines of the priority queue -/

namespace LogWriterThread

theorem processBatch_append (P : Platform) (w : LogWriterThread) (xs ys : List Log) :
    processBatch P w (xs ++ ys) = processBatch P (processBatch P w xs) ys := by
  unfold processBatch
  exact List.foldl_append _ _ _ _

theorem finalLog_latest (P : Platform) (w : LogWriterThread) (r : Log) :
    finalLog P w r = finalLog P (LogWriterThread.mk w.m_Latest []) r := rfl

/-- The lines a batch adds and the final `m_Latest` depend on `m_Latest` only. -/
theorem processBatch_written (P : Platform) (rs : List Log) (w : LogWriterThread) :
    (processBatch P w rs).written =
      w.written ++ (processBatch P (LogWriterThread.mk w.m_Latest []) rs).written ∧
    (processBatch P w rs).m_Latest =
      (processBatch P (LogWriterThread.mk w.m_Latest []) rs).m_Latest := by
  induction rs generalizing w with
  | nil => simp [processBatch]
  | cons r rs ih =>
    have h1 := ih (processLog P w r)
    have h2 := ih (processLog P (LogWriterThread.mk w.m_Latest []) r)
    have e : (processLog P (LogWriterThread.mk w.m_Latest []) r).m_Latest =
        (processLog P w r).m_Latest := rfl
    have e2 : (processLog P (LogWriterThread.mk w.m_Latest []) r).written =
        [finalLog P w r] := rfl
    have e3 : (processLog P w r).written = w.written ++ [finalLog P w r] := rfl
    show (processBatch P (processLog P w r) rs).written = _ ∧
      (processBatch P (processLog P w r) rs).m_Latest = _
    refine ⟨?_, ?_⟩
    · rw [h1.1]
      show _ = w.written ++
        (processBatch P (processLog P (LogWriterThread.mk w.m_Latest []) r) rs).written
      rw [h2.1, e, e2, e3]
      simp
    · rw [h1.2]
      show _ = (processBatch P (processLog P (LogWriterThread.mk w.m_Latest []) r) rs).m_Latest
      rw [h2.2, e]

end LogWriterThread

theorem toString_not_dlq (P : Platform) (r : Log) :
    hasDlqPrefix (r.toString P) = false ∧ hasDlqPrefix ("[BACKLOG]" ++ r.toString P) = false := by
  have hd : ∀ k, digitChar (k % 10) ≠ 'B' := by
    intro k
    have h := (digitChar_facts (k % 10) (Nat.mod_lt _ (by norm_num))).2.1
    intro he
    rw [he] at h
    exact absurd h (by decide)
  constructor
  · unfold hasDlqPrefix
    rw [toString_data]
    unfold Log.formatTimestamp
    simp only [twoDigits, List.cons_append]
    have := hd ((safe_localtime P (to_time_t P r.m_TimeStamp)).tm_hour.toNat / 10)
    simp [List.isPrefixOf, this]
  · unfold hasDlqPrefix
    rw [String.data_append]
    simp [List.isPrefixOf]

theorem dlq_line_tagged (s : String) : hasDlqPrefix ("[BACKLOG.DLQ]" ++ s) = true := by
  unfold hasDlqPrefix
  rw [String.data_append]
  simp [List.isPrefixOf]

theorem finalLog_not_dlq (P : Platform) (w : LogWriterThread) (r : Log) :
    hasDlqPrefix (LogWriterThread.finalLog P w r) = false := by
  unfold LogWriterThread.finalLog
  simp only []
  split
  · exact (toString_not_dlq P r).2
  · exact (toString_not_dlq P r).1

theorem nonDlqLines_append (xs ys : List String) :
    nonDlqLines (xs ++ ys) = nonDlqLines xs ++ nonDlqLines ys := by
  unfold nonDlqLines
  exact List.filter_append _ _

theorem nonDlqLines_processBatch (P : Platform) (rs : List Log) (w : LogWriterThread)
    (hw : w.written = []) :
    nonDlqLines (LogWriterThread.processBatch P w rs).written =
      (LogWriterThread.processBatch P w rs).written := by
  induction rs using List.reverseRecOn with
  | nil => show nonDlqLines w.written = w.written; rw [hw]; rfl
  | append_singleton rs r ih =>
    rw [LogWriterThread.processBatch_append]
    show nonDlqLines ((LogWriterThread.processBatch P w rs).written ++
      [LogWriterThread.finalLog P (LogWriterThread.processBatch P w rs) r]) = _
    rw [nonDlqLines_append, ih]
    show _ = (LogWriterThread.processBatch P w rs).written ++
      [LogWriterThread.finalLog P (LogWriterThread.processBatch P w rs) r]
    congr 1
    unfold nonDlqLines
    simp [finalLog_not_dlq]

namespace Pipeline

/-- The two kinds of writer step: the end of an iteration, or a step of the collection loop,
which leaves the batch alone or moves the top record of the priority queue to its end. -/
theorem writerStep_spec (P : Platform) (s : Pipeline) :
    (s.phase = WriterPhase.writing ∧
      (s.writerStep P).sunk = s.sunk ++ s.batch ∧ (s.writerStep P).batch = [] ∧
      (s.writerStep P).m_PriorityQueue = s.m_PriorityQueue ∧
      (s.writerStep P).writer =
        ((LogWriterThread.processBatch P s.writer s.batch).deadLetterStep P s.m_PriorityQueue
          s.m_DeadLetterQueue).1) ∨
    ((s.writerStep P).writer = s.writer ∧ (s.writerStep P).sunk = s.sunk ∧
      (((s.writerStep P).batch = s.batch ∧
          (s.writerStep P).m_PriorityQueue.m_Queue = s.m_PriorityQueue.m_Queue) ∨
        ∃ t rest, extractTop s.m_PriorityQueue.m_Queue = some (t, rest) ∧
          (s.writerStep P).batch = s.batch ++ [t] ∧
          (s.writerStep P).m_PriorityQueue.m_Queue = rest)) := by
  unfold writerStep
  cases hph : s.phase with
  | writing => exact Or.inl ⟨rfl, rfl, rfl, rfl, rfl⟩
  | collecting i =>
    right
    simp only []
    by_cases hi : i < LogWriterThread.BATCH_SIZE
    · rw [if_pos hi]
      unfold LogPriorityQueue.dequeue
      by_cases hw : (s.m_PriorityQueue.m_Queue.isEmpty && !s.m_PriorityQueue.m_StopFlag) = true
      · rw [if_pos hw]
        exact ⟨rfl, rfl, Or.inl ⟨rfl, rfl⟩⟩
      · rw [if_neg hw]
        cases hx : extractTop s.m_PriorityQueue.m_Queue with
        | none => exact ⟨rfl, rfl, Or.inl ⟨rfl, rfl⟩⟩
        | some p =>
          obtain ⟨t, rest⟩ := p
          exact ⟨rfl, rfl, Or.inr ⟨t, rest, rfl, rfl, rfl⟩⟩
    · rw [if_neg hi]
      exact ⟨rfl, rfl, Or.inl ⟨rfl, rfl⟩⟩

theorem deadLetterStep_writer (P : Platform) (w : LogWriterThread) (pq : LogPriorityQueue)
    (dlq : LogDLQueue) :
    (w.deadLetterStep P pq dlq).1.m_Latest = w.m_Latest ∧
    nonDlqLines (w.deadLetterStep P pq dlq).1.written = nonDlqLines w.written := by
  unfold LogWriterThread.deadLetterStep
  split
  · split
    · refine ⟨rfl, ?_⟩
      show nonDlqLines (w.written ++ _) = _
      rw [nonDlqLines_append]
      have : nonDlqLines ["[BACKLOG.DLQ]" ++ (dlq.dequeue P Log.blank).2.1.toString P] = [] := by
        unfold nonDlqLines
        simp [dlq_line_tagged]
      rw [this, List.append_nil]
    · exact ⟨rfl, rfl⟩
  · exact ⟨rfl, rfl⟩

/-- The lines without the dead-letter prefix are the lines of the records in `sunk`, as a
fresh writer produces them one after the other. -/
theorem link_step (P : Platform) (s : Pipeline) (e : PipelineEvent)
    (h : nonDlqLines s.writer.written =
        (LogWriterThread.processBatch P LogWriterThread.mk0 s.sunk).written ∧
      s.writer.m_Latest = (LogWriterThread.processBatch P LogWriterThread.mk0 s.sunk).m_Latest) :
    nonDlqLines (s.step P e).writer.written =
        (LogWriterThread.processBatch P LogWriterThread.mk0 (s.step P e).sunk).written ∧
      (s.step P e).writer.m_Latest =
        (LogWriterThread.processBatch P LogWriterThread.mk0 (s.step P e).sunk).m_Latest := by
  cases e with
  | offer log => exact h
  | divert log => exact h
  | shutdown => exact h
  | writerStep =>
    have hs : s.step P PipelineEvent.writerStep = s.writerStep P := rfl
    rw [hs]
    rcases writerStep_spec P s with ⟨-, h1, -, -, h2⟩ | ⟨h1, h2, -⟩
    · rw [h1, h2]
      obtain ⟨d1, d2⟩ := deadLetterStep_writer P (LogWriterThread.processBatch P s.writer s.batch)
        s.m_PriorityQueue s.m_DeadLetterQueue
      rw [d1, d2, LogWriterThread.processBatch_append]
      obtain ⟨a1, a2⟩ := LogWriterThread.processBatch_written P s.batch s.writer
      obtain ⟨b1, b2⟩ := LogWriterThread.processBatch_written P s.batch
        (LogWriterThread.processBatch P LogWriterThread.mk0 s.sunk)
      rw [a1, a2, b1, b2, nonDlqLines_append, h.1, h.2,
        nonDlqLines_processBatch P s.batch _ rfl]
      exact ⟨rfl, rfl⟩
    · rw [h1, h2]; exact h

theorem link_run (P : Platform) (events : List PipelineEvent) (s : Pipeline)
    (h : nonDlqLines s.writer.written =
        (LogWriterThread.processBatch P LogWriterThread.mk0 s.sunk).written ∧
      s.writer.m_Latest = (LogWriterThread.processBatch P LogWriterThread.mk0 s.sunk).m_Latest) :
    nonDlqLines (s.run P events).writer.written =
        (LogWriterThread.processBatch P LogWriterThread.mk0 (s.run P events).sunk).written ∧
      (s.run P events).writer.m_Latest =
        (LogWriterThread.processBatch P LogWriterThread.mk0 (s.run P events).sunk).m_Latest := by
  unfold run
  induction events generalizing s with
  | nil => exact h
  | cons e es ih => exact ih _ (link_step P s e h)

end Pipeline

namespace LogWriterThread

theorem finalLog_of_range (P : Platform) (w : LogWriterThread) (r : Log)
    (htick : 0 < P.ticksPerMs) (h1 : -(2 ^ 63) ≤ w.m_Latest - r.m_TimeStamp)
    (h2 : w.m_Latest - r.m_TimeStamp < 2 ^ 63) :
    finalLog P w r =
      (if w.m_Latest - r.m_TimeStamp ≥ 201 * P.ticksPerMs then "[BACKLOG]" ++ r.toString P
       else r.toString P) := by
  have hk : (0 : Int) < (P.ticksPerMs : Int) := by exact_mod_cast htick
  unfold finalLog toMilliseconds BACKLOG_THRESHOLD Log.getTimestamp
  simp only []
  rw [wrapInt64_of_range h1 h2]
  have := @tdiv_gt_iff (w.m_Latest - r.m_TimeStamp) P.ticksPerMs 200 hk (by norm_num)
  by_cases hc : Int.tdiv (w.m_Latest - r.m_TimeStamp) P.ticksPerMs > 200
  · rw [if_pos hc, if_pos (by have := this.mp hc; omega)]
  · rw [if_neg hc, if_neg (by intro h; exact hc (this.mpr (by omega)))]

theorem finalLog_cases (P : Platform) (w : LogWriterThread) (r : Log) :
    finalLog P w r = r.toString P ∨ finalLog P w r = "[BACKLOG]" ++ r.toString P := by
  unfold finalLog
  simp only []
  split
  · exact Or.inr rfl
  · exact Or.inl rfl

theorem plain_ne_tagged (s : String) : s ≠ "[BACKLOG]" ++ s := by
  intro he
  have := congrArg String.length he
  rw [String.length_append] at this
  have h9 : "[BACKLOG]".length = 9 := by decide
  omega

/-- The lines a fresh writer produces for a sequence of records with timestamps from the epoch
on: one line per record, and a record's line is tagged exactly when some record before it is
stamped at least 201 ms later (the first record apart, whose tag depends on the initial
`m_Latest`). -/
theorem processBatch_tags (P : Platform) (htick : 0 < P.ticksPerMs) (rs : List Log)
    (hr : ∀ r ∈ rs, 0 ≤ r.m_TimeStamp ∧ r.m_TimeStamp < 2 ^ 62) :
    (processBatch P mk0 rs).written.length = rs.length ∧
    (rs ≠ [] → 0 ≤ (processBatch P mk0 rs).m_Latest ∧ (processBatch P mk0 rs).m_Latest < 2 ^ 62 ∧
      ∀ r ∈ rs, r.m_TimeStamp ≤ (processBatch P mk0 rs).m_Latest) ∧
    ∀ (j : Nat) (r : Log), rs[j]? = some r →
      ∃ line, (processBatch P mk0 rs).written[j]? = some line ∧
      (line = r.toString P ∨ line = "[BACKLOG]" ++ r.toString P) ∧
      (line = r.toString P → ∀ (i : Nat) (r₀ : Log), i < j → rs[i]? = some r₀ →
        r₀.m_TimeStamp - r.m_TimeStamp < 201 * P.ticksPerMs) ∧
      (∀ (i : Nat) (r₀ : Log), i < j → rs[i]? = some r₀ →
        r₀.m_TimeStamp - r.m_TimeStamp ≥ 201 * P.ticksPerMs →
        line = "[BACKLOG]" ++ r.toString P) := by
  induction rs using List.reverseRecOn with
  | nil =>
    refine ⟨rfl, fun h => absurd rfl h, ?_⟩
    intro j r h
    simp at h
  | append_singleton rs r ih =>
    obtain ⟨ih1, ih2, ih3⟩ := ih (fun x hx => hr x (List.mem_append_left _ hx))
    obtain ⟨hr0, hr1⟩ := hr r (by simp)
    have hw : processBatch P mk0 (rs ++ [r]) = processLog P (processBatch P mk0 rs) r := by
      rw [processBatch_append]; rfl
    have hwr : (processBatch P mk0 (rs ++ [r])).written =
        (processBatch P mk0 rs).written ++ [finalLog P (processBatch P mk0 rs) r] := by
      rw [hw]; rfl
    have hlat : (processBatch P mk0 (rs ++ [r])).m_Latest =
        if (processBatch P mk0 rs).m_Latest < r.m_TimeStamp then r.m_TimeStamp
        else (processBatch P mk0 rs).m_Latest := by
      rw [hw]; rfl
    refine ⟨?_, ?_, ?_⟩
    · rw [hwr]; simp [ih1]
    · intro _
      by_cases hnil : rs = []
      · subst hnil
        have h0 : (processBatch P mk0 ([] : List Log)).m_Latest = -(2 ^ 63) := rfl
        rw [hlat, h0, if_pos (by omega)]
        refine ⟨hr0, hr1, ?_⟩
        intro x hx
        simp only [List.nil_append, List.mem_singleton] at hx
        rw [hx]
      · obtain ⟨a, b, c⟩ := ih2 hnil
        rw [hlat]
        split
        · refine ⟨hr0, hr1, ?_⟩
          intro x hx
          rcases List.mem_append.mp hx with hx | hx
          · have := c x hx; omega
          · rw [List.mem_singleton.mp hx]
        · refine ⟨a, b, ?_⟩
          intro x hx
          rcases List.mem_append.mp hx with hx | hx
          · exact c x hx
          · rw [List.mem_singleton.mp hx]; omega
    · intro j x hj
      rw [hwr]
      by_cases hlt : j < rs.length
      · rw [List.getElem?_append_left hlt] at hj
        obtain ⟨line, l1, l2, l3, l4⟩ := ih3 j x hj
        refine ⟨line, ?_, l2, ?_, ?_⟩
        · rw [List.getElem?_append_left (by rw [ih1]; exact hlt)]; exact l1
        · intro hp i r₀ hi hi'
          rw [List.getElem?_append_left (by omega)] at hi'
          exact l3 hp i r₀ hi hi'
        · intro i r₀ hi hi' hge
          rw [List.getElem?_append_left (by omega)] at hi'
          exact l4 i r₀ hi hi' hge
      · have hge : rs.length ≤ j := by omega
        rw [List.getElem?_append_right hge] at hj
        have hj0 : j - rs.length = 0 := by
          by_contra hne
          rw [List.getElem?_eq_none (by simp; omega)] at hj
          cases hj
        have hjeq : j = rs.length := by omega
        rw [hj0] at hj
        have hx : x = r := by simpa using hj.symm
        subst hx hjeq
        refine ⟨finalLog P (processBatch P mk0 rs) x, ?_, finalLog_cases P _ x, ?_, ?_⟩
        · rw [List.getElem?_append_right (by rw [ih1]), ih1]
          simp
        · intro hp i r₀ hi hi'
          rw [List.getElem?_append_left hi] at hi'
          have hmem := List.getElem?_mem hi'
          have hne : rs ≠ [] := List.ne_nil_of_mem hmem
          obtain ⟨a, b, c⟩ := ih2 hne
          have hf := finalLog_of_range P (processBatch P mk0 rs) x htick (by omega) (by omega)
          rw [hf] at hp
          by_cases hc : (processBatch P mk0 rs).m_Latest - x.m_TimeStamp ≥ 201 * P.ticksPerMs
          · rw [if_pos hc] at hp
            exact absurd hp.symm (plain_ne_tagged _)
          · have := c r₀ hmem
            omega
        · intro i r₀ hi hi' hge'
          rw [List.getElem?_append_left hi] at hi'
          have hmem := List.getElem?_mem hi'
          have hne : rs ≠ [] := List.ne_nil_of_mem hmem
          obtain ⟨a, b, c⟩ := ih2 hne
          have hf := finalLog_of_range P (processBatch P mk0 rs) x htick (by omega) (by omega)
          rw [hf, if_pos (by have := c r₀ hmem; omega)]

end LogWriterThread

namespace Pipeline

theorem enqueue_queue (P : Platform) (q : LogPriorityQueue) (r : Log) :
    (q.enqueue P r).2.m_Queue = q.m_Queue ∨ (q.enqueue P r).2.m_Queue = q.m_Queue ++ [r] := by
  unfold LogPriorityQueue.enqueue LogPriorityQueue.enqueueInternal
  simp only []
  split
  · exact Or.inl rfl
  · split
    · exact Or.inl rfl
    · exact Or.inr rfl

/-- Every record in the priority queue, in the batch or already written was admitted. -/
theorem records_step (P : Platform) (Q : Log → Prop) (s : Pipeline) (e : PipelineEvent)
    (he : ∀ r, e = PipelineEvent.offer r → Q r)
    (h : (∀ r ∈ s.m_PriorityQueue.m_Queue, Q r) ∧ (∀ r ∈ s.batch, Q r) ∧ ∀ r ∈ s.sunk, Q r) :
    (∀ r ∈ (s.step P e).m_PriorityQueue.m_Queue, Q r) ∧ (∀ r ∈ (s.step P e).batch, Q r) ∧
      ∀ r ∈ (s.step P e).sunk, Q r := by
  obtain ⟨h1, h2, h3⟩ := h
  cases e with
  | offer log =>
    refine ⟨?_, h2, h3⟩
    intro r hr
    have hq : (s.step P (PipelineEvent.offer log)).m_PriorityQueue =
        (s.m_PriorityQueue.enqueue P log).2 := rfl
    rw [hq] at hr
    rcases enqueue_queue P s.m_PriorityQueue log with hq' | hq'
    · rw [hq'] at hr; exact h1 r hr
    · rw [hq'] at hr
      rcases List.mem_append.mp hr with hr | hr
      · exact h1 r hr
      · rw [List.mem_singleton.mp hr]; exact he log rfl
  | divert log => exact ⟨h1, h2, h3⟩
  | shutdown => exact ⟨h1, h2, h3⟩
  | writerStep =>
    have hs : s.step P PipelineEvent.writerStep = s.writerStep P := rfl
    rw [hs]
    rcases writerStep_spec P s with ⟨-, a, b, c, -⟩ | ⟨-, a, ⟨b, c⟩ | ⟨t, rest, hx, b, c⟩⟩
    · rw [a, b, c]
      refine ⟨h1, by simp, ?_⟩
      intro r hr
      rcases List.mem_append.mp hr with hr | hr
      · exact h3 r hr
      · exact h2 r hr
    · rw [a, b, c]; exact ⟨h1, h2, h3⟩
    · rw [a, b, c]
      obtain ⟨ht, -, hperm⟩ := extractTop_spec hx
      refine ⟨?_, ?_, h3⟩
      · intro r hr
        exact h1 r (hperm.symm.subset (List.mem_cons_of_mem _ hr))
      · intro r hr
        rcases List.mem_append.mp hr with hr | hr
        · exact h2 r hr
        · rw [List.mem_singleton.mp hr]; exact h1 t ht

theorem records_run (P : Platform) (Q : Log → Prop) (events : List PipelineEvent) (s : Pipeline)
    (he : ∀ r, PipelineEvent.offer r ∈ events → Q r)
    (h : (∀ r ∈ s.m_PriorityQueue.m_Queue, Q r) ∧ (∀ r ∈ s.batch, Q r) ∧ ∀ r ∈ s.sunk, Q r) :
    (∀ r ∈ (s.run P events).m_PriorityQueue.m_Queue, Q r) ∧
      (∀ r ∈ (s.run P events).batch, Q r) ∧ ∀ r ∈ (s.run P events).sunk, Q r := by
  unfold run
  induction events generalizing s with
  | nil => exact h
  | cons e es ih =>
    exact ih _ (fun r hr => he r (List.mem_cons_of_mem _ hr))
      (records_step P Q s e (fun r hr => he r (by rw [hr]; exact List.mem_cons_self _ _)) h)

/-- As long as nothing is admitted, the records taken so far are in timestamp order and none
of them is stamped later than a record still held. -/
theorem sorted_step (P : Platform) (s : Pipeline) (e : PipelineEvent)
    (he : ∀ r, e ≠ PipelineEvent.offer r)
    (h : (s.sunk ++ s.batch).Pairwise (fun a b => a.m_TimeStamp ≤ b.m_TimeStamp) ∧
      ∀ x ∈ s.sunk ++ s.batch, ∀ y ∈ s.m_PriorityQueue.m_Queue,
        x.m_TimeStamp ≤ y.m_TimeStamp) :
    ((s.step P e).sunk ++ (s.step P e).batch).Pairwise
        (fun a b => a.m_TimeStamp ≤ b.m_TimeStamp) ∧
      ∀ x ∈ (s.step P e).sunk ++ (s.step P e).batch,
        ∀ y ∈ (s.step P e).m_PriorityQueue.m_Queue, x.m_TimeStamp ≤ y.m_TimeStamp := by
  obtain ⟨h1, h2⟩ := h
  cases e with
  | offer log => exact absurd rfl (he log)
  | divert log => exact ⟨h1, h2⟩
  | shutdown => exact ⟨h1, h2⟩
  | writerStep =>
    have hs : s.step P PipelineEvent.writerStep = s.writerStep P := rfl
    rw [hs]
    rcases writerStep_spec P s with ⟨-, a, b, c, -⟩ | ⟨-, a, ⟨b, c⟩ | ⟨t, rest, hx, b, c⟩⟩
    · rw [a, b, c, List.append_nil]
      exact ⟨h1, h2⟩
    · rw [a, b, c]; exact ⟨h1, h2⟩
    · rw [a, b, c, ← List.append_assoc]
      obtain ⟨ht, hmin, hperm⟩ := extractTop_spec hx
      refine ⟨?_, ?_⟩
      · rw [List.pairwise_append]
        refine ⟨h1, List.pairwise_singleton _ _, ?_⟩
        intro x hx' y hy
        rw [List.mem_singleton.mp hy]
        exact h2 x hx' t ht
      · intro x hx' y hy
        have hy' : y ∈ s.m_PriorityQueue.m_Queue :=
          hperm.symm.subset (List.mem_cons_of_mem _ hy)
        rcases List.mem_append.mp hx' with hx' | hx'
        · exact h2 x hx' y hy'
        · rw [List.mem_singleton.mp hx']
          exact hmin y hy'

theorem sorted_run (P : Platform) (events : List PipelineEvent) (s : Pipeline)
    (he : ∀ r, PipelineEvent.offer r ∉ events)
    (h : (s.sunk ++ s.batch).Pairwise (fun a b => a.m_TimeStamp ≤ b.m_TimeStamp) ∧
      ∀ x ∈ s.sunk ++ s.batch, ∀ y ∈ s.m_PriorityQueue.m_Queue,
        x.m_TimeStamp ≤ y.m_TimeStamp) :
    ((s.run P events).sunk ++ (s.run P events).batch).Pairwise
        (fun a b => a.m_TimeStamp ≤ b.m_TimeStamp) ∧
      ∀ x ∈ (s.run P events).sunk ++ (s.run P events).batch,
        ∀ y ∈ (s.run P events).m_PriorityQueue.m_Queue, x.m_TimeStamp ≤ y.m_TimeStamp := by
  unfold run
  induction events generalizing s with
  | nil => exact h
  | cons e es ih =>
    exact ih _ (fun r hr => he r (List.mem_cons_of_mem _ hr))
      (sorted_step P s e (fun r hr => he r (by rw [hr]; exact List.mem_cons_self _ _)) h)

theorem run_append (P : Platform) (s : Pipeline) (xs ys : List PipelineEvent) :
    s.run P (xs ++ ys) = (s.run P xs).run P ys := by
  unfold run
  exact List.foldl_append _ _ _ _

end Pipeline

/-- C12, as stated, fails: a record admitted after a later-stamped record has been taken is
written after it. With records stamped 1 s, 0.5 s and 0.9 s, each admitted after the one
before was taken by the writer, the sink receives them in this order; the second is tagged
`[BACKLOG]`, the third (100 ms behind) is not, and both are stamped earlier than the first. -/
theorem sink_monotonicity_counterexample :
    ((Pipeline.mk0 1000 1).run msvc64
      [PipelineEvent.offer (sampleLog 10000000 "a"), PipelineEvent.writerStep,
        PipelineEvent.offer (sampleLog 5000000 "b"), PipelineEvent.writerStep,
        PipelineEvent.offer (sampleLog 9000000 "c"), PipelineEvent.writerStep,
        PipelineEvent.shutdown, PipelineEvent.writerStep,
        PipelineEvent.writerStep]).writer.written =
      ["[BACKLOG][00:00:01.000][INFO][7](app) a", "[BACKLOG][00:00:00.500][INFO][7](app) b",
        "[00:00:00.900][INFO][7](app) c"] ∧
    ((Pipeline.mk0 1000 1).run msvc64
      [PipelineEvent.offer (sampleLog 10000000 "a"), PipelineEvent.writerStep,
        PipelineEvent.offer (sampleLog 5000000 "b"), PipelineEvent.writerStep,
        PipelineEvent.offer (sampleLog 9000000 "c"), PipelineEvent.writerStep,
        PipelineEvent.shutdown, PipelineEvent.writerStep,
        PipelineEvent.writerStep]).sunk =
      [sampleLog 10000000 "a", sampleLog 5000000 "b", sampleLog 9000000 "c"] ∧
    (sampleLog 9000000 "c").m_TimeStamp < (sampleLog 10000000 "a").m_TimeStamp ∧
    hasDlqPrefix "[00:00:00.900][INFO][7](app) c" = false := by
  decide

/-- C12, amended. In every run of the pipeline from its start (any interleaving of `enqueue`
calls on the two queues, `shutdown` and steps of the writer thread) in which the admitted
records are stamped from the epoch on: the lines of the sink without the `[BACKLOG.DLQ]`
prefix correspond one to one, in order, to the records the writer took from the priority
queue, each of which was admitted; each such line is the rendering of its record, with or
without the prefix `[BACKLOG]`; a line without that prefix belongs to a record stamped less
than 201 ms before every record written before it, and a record stamped 201 ms or more
before one written earlier is tagged `[BACKLOG]`. If no record is admitted after the writer
has taken its first one, the records are written in non-decreasing timestamp order. -/
theorem sink_order (P : Platform) (cap mb : Nat) (events : List PipelineEvent)
    (htick : 0 < P.ticksPerMs)
    (hrange : ∀ r, PipelineEvent.offer r ∈ events →
      0 ≤ r.m_TimeStamp ∧ r.m_TimeStamp < 2 ^ 62) :
    (nonDlqLines ((Pipeline.mk0 cap mb).run P events).writer.written).length =
      ((Pipeline.mk0 cap mb).run P events).sunk.length ∧
    (∀ r ∈ ((Pipeline.mk0 cap mb).run P events).sunk, PipelineEvent.offer r ∈ events) ∧
    (∀ (j : Nat) (r : Log), ((Pipeline.mk0 cap mb).run P events).sunk[j]? = some r →
      ∃ line, (nonDlqLines ((Pipeline.mk0 cap mb).run P events).writer.written)[j]? =
          some line ∧
        (line = r.toString P ∨ line = "[BACKLOG]" ++ r.toString P) ∧
        (line = r.toString P → ∀ (i : Nat) (r₀ : Log), i < j →
          ((Pipeline.mk0 cap mb).run P events).sunk[i]? = some r₀ →
          r₀.m_TimeStamp - r.m_TimeStamp < 201 * P.ticksPerMs) ∧
        (∀ (i : Nat) (r₀ : Log), i < j →
          ((Pipeline.mk0 cap mb).run P events).sunk[i]? = some r₀ →
          r₀.m_TimeStamp - r.m_TimeStamp ≥ 201 * P.ticksPerMs →
          line = "[BACKLOG]" ++ r.toString P)) ∧
    (∀ pre post : List PipelineEvent, events = pre ++ post →
      (∀ r, PipelineEvent.offer r ∉ post) →
      ((Pipeline.mk0 cap mb).run P pre).sunk = [] →
      ((Pipeline.mk0 cap mb).run P pre).batch = [] →
      ((Pipeline.mk0 cap mb).run P events).sunk.Pairwise
        (fun a b => a.m_TimeStamp ≤ b.m_TimeStamp)) := by
  have hlink := Pipeline.link_run P events (Pipeline.mk0 cap mb) ⟨rfl, rfl⟩
  have hrec := Pipeline.records_run P (fun r => PipelineEvent.offer r ∈ events) events
    (Pipeline.mk0 cap mb) (fun r hr => hr)
    ⟨fun r hr => by simp [Pipeline.mk0, LogPriorityQueue.mk0] at hr,
      fun r hr => by simp [Pipeline.mk0] at hr, fun r hr => by simp [Pipeline.mk0] at hr⟩
  have hr : ∀ r ∈ ((Pipeline.mk0 cap mb).run P events).sunk,
      0 ≤ r.m_TimeStamp ∧ r.m_TimeStamp < 2 ^ 62 :=
    fun r h => hrange r (hrec.2.2 r h)
  obtain ⟨t1, -, t3⟩ := LogWriterThread.processBatch_tags P htick _ hr
  refine ⟨?_, hrec.2.2, ?_, ?_⟩
  · rw [hlink.1]; exact t1
  · rw [hlink.1]; exact t3
  · intro pre post he hpost hs hb
    have := Pipeline.sorted_run P post ((Pipeline.mk0 cap mb).run P pre) hpost
      ⟨by rw [hs, hb]; exact List.Pairwise.nil, by rw [hs, hb]; simp⟩
    rw [← Pipeline.run_append, ← he] at this
    exact (List.pairwise_append.mp this.1).1

/-- An instance: the run with records stamped 1 s, 0.5 s and 0.9 s admitted one after the
other; three lines for three records, and the second line carries the tag. -/
theorem sink_order_witness :
    (nonDlqLines ((Pipeline.mk0 1000 1).run msvc64
      [PipelineEvent.offer (sampleLog 10000000 "a"), PipelineEvent.writerStep,
        PipelineEvent.offer (sampleLog 5000000 "b"), PipelineEvent.writerStep,
        PipelineEvent.offer (sampleLog 9000000 "c"), PipelineEvent.writerStep,
        PipelineEvent.shutdown, PipelineEvent.writerStep,
        PipelineEvent.writerStep]).writer.written).length =
      ((Pipeline.mk0 1000 1).run msvc64
      [PipelineEvent.offer (sampleLog 10000000 "a"), PipelineEvent.writerStep,
        PipelineEvent.offer (sampleLog 5000000 "b"), PipelineEvent.writerStep,
        PipelineEvent.offer (sampleLog 9000000 "c"), PipelineEvent.writerStep,
        PipelineEvent.shutdown, PipelineEvent.writerStep,
        PipelineEvent.writerStep]).sunk.length :=
  (sink_order msvc64 1000 1
    [PipelineEvent.offer (sampleLog 10000000 "a"), PipelineEvent.writerStep,
      PipelineEvent.offer (sampleLog 5000000 "b"), PipelineEvent.writerStep,
      PipelineEvent.offer (sampleLog 9000000 "c"), PipelineEvent.writerStep,
      PipelineEvent.shutdown, PipelineEvent.writerStep, PipelineEvent.writerStep]
    (by decide)
    (by
      intro r hr
      simp only [List.mem_cons, List.mem_singleton, PipelineEvent.offer.injEq,
        List.not_mem_nil, or_false, reduceCtorEq, false_or] at hr
      rcases hr with rfl | rfl | rfl <;> decide)).1

/-! ## The dead-letter queue: `dequeue` -/

/-- C22. `LogDLQueue::dequeue` answers for every state, without waiting. On the empty queue it
returns `false` and leaves the queue, the byte counter and the output record as they are. On
a non-empty queue it returns `true` with the front (oldest) record, removes exactly that
record and subtracts its accounted size from the byte counter (a plain difference whenever
the counter is at least that size, as it is when it is the sum of the held sizes). -/
theorem dlq_dequeue_never_waits (P : Platform) (q : LogDLQueue) (out : Log) :
    (q.m_Queue = [] → q.dequeue P out = (false, out, q)) ∧
    (∀ front rest, q.m_Queue = front :: rest →
      q.dequeue P out = (true, front,
        LogDLQueue.mk rest (subSizeT q.m_CurrentSizeInBytes (computeLogSizeInBytes P front))
          q.m_MaxSizeInBytes) ∧
      (q.dequeue P out).2.2.size + 1 = q.size ∧
      (computeLogSizeInBytes P front ≤ q.m_CurrentSizeInBytes →
        q.m_CurrentSizeInBytes < 2 ^ 64 →
        (q.dequeue P out).2.2.m_CurrentSizeInBytes =
          q.m_CurrentSizeInBytes - computeLogSizeInBytes P front) ∧
      (q.m_CurrentSizeInBytes = totalSize P q.m_Queue → q.m_CurrentSizeInBytes < 2 ^ 64 →
        computeLogSizeInBytes P front ≤ q.m_CurrentSizeInBytes ∧
        (q.dequeue P out).2.2.m_CurrentSizeInBytes = totalSize P rest)) ∧
    ((q.dequeue P out).1 = true ↔ q.m_Queue ≠ []) := by
  refine ⟨?_, ?_, ?_⟩
  · intro h
    cases q with
    | mk l u c =>
      simp only at h
      subst h
      rfl
  · intro front rest h
    cases q with
    | mk l u c =>
      simp only at h
      subst h
      refine ⟨rfl, rfl, ?_, ?_⟩
      · intro hle hlt
        exact subSizeT_eq hle hlt
      · intro hacc hlt
        simp only at hacc hlt
        rw [totalSize_cons] at hacc
        refine ⟨by show computeLogSizeInBytes P front ≤ u; omega, ?_⟩
        show subSizeT u (computeLogSizeInBytes P front) = totalSize P rest
        rw [subSizeT_eq (by omega) hlt]
        omega
  · cases q with
    | mk l u c =>
      cases l with
      | nil => simp [LogDLQueue.dequeue]
      | cons a b => simp [LogDLQueue.dequeue]

/-- An instance: a queue holding one accounted record hands it out and is empty afterwards
with byte counter 0. -/
theorem dlq_dequeue_never_waits_witness :
    (LogDLQueue.mk [sampleLog 1 "a"] 142 1048576).dequeue msvc64 Log.blank =
      (true, sampleLog 1 "a", LogDLQueue.mk [] 0 1048576) ∧
    (LogDLQueue.mk [] 0 1048576).dequeue msvc64 (sampleLog 2 "b") =
      (false, sampleLog 2 "b", LogDLQueue.mk [] 0 1048576) := by
  have h := (dlq_dequeue_never_waits msvc64 (LogDLQueue.mk [sampleLog 1 "a"] 142 1048576)
    Log.blank).2.1 (sampleLog 1 "a") [] rfl
  have h0 := (dlq_dequeue_never_waits msvc64 (LogDLQueue.mk [] 0 1048576)
    (sampleLog 2 "b")).1 rfl
  exact ⟨by rw [h.1]; decide, h0⟩

/-! ## Batch admission and sequential admission -/

/-- C27. For both queues, for every state and every sequence `rs`, the state after
`enqueueBatch(rs)` (held records in their order, byte counter, all other members) is the
state after calling `enqueue` on each record of `rs` in order. A record that is refused
leaves the state as it was, so the batch with that record has the same effect as the batch
without it: the records after it are offered all the same. -/
theorem batch_equals_sequential (P : Platform) :
    (∀ (q : LogPriorityQueue) (rs : List Log),
      (q.enqueueBatch P rs).2 = rs.foldl (fun s r => (s.enqueue P r).2) q) ∧
    (∀ (q : LogDLQueue) (rs : List Log),
      (q.enqueueBatch P rs).2 = rs.foldl (fun s r => (s.enqueue P r).2) q) ∧
    (∀ (q : LogPriorityQueue) (rs : List Log),
      (q.enqueueBatch P rs).2 = q.run P (rs.map PQOp.enqueue)) ∧
    (∀ (q : LogDLQueue) (rs : List Log),
      (q.enqueueBatch P rs).2 = q.run P (rs.map DLQOp.enqueue)) ∧
    (∀ (q : LogPriorityQueue) (xs ys : List Log) (r : Log),
      (((q.enqueueBatch P xs).2).enqueue P r).1 = false →
      (q.enqueueBatch P (xs ++ r :: ys)).2 = (q.enqueueBatch P (xs ++ ys)).2) ∧
    (∀ (q : LogDLQueue) (xs ys : List Log) (r : Log),
      (((q.enqueueBatch P xs).2).enqueue P r).1 = false →
      (q.enqueueBatch P (xs ++ r :: ys)).2 = (q.enqueueBatch P (xs ++ ys)).2) := by
  refine ⟨fun _ _ => rfl, fun _ _ => rfl, ?_, ?_, ?_, ?_⟩
  · intro q rs
    show rs.foldl (fun s log => (LogPriorityQueue.enqueueInternal P s log).2) q = _
    unfold LogPriorityQueue.run
    rw [List.foldl_map]
    rfl
  · intro q rs
    show rs.foldl (fun s log => (LogDLQueue.enqueueInternal P s log).2) q = _
    unfold LogDLQueue.run
    rw [List.foldl_map]
    rfl
  · intro q xs ys r h
    show (xs ++ r :: ys).foldl (fun s log => (LogPriorityQueue.enqueueInternal P s log).2) q =
      (xs ++ ys).foldl (fun s log => (LogPriorityQueue.enqueueInternal P s log).2) q
    rw [List.foldl_append, List.foldl_append, List.foldl_cons]
    have hq : (LogPriorityQueue.enqueueInternal P
        (xs.foldl (fun s log => (LogPriorityQueue.enqueueInternal P s log).2) q) r).2 =
        xs.foldl (fun s log => (LogPriorityQueue.enqueueInternal P s log).2) q := by
      have h' : (LogPriorityQueue.enqueueInternal P
        (xs.foldl (fun s log => (LogPriorityQueue.enqueueInternal P s log).2) q) r).1 =
          false := h
      revert h'
      unfold LogPriorityQueue.enqueueInternal
      simp only []
      split
      · intro _; rfl
      · split
        · intro _; rfl
        · intro h'; cases h'
    rw [hq]
  · intro q xs ys r h
    show (xs ++ r :: ys).foldl (fun s log => (LogDLQueue.enqueueInternal P s log).2) q =
      (xs ++ ys).foldl (fun s log => (LogDLQueue.enqueueInternal P s log).2) q
    rw [List.foldl_append, List.foldl_append, List.foldl_cons]
    have h' : (LogDLQueue.enqueueInternal P
        (xs.foldl (fun s log => (LogDLQueue.enqueueInternal P s log).2) q) r).1 = false := h
    rw [(LogDLQueue.dlq_enqueueInternal_reject P _ r).2 h']

/-! ## The priority queue: batch removal -/

namespace LogPriorityQueue

theorem subSizeT_add_mod (a b : Nat) : (subSizeT a b + b) % SIZE_MOD = a % SIZE_MOD := by
  unfold subSizeT SIZE_MOD
  omega

/-- What the loop of `dequeueBatch` does: it moves the `min k n` records with the smallest
timestamps, in non-decreasing order, to the end of the output. -/
theorem dequeueBatchLoop_spec (P : Platform) (k : Nat) : ∀ (q : LogPriorityQueue)
    (out : List Log) (c : Nat), ∃ removed rest U,
      dequeueBatchLoop P k q out c =
        (c + removed.length, out ++ removed,
          LogPriorityQueue.mk rest q.m_StopFlag U q.m_MaxCapacityInBytes) ∧
      removed.length = min k q.m_Queue.length ∧
      removed.Pairwise (fun a b => a.m_TimeStamp ≤ b.m_TimeStamp) ∧
      (∀ a ∈ removed, ∀ b ∈ rest, a.m_TimeStamp ≤ b.m_TimeStamp) ∧
      q.m_Queue.Perm (removed ++ rest) ∧
      (U + totalSize P removed) % SIZE_MOD = q.m_CurrentSizeInBytes % SIZE_MOD ∧
      (q.m_CurrentSizeInBytes = totalSize P q.m_Queue → q.m_CurrentSizeInBytes < 2 ^ 64 →
        U = totalSize P rest) := by
  induction k with
  | zero =>
    intro q out c
    refine ⟨[], q.m_Queue, q.m_CurrentSizeInBytes, ?_, by simp, List.Pairwise.nil, by simp,
      by simp, by simp [totalSize], fun h _ => h⟩
    cases q
    simp [dequeueBatchLoop]
  | succ k ih =>
    intro q out c
    cases hx : extractTop q.m_Queue with
    | none =>
      have hnil : q.m_Queue = [] := extractTop_eq_none.mp hx
      refine ⟨[], [], q.m_CurrentSizeInBytes, ?_, by simp [hnil], List.Pairwise.nil, by simp,
        by simp [hnil], by simp [totalSize], ?_⟩
      · cases q
        simp only at hnil
        subst hnil
        simp [dequeueBatchLoop, extractTop]
      · intro h _
        rw [h, hnil]
    | some p =>
      obtain ⟨t, rest0⟩ := p
      obtain ⟨ht, hmin, hperm⟩ := extractTop_spec hx
      obtain ⟨removed, rest, U, e1, e2, e3, e4, e5, e6, e7⟩ :=
        ih { q with m_Queue := rest0,
                    m_CurrentSizeInBytes :=
                      subSizeT q.m_CurrentSizeInBytes (computeLogSizeInBytes P t) }
          (out ++ [t]) (c + 1)
      have hlen : q.m_Queue.length = rest0.length + 1 := by
        rw [hperm.length_eq]; rfl
      have hsub : ∀ b, b ∈ rest → b ∈ q.m_Queue := by
        intro b hb
        have : b ∈ removed ++ rest := List.mem_append_right _ hb
        exact hperm.symm.subset (List.mem_cons_of_mem _ (e5.symm.subset this))
      have hsub' : ∀ b, b ∈ removed → b ∈ q.m_Queue := by
        intro b hb
        have : b ∈ removed ++ rest := List.mem_append_left _ hb
        exact hperm.symm.subset (List.mem_cons_of_mem _ (e5.symm.subset this))
      refine ⟨t :: removed, rest, U, ?_, ?_, ?_, ?_, ?_, ?_, ?_⟩
      · show (match extractTop q.m_Queue with
          | none => (c, out, q)
          | some (t, rest) => dequeueBatchLoop P k
              { q with m_Queue := rest,
                       m_CurrentSizeInBytes :=
                         subSizeT q.m_CurrentSizeInBytes (computeLogSizeInBytes P t) }
              (out ++ [t]) (c + 1)) = _
        rw [hx]
        simp only []
        rw [e1]
        simp [Nat.add_assoc, Nat.add_comm 1]
      · simp only [List.length_cons, e2, hlen]
        simp only at e2 ⊢
        omega
      · rw [List.pairwise_cons]
        exact ⟨fun b hb => hmin b (hsub' b hb), e3⟩
      · intro a ha b hb
        rcases List.mem_cons.mp ha with rfl | ha
        · exact hmin b (hsub b hb)
        · exact e4 a ha b hb
      · exact hperm.trans (List.Perm.cons t e5)
      · rw [totalSize_cons]
        simp only at e6
        have := subSizeT_add_mod q.m_CurrentSizeInBytes (computeLogSizeInBytes P t)
        unfold SIZE_MOD at e6 this ⊢
        omega
      · intro hacc hlt
        have hst : computeLogSizeInBytes P t ≤ totalSize P q.m_Queue := size_le_totalSize P ht
        have htot : totalSize P q.m_Queue = computeLogSizeInBytes P t + totalSize P rest0 := by
          rw [totalSize_perm P hperm, totalSize_cons]
        apply e7
        · show subSizeT q.m_CurrentSizeInBytes (computeLogSizeInBytes P t) = totalSize P rest0
          rw [subSizeT_eq (by omega) hlt]
          omega
        · show subSizeT q.m_CurrentSizeInBytes (computeLogSizeInBytes P t) < 2 ^ 64
          rw [subSizeT_eq (by omega) hlt]
          omega

end LogPriorityQueue

/-- C25. On a buffer holding `n ≥ 1` records, or a shut-down buffer, `dequeueBatch(max)`
returns `count = min(max, n)`; it appends to the output exactly `count` records, in
non-decreasing timestamp order, none of them stamped later than a record left behind; the
other `n - count` records stay in the buffer, and the byte counter is decreased by the sum
of the accounted sizes of the removed records (in `size_t` arithmetic; a plain difference
when the counter is the sum of the held sizes). On an empty buffer that is not shut down the
call waits. -/
theorem priority_batch_removal (P : Platform) (q : LogPriorityQueue) (out : List Log)
    (maxCount : Nat) (h : q.m_Queue ≠ [] ∨ q.m_StopFlag = true) :
    (∃ removed rest U,
      q.dequeueBatch P out maxCount = some (removed.length, out ++ removed,
        LogPriorityQueue.mk rest q.m_StopFlag U q.m_MaxCapacityInBytes) ∧
      removed.length = min maxCount q.size ∧
      removed.Pairwise (fun a b => a.m_TimeStamp ≤ b.m_TimeStamp) ∧
      (∀ a ∈ removed, ∀ b ∈ rest, a.m_TimeStamp ≤ b.m_TimeStamp) ∧
      q.m_Queue.Perm (removed ++ rest) ∧
      rest.length = q.size - min maxCount q.size ∧
      (U + totalSize P removed) % SIZE_MOD = q.m_CurrentSizeInBytes % SIZE_MOD ∧
      (q.m_CurrentSizeInBytes = totalSize P q.m_Queue → q.m_CurrentSizeInBytes < 2 ^ 64 →
        U = q.m_CurrentSizeInBytes - totalSize P removed ∧
        totalSize P removed ≤ q.m_CurrentSizeInBytes ∧ U = totalSize P rest)) ∧
    (∀ q₀ : LogPriorityQueue, q₀.m_Queue = [] → q₀.m_StopFlag = false →
      q₀.dequeueBatch P out maxCount = none) := by
  refine ⟨?_, ?_⟩
  · obtain ⟨removed, rest, U, e1, e2, e3, e4, e5, e6, e7⟩ :=
      LogPriorityQueue.dequeueBatchLoop_spec P maxCount q out 0
    refine ⟨removed, rest, U, ?_, e2, e3, e4, e5, ?_, e6, ?_⟩
    · unfold LogPriorityQueue.dequeueBatch
      have hc : (q.m_Queue.isEmpty && !q.m_StopFlag) = false := by
        rcases h with h | h
        · cases hq : q.m_Queue with
          | nil => exact absurd hq h
          | cons a b => rfl
        · rw [h]; simp
      rw [hc, e1]
      simp
    · have := e5.length_eq
      rw [List.length_append] at this
      show rest.length = q.m_Queue.length - min maxCount q.m_Queue.length
      omega
    · intro hacc hlt
      have hU := e7 hacc hlt
      have htot : totalSize P q.m_Queue = totalSize P removed + totalSize P rest := by
        rw [totalSize_perm P e5, totalSize_append]
      omega
  · intro q₀ h1 h2
    unfold LogPriorityQueue.dequeueBatch
    rw [h1, h2]
    rfl

/-- An instance: three records stamped 5, 3 and 4 ticks, two of them requested. -/
theorem priority_batch_removal_witness :
    (LogPriorityQueue.mk [sampleLog 5 "a", sampleLog 3 "b", sampleLog 4 "c"] false 426
        1000).dequeueBatch msvc64 [] 2 =
      some (2, [sampleLog 3 "b", sampleLog 4 "c"],
        LogPriorityQueue.mk [sampleLog 5 "a"] false 142 1000) ∧
    ∃ removed rest U,
      (LogPriorityQueue.mk [sampleLog 5 "a", sampleLog 3 "b", sampleLog 4 "c"] false 426
        1000).dequeueBatch msvc64 [] 2 = some (removed.length, [] ++ removed,
          LogPriorityQueue.mk rest false U 1000) ∧ removed.length = 2 :=
  ⟨by decide,
    (priority_batch_removal msvc64
      (LogPriorityQueue.mk [sampleLog 5 "a", sampleLog 3 "b", sampleLog 4 "c"] false 426 1000)
      [] 2 (Or.inl (by decide))).1.imp fun _ h => h.imp fun _ h => h.imp fun _ h =>
        ⟨h.1, h.2.1⟩⟩

/-! ## The drain worker: collecting a batch -/

namespace LogWriterThread

theorem collectLoop_eq (P : Platform) (k : Nat) : ∀ (q : LogPriorityQueue) (out : List Log)
    (c : Nat), (k ≤ q.m_Queue.length ∨ q.m_StopFlag = true) →
    collectLoop P k q out =
      some ((LogPriorityQueue.dequeueBatchLoop P k q out c).2.1,
        (LogPriorityQueue.dequeueBatchLoop P k q out c).2.2) := by
  induction k with
  | zero => intro q out c _; rfl
  | succ k ih =>
    intro q out c h
    have hc : (q.m_Queue.isEmpty && !q.m_StopFlag) = false := by
      rcases h with h | h
      · cases hq : q.m_Queue with
        | nil => rw [hq] at h; simp at h
        | cons a b => rfl
      · rw [h]; simp
    cases hx : extractTop q.m_Queue with
    | none =>
      have e1 : collectLoop P (k + 1) q out = some (out, q) := by
        simp only [collectLoop, LogPriorityQueue.dequeue, hc, hx]
        rfl
      have e2 : LogPriorityQueue.dequeueBatchLoop P (k + 1) q out c = (c, out, q) := by
        simp only [LogPriorityQueue.dequeueBatchLoop, hx]
      rw [e1, e2]
    | some p =>
      obtain ⟨t, rest0⟩ := p
      obtain ⟨-, -, hperm⟩ := extractTop_spec hx
      have hlen : q.m_Queue.length = rest0.length + 1 := by
        rw [hperm.length_eq]; rfl
      have e1 : collectLoop P (k + 1) q out =
          collectLoop P k { q with m_Queue := rest0,
                                   m_CurrentSizeInBytes :=
                                     subSizeT q.m_CurrentSizeInBytes
                                       (computeLogSizeInBytes P t) } (out ++ [t]) := by
        simp only [collectLoop, LogPriorityQueue.dequeue, hc, hx]
        rfl
      have e2 : LogPriorityQueue.dequeueBatchLoop P (k + 1) q out c =
          LogPriorityQueue.dequeueBatchLoop P k
            { q with m_Queue := rest0,
                     m_CurrentSizeInBytes :=
                       subSizeT q.m_CurrentSizeInBytes (computeLogSizeInBytes P t) }
            (out ++ [t]) (c + 1) := by
        simp only [LogPriorityQueue.dequeueBatchLoop, hx]
      rw [e1, e2]
      apply ih
      rcases h with h | h
      · left
        show k ≤ rest0.length
        omega
      · right; exact h

theorem collectLoop_waits (P : Platform) (k : Nat) : ∀ (q : LogPriorityQueue) (out : List Log),
    q.m_Queue.length < k → q.m_StopFlag = false → collectLoop P k q out = none := by
  induction k with
  | zero => intro q out h _; omega
  | succ k ih =>
    intro q out h hs
    cases hx : extractTop q.m_Queue with
    | none =>
      have hnil : q.m_Queue = [] := extractTop_eq_none.mp hx
      simp [collectLoop, LogPriorityQueue.dequeue, hnil, hs]
    | some p =>
      obtain ⟨t, rest0⟩ := p
      obtain ⟨-, -, hperm⟩ := extractTop_spec hx
      have hlen : q.m_Queue.length = rest0.length + 1 := by
        rw [hperm.length_eq]; rfl
      have hc : (q.m_Queue.isEmpty && !q.m_StopFlag) = false := by
        cases hq : q.m_Queue with
        | nil => rw [hq] at hlen; simp at hlen
        | cons a b => rfl
      have e1 : collectLoop P (k + 1) q out =
          collectLoop P k { q with m_Queue := rest0,
                                   m_CurrentSizeInBytes :=
                                     subSizeT q.m_CurrentSizeInBytes
                                       (computeLogSizeInBytes P t) } (out ++ [t]) := by
        simp only [collectLoop, LogPriorityQueue.dequeue, hc, hx]
        rfl
      rw [e1]
      apply ih
      · show rest0.length < k
        omega
      · exact hs

end LogWriterThread

/-- C26. On a priority queue on which no call waits (at least 20 records held, or shut
down), the collection loop of the drain worker, up to 20 single `dequeue` calls stopping at the
first `false`, yields the same batch in the same order and leaves the same queue (held
records, byte counter and all other members) as one call `dequeueBatch(batch, 20)`, whose
result is the length of the batch, `min(20, n)`. With fewer than 20 records and no shutdown
the loop does not finish: one of its `dequeue` calls waits. -/
theorem drain_batch_eq_dequeueBatch (P : Platform) (q : LogPriorityQueue)
    (h : 20 ≤ q.size ∨ q.m_StopFlag = true) :
    (∃ batch q₁, LogWriterThread.collectBatch P q = some (batch, q₁) ∧
      q.dequeueBatch P [] 20 = some (batch.length, batch, q₁) ∧
      batch.length = min 20 q.size) ∧
    (∀ q₀ : LogPriorityQueue, q₀.size < 20 → q₀.m_StopFlag = false →
      LogWriterThread.collectBatch P q₀ = none) := by
  refine ⟨?_, fun q₀ h1 h2 => LogWriterThread.collectLoop_waits P 20 q₀ [] h1 h2⟩
  obtain ⟨removed, rest, U, e1, e2, -⟩ := LogPriorityQueue.dequeueBatchLoop_spec P 20 q [] 0
  have hcol := LogWriterThread.collectLoop_eq P 20 q [] 0 h
  have hc : (q.m_Queue.isEmpty && !q.m_StopFlag) = false := by
    rcases h with h | h
    · cases hq : q.m_Queue with
      | nil => unfold LogPriorityQueue.size at h; rw [hq] at h; simp at h
      | cons a b => rfl
    · rw [h]; simp
  refine ⟨removed, LogPriorityQueue.mk rest q.m_StopFlag U q.m_MaxCapacityInBytes, ?_, ?_, e2⟩
  · unfold LogWriterThread.collectBatch
    show LogWriterThread.collectLoop P 20 q [] = _
    rw [hcol, e1]
    simp
  · unfold LogPriorityQueue.dequeueBatch
    rw [hc, e1]
    simp

/-- An instance: a shut-down queue holding two records. -/
theorem drain_batch_eq_dequeueBatch_witness :
    ∃ batch q₁,
      LogWriterThread.collectBatch msvc64
        (LogPriorityQueue.mk [sampleLog 5 "a", sampleLog 3 "b"] true 284 1000) =
        some (batch, q₁) ∧
      (LogPriorityQueue.mk [sampleLog 5 "a", sampleLog 3 "b"] true 284 1000).dequeueBatch
        msvc64 [] 20 = some (batch.length, batch, q₁) ∧
      batch.length = min 20
        (LogPriorityQueue.mk [sampleLog 5 "a", sampleLog 3 "b"] true 284 1000).size :=
  (drain_batch_eq_dequeueBatch msvc64
    (LogPriorityQueue.mk [sampleLog 5 "a", sampleLog 3 "b"] true 284 1000) (Or.inr rfl)).1

/-! ## The reader worker: flushing the staged records -/

namespace MQReaderThreadWorker

end MQReaderThreadWorker

namespace Pipeline

/-- On an empty priority queue that is not shut down the writer stays in its `dequeue`
call. -/
theorem writerStep_waits (P : Platform) (s : Pipeline) (i : Nat)
    (hq : s.m_PriorityQueue.m_Queue = []) (hs : s.m_PriorityQueue.m_StopFlag = false)
    (hp : s.phase = WriterPhase.collecting i) (hi : i < LogWriterThread.BATCH_SIZE) :
    s.writerStep P = s := by
  unfold writerStep
  rw [hp]
  simp only [if_pos hi]
  unfold LogPriorityQueue.dequeue
  rw [hq, hs]
  rfl

theorem writer_waits_forever (P : Platform) (n : Nat) (s : Pipeline) (i : Nat)
    (hq : s.m_PriorityQueue.m_Queue = []) (hs : s.m_PriorityQueue.m_StopFlag = false)
    (hp : s.phase = WriterPhase.collecting i) (hi : i < LogWriterThread.BATCH_SIZE) :
    s.run P (List.replicate n PipelineEvent.writerStep) = s := by
  induction n with
  | zero => rfl
  | succ n ih =>
    unfold run at ih ⊢
    rw [List.replicate_succ, List.foldl_cons]
    show List.foldl (step P) (s.writerStep P) _ = s
    rw [writerStep_waits P s i hq hs hp hi]
    exact ih

end Pipeline

/-- C23 fails on the code. The statements with which `main` stops the program are
`readerPool.stopAll()` and `writer.stop()`; `shutdown()` of the priority queue is not among
them (and is called nowhere else). `writer.stop()` joins the writer thread, but on the empty
queue, not shut down, the writer stays in its `dequeue` call for any number of steps and does
not come back to the test of the stop request; only after `shutdown()` does the call return
`false`, so that the writer leaves the collection loop. -/
theorem supervisor_stop_without_shutdown :
    mainStopSequence = [SupervisorCall.readerPool_stopAll, SupervisorCall.writer_stop] ∧
    SupervisorCall.priorityQueue_shutdown ∉ mainStopSequence ∧
    (∀ n : Nat,
      (mainPipeline.run msvc64 (List.replicate n PipelineEvent.writerStep)).phase =
        WriterPhase.collecting 0 ∧
      (mainPipeline.run msvc64 (List.replicate n PipelineEvent.writerStep)).writer.written =
        []) ∧
    (mainPipeline.run msvc64 [PipelineEvent.shutdown, PipelineEvent.writerStep]).phase =
      WriterPhase.writing := by
  refine ⟨rfl, by decide, ?_, by decide⟩
  intro n
  rw [Pipeline.writer_waits_forever msvc64 n mainPipeline 0 rfl rfl rfl (by decide)]
  exact ⟨rfl, rfl⟩

/-! ## Lemmas on `double` rounding: exact thresholds -/

/-- The two cases of rounding to 53 bits: small numbers are kept; otherwise the number is
`q * 2 ^ (k + 1) + r` with a 53-bit `q`, and is rounded to `q` or `q + 1` times `2 ^ (k + 1)`
according to the position of `r` relative to the half `2 ^ k`. -/
theorem round53_shape (n : Nat) :
    (n < 2 ^ 53 ∧ round53 n = n) ∨
    ∃ k q r, 2 ^ 52 ≤ q ∧ q < 2 ^ 53 ∧ r < 2 * 2 ^ k ∧ n = q * (2 * 2 ^ k) + r ∧
      round53 n = (if r > 2 ^ k ∨ (r = 2 ^ k ∧ q % 2 = 1) then (q + 1) * (2 * 2 ^ k)
        else q * (2 * 2 ^ k)) := by
  obtain ⟨h1, h2⟩ := excessBits_spec n n (lt_two_pow_add n)
  by_cases hsh : excessBits n n = 0
  · left
    rw [hsh] at h1
    simp only [pow_zero, Nat.div_one] at h1
    exact ⟨h1, round53_of_lt h1⟩
  · right
    have h2' := h2 hsh
    obtain ⟨k, hk⟩ : ∃ k, excessBits n n = k + 1 := ⟨excessBits n n - 1, by omega⟩
    have hX : (2 : Nat) ^ (k + 1) = 2 * 2 ^ k := by rw [Nat.pow_succ, Nat.mul_comm]
    refine ⟨k, n / 2 ^ (k + 1), n % 2 ^ (k + 1), by rw [← hk]; exact h2', by rw [← hk]; exact h1,
      ?_, ?_, ?_⟩
    · rw [← hX]; exact Nat.mod_lt _ (Nat.two_pow_pos _)
    · rw [← hX, Nat.mul_comm]; exact (Nat.div_add_mod n _).symm
    · unfold round53
      simp only [hk, Nat.add_sub_cancel, hX]
      simp

/-- Rounding exceeds the threshold `0.6` (an odd 53-bit number at exponent 76) exactly from
the midpoint above it on. -/
theorem round53_gt_threshold (M : Nat) :
    round53 M > 5404319552844595 * 2 ^ 76 ↔ M ≥ 5404319552844595 * 2 ^ 76 + 2 ^ 75 := by
  rcases round53_shape M with ⟨h1, h2⟩ | ⟨k, q, r, hq1, hq2, hr, hM, hR⟩
  · rw [h2]
    constructor
    · intro h; omega
    · intro h; omega
  · have hlo : 2 ^ 52 * (2 * 2 ^ k) ≤ q * (2 * 2 ^ k) := Nat.mul_le_mul_right _ hq1
    have hhi : q * (2 * 2 ^ k) ≤ (2 ^ 53 - 1) * (2 * 2 ^ k) :=
      Nat.mul_le_mul_right _ (by omega)
    have hsucc : (q + 1) * (2 * 2 ^ k) = q * (2 * 2 ^ k) + 2 * 2 ^ k := by ring
    rw [hsucc] at hR
    have hRle : round53 M ≤ q * (2 * 2 ^ k) + 2 * 2 ^ k := by
      rw [hR]; split <;> omega
    have hRge : q * (2 * 2 ^ k) ≤ round53 M := by
      rw [hR]; split <;> omega
    rcases Nat.lt_trichotomy k 75 with hk | hk | hk
    · have hH : (2 : Nat) ^ k ≤ 2 ^ 74 := Nat.pow_le_pow_right (by norm_num) (by omega)
      generalize (2 : Nat) ^ k = H at *
      generalize q * (2 * H) = X at *
      constructor
      · intro h; omega
      · intro h; omega
    · subst hk
      generalize q * (2 * 2 ^ 75) = X at *
      rw [hR]
      have hX : X = q * 2 ^ 76 := by omega
      split
      · rename_i hup
        constructor
        · intro h; omega
        · intro h; omega
      · rename_i hdn
        have hrH : r ≤ 2 ^ 75 := by
          by_contra hc
          exact hdn (Or.inl (by omega))
        have hodd : r = 2 ^ 75 → q % 2 ≠ 1 := fun he ho => hdn (Or.inr ⟨he, ho⟩)
        constructor
        · intro h; omega
        · intro h
          by_cases he : r = 2 ^ 75
          · have := hodd he
            omega
          · omega
    · have hH : (2 : Nat) ^ 76 ≤ 2 ^ k := Nat.pow_le_pow_right (by norm_num) (by omega)
      generalize (2 : Nat) ^ k = H at *
      generalize q * (2 * H) = X at *
      constructor
      · intro h; omega
      · intro h; omega

/-- For capacities below `2 ^ 52` and a byte counter below `2 ^ 53` the `double` test of
`isOverloaded` is the exact comparison `used / capacity > 0.6`. -/
theorem isOverloaded_iff (q : LogPriorityQueue) (hcap : q.m_MaxCapacityInBytes < 2 ^ 52)
    (hused : q.m_CurrentSizeInBytes < 2 ^ 53) :
    q.isOverloaded = true ↔ 5 * q.m_CurrentSizeInBytes > 3 * q.m_MaxCapacityInBytes := by
  unfold LogPriorityQueue.isOverloaded LogPriorityQueue.usedBytes
    LogPriorityQueue.capacityBytes
  rw [round53_of_lt hused, round53_of_lt (show q.m_MaxCapacityInBytes < 2 ^ 53 by omega)]
  by_cases hb : q.m_MaxCapacityInBytes = 0
  · rw [if_pos hb, decide_eq_true_iff, hb]
    omega
  · rw [if_neg hb, decide_eq_true_iff]
    unfold LogPriorityQueue.doubleQuotient LogPriorityQueue.overloadThreshold
    rw [gt_iff_lt, ← gt_iff_lt, round53_gt_threshold]
    have hpos : 0 < q.m_MaxCapacityInBytes := Nat.pos_of_ne_zero hb
    have hdiv : ∀ C : Nat, C ≤ q.m_CurrentSizeInBytes * 2 ^ 128 / q.m_MaxCapacityInBytes ↔
        C * q.m_MaxCapacityInBytes ≤ q.m_CurrentSizeInBytes * 2 ^ 128 :=
      fun C => Nat.le_div_iff_mul_le hpos
    have hC := hdiv (10808639105689191 * 2 ^ 74)
    generalize q.m_CurrentSizeInBytes * 2 ^ 128 / q.m_MaxCapacityInBytes = N at hC ⊢
    generalize hs : (if q.m_CurrentSizeInBytes * 2 ^ 128 % q.m_MaxCapacityInBytes = 0 then 0
      else 1) = s
    have hs01 : s ≤ 1 := by
      rw [← hs]; split <;> omega
    constructor
    · intro h
      have : 10808639105689191 * 2 ^ 74 ≤ N := by omega
      have := hC.mp this
      omega
    · intro h
      have : 10808639105689191 * 2 ^ 74 ≤ N := hC.mpr (by omega)
      omega

/-- The product of `5 j` and the `double` `0.6` is rounded to `3 j` exactly. -/
theorem round53_three_fifths (j : Nat) (hj : j < 2 ^ 47) :
    round53 (5 * j * 5404319552844595) = 3 * j * 2 ^ 53 := by
  by_cases hj0 : j = 0
  · subst hj0; rfl
  have hn : 5 * j * 5404319552844595 = 3 * j * 2 ^ 53 - j := by omega
  rcases round53_shape (5 * j * 5404319552844595) with ⟨h1, -⟩ | ⟨k, q, r, hq1, hq2, hr, hM, hR⟩
  · omega
  · have hlo : 2 ^ 52 * (2 * 2 ^ k) ≤ q * (2 * 2 ^ k) := Nat.mul_le_mul_right _ hq1
    have hhi : q * (2 * 2 ^ k) ≤ (2 ^ 53 - 1) * (2 * 2 ^ k) :=
      Nat.mul_le_mul_right _ (by omega)
    have hk : k < 49 := by
      by_contra hc
      have hH : (2 : Nat) ^ 49 ≤ 2 ^ k := Nat.pow_le_pow_right (by norm_num) (by omega)
      omega
    have hE : (2 : Nat) ^ (52 - k) * 2 ^ k = 2 ^ 52 := by
      rw [← Nat.pow_add]
      congr 1
      omega
    have hKD : 3 * j * 2 ^ (52 - k) * (2 * 2 ^ k) = 3 * j * 2 ^ 53 := by
      calc 3 * j * 2 ^ (52 - k) * (2 * 2 ^ k) = 3 * j * 2 * (2 ^ (52 - k) * 2 ^ k) := by ring
        _ = 3 * j * 2 * 2 ^ 52 := by rw [hE]
        _ = 3 * j * 2 ^ 53 := by ring
    have hpos : 0 < (2 : Nat) ^ k := Nat.two_pow_pos k
    generalize 3 * j * 2 ^ (52 - k) = K at hKD
    generalize (2 : Nat) ^ k = H at *
    have hKq : K = q + 1 := by
      rcases Nat.lt_trichotomy K (q + 1) with hlt | heq | hgt
      · have := Nat.mul_le_mul_right (2 * H) (show K ≤ q by omega)
        omega
      · exact heq
      · have := Nat.mul_le_mul_right (2 * H) (show q + 2 ≤ K by omega)
        have h2 : (q + 2) * (2 * H) = q * (2 * H) + 2 * (2 * H) := by ring
        omega
    subst hKq
    have hsucc : (q + 1) * (2 * H) = q * (2 * H) + 2 * H := by ring
    rw [hR, if_pos (Or.inl (by omega)), hKD]

/-- For capacities below `2 ^ 49` and a byte counter below `2 ^ 53` the `double` test of the
soft eviction is the exact comparison `used > 0.6 * capacity`. -/
theorem soft_test_iff {cap used : Nat} (hcap : cap < 2 ^ 49) (hused : used < 2 ^ 53) :
    doubleOfSizeT used > sizeTimesDouble cap m_EvictionThresholdSoft ↔
      5 * used > 3 * cap := by
  unfold doubleOfSizeT sizeTimesDouble m_EvictionThresholdSoft
  rw [round53_of_lt hused, round53_of_lt (show cap < 2 ^ 53 by omega)]
  obtain ⟨b1, b2, -⟩ := round53_bounds (cap * 5404319552844595)
  rcases Nat.lt_trichotomy (5 * used) (3 * cap) with h | h | h
  · generalize round53 (cap * 5404319552844595) = R at *
    constructor
    · intro h'; omega
    · intro h'; omega
  · obtain ⟨j, hj⟩ : ∃ j, cap = 5 * j := ⟨cap / 5, by omega⟩
    have hu : used = 3 * j := by omega
    have hR := round53_three_fifths j (by omega)
    rw [hj, hu, hR]
    constructor
    · intro h'; omega
    · intro h'; omega
  · generalize round53 (cap * 5404319552844595) = R at *
    constructor
    · intro h'; omega
    · intro h'; omega

/-! ## The drain worker: the dead-letter statement -/

/-- C21. In an iteration of the writer, after the lines of the batch are written: when the
priority queue is not overloaded and the dead-letter queue holds a record, exactly the front
record is removed from the dead-letter queue (its size is subtracted from the byte counter)
and the line `"[BACKLOG.DLQ]"` followed by its rendering is written; when the priority queue
is overloaded or the dead-letter queue is empty, the dead-letter queue and the sink are left
as they are. At most one line is added, it carries the dead-letter prefix, and `m_Latest`
is not touched. For capacities below `2 ^ 52` and a byte counter below `2 ^ 53`,
"overloaded" is exactly `used_bytes / capacity_bytes > 0.6`. -/
theorem opportunistic_dlq_drain (P : Platform) (w : LogWriterThread) (pq : LogPriorityQueue)
    (dlq : LogDLQueue) :
    (pq.isOverloaded = false → ∀ front rest, dlq.m_Queue = front :: rest →
      w.deadLetterStep P pq dlq =
        (LogWriterThread.mk w.m_Latest
            (w.written ++ ["[BACKLOG.DLQ]" ++ front.toString P]),
          LogDLQueue.mk rest
            (subSizeT dlq.m_CurrentSizeInBytes (computeLogSizeInBytes P front))
            dlq.m_MaxSizeInBytes)) ∧
    (pq.isOverloaded = true ∨ dlq.m_Queue = [] → w.deadLetterStep P pq dlq = (w, dlq)) ∧
    ((w.deadLetterStep P pq dlq).1.written = w.written ∨
      ∃ line, (w.deadLetterStep P pq dlq).1.written = w.written ++ [line] ∧
        hasDlqPrefix line = true ∧
        (w.deadLetterStep P pq dlq).2.size + 1 = dlq.size) ∧
    (w.deadLetterStep P pq dlq).1.m_Latest = w.m_Latest ∧
    (pq.m_MaxCapacityInBytes < 2 ^ 52 → pq.m_CurrentSizeInBytes < 2 ^ 53 →
      (pq.isOverloaded = true ↔ 5 * pq.usedBytes > 3 * pq.capacityBytes)) ∧
    (∀ s : Pipeline, s.phase = WriterPhase.writing →
      (s.writerStep P).writer =
        ((LogWriterThread.processBatch P s.writer s.batch).deadLetterStep P s.m_PriorityQueue
          s.m_DeadLetterQueue).1 ∧
      (s.writerStep P).m_DeadLetterQueue =
        ((LogWriterThread.processBatch P s.writer s.batch).deadLetterStep P s.m_PriorityQueue
          s.m_DeadLetterQueue).2) := by
  have hyes : pq.isOverloaded = false → ∀ front rest, dlq.m_Queue = front :: rest →
      w.deadLetterStep P pq dlq =
        (LogWriterThread.mk w.m_Latest
            (w.written ++ ["[BACKLOG.DLQ]" ++ front.toString P]),
          LogDLQueue.mk rest
            (subSizeT dlq.m_CurrentSizeInBytes (computeLogSizeInBytes P front))
            dlq.m_MaxSizeInBytes) := by
    intro ho front rest hq
    cases dlq with
    | mk l u c =>
      simp only at hq
      subst hq
      unfold LogWriterThread.deadLetterStep
      rw [ho, if_pos (by simp [LogDLQueue.size])]
      have hd : (LogDLQueue.dequeue P (LogDLQueue.mk (front :: rest) u c) Log.blank).1 = true :=
        rfl
      rw [if_pos hd]
      rfl
  have hno : pq.isOverloaded = true ∨ dlq.m_Queue = [] →
      w.deadLetterStep P pq dlq = (w, dlq) := by
    intro h
    unfold LogWriterThread.deadLetterStep
    rcases h with h | h
    · rw [h]; rfl
    · have : dlq.size = 0 := by unfold LogDLQueue.size; rw [h]; rfl
      rw [this]
      simp
  refine ⟨hyes, hno, ?_, ?_, ?_, ?_⟩
  · cases ho : pq.isOverloaded with
    | true => left; rw [hno (Or.inl ho)]
    | false =>
      cases hq : dlq.m_Queue with
      | nil => left; rw [hno (Or.inr hq)]
      | cons front rest =>
        right
        rw [hyes ho front rest hq]
        refine ⟨_, rfl, dlq_line_tagged _, ?_⟩
        show rest.length + 1 = dlq.m_Queue.length
        rw [hq]; rfl
  · cases ho : pq.isOverloaded with
    | true => rw [hno (Or.inl ho)]
    | false =>
      cases hq : dlq.m_Queue with
      | nil => rw [hno (Or.inr hq)]
      | cons front rest => rw [hyes ho front rest hq]
  · intro h1 h2
    exact isOverloaded_iff pq h1 h2
  · intro s hs
    unfold Pipeline.writerStep
    rw [hs]
    exact ⟨rfl, rfl⟩

/-- An instance: an empty priority queue of 1000 bytes and a dead-letter queue holding one
record; the record is written with the dead-letter prefix and the queue is empty afterwards.
With 601 of 1000 bytes used the dead-letter queue is left alone. -/
theorem opportunistic_dlq_drain_witness :
    LogWriterThread.mk0.deadLetterStep msvc64 (LogPriorityQueue.mk0 1000)
        (LogDLQueue.mk [sampleLog 1 "d"] 142 1048576) =
      (LogWriterThread.mk (-(2 ^ 63)) ["[BACKLOG.DLQ][00:00:00.000][INFO][7](app) d"],
        LogDLQueue.mk [] 0 1048576) ∧
    LogWriterThread.mk0.deadLetterStep msvc64 (LogPriorityQueue.mk [] false 601 1000)
        (LogDLQueue.mk [sampleLog 1 "d"] 142 1048576) =
      (LogWriterThread.mk0, LogDLQueue.mk [sampleLog 1 "d"] 142 1048576) := by
  have h := opportunistic_dlq_drain msvc64 LogWriterThread.mk0 (LogPriorityQueue.mk0 1000)
    (LogDLQueue.mk [sampleLog 1 "d"] 142 1048576)
  have h' := opportunistic_dlq_drain msvc64 LogWriterThread.mk0
    (LogPriorityQueue.mk [] false 601 1000) (LogDLQueue.mk [sampleLog 1 "d"] 142 1048576)
  refine ⟨?_, h'.2.1 (Or.inl (by decide))⟩
  rw [h.1 (by decide) (sampleLog 1 "d") [] rfl]
  decide

/-! ## The dead-letter queue: the soft tier -/

namespace LogDLQueue

/-- The soft eviction loop removes the `min n len` front records and subtracts their sizes
from the byte counter (in `size_t` arithmetic). -/
theorem softEvictLoop_spec (P : Platform) (n : Nat) : ∀ q : LogDLQueue,
    (softEvictLoop P n q).m_Queue = q.m_Queue.drop (min n q.m_Queue.length) ∧
    ((softEvictLoop P n q).m_CurrentSizeInBytes +
        totalSize P (q.m_Queue.take (min n q.m_Queue.length))) % SIZE_MOD =
      q.m_CurrentSizeInBytes % SIZE_MOD ∧
    (softEvictLoop P n q).m_MaxSizeInBytes = q.m_MaxSizeInBytes := by
  induction n with
  | zero => intro q; simp [softEvictLoop, totalSize]
  | succ n ih =>
    intro q
    unfold softEvictLoop
    cases hq : q.m_Queue with
    | nil => simp [hq, totalSize]
    | cons front rest =>
      simp only []
      obtain ⟨h1, h2, h3⟩ := ih { q with
        m_CurrentSizeInBytes :=
          subSizeT q.m_CurrentSizeInBytes (computeLogSizeInBytes P front),
        m_Queue := rest }
      simp only at h1 h2 h3
      have hmin : min (n + 1) (front :: rest).length = min n rest.length + 1 := by
        simp only [List.length_cons]; omega
      rw [hmin, List.drop_succ_cons, List.take_succ_cons, totalSize_cons]
      refine ⟨h1, ?_, h3⟩
      have := LogPriorityQueue.subSizeT_add_mod q.m_CurrentSizeInBytes
        (computeLogSizeInBytes P front)
      unfold SIZE_MOD at h2 this ⊢
      omega

theorem totalSize_take_drop (P : Platform) (l : List Log) (k : Nat) :
    totalSize P (l.take k) + totalSize P (l.drop k) = totalSize P l := by
  rw [← totalSize_append, List.take_append_drop]

end LogDLQueue

/-- C24. For a dead-letter queue with capacity below `2 ^ 49` holding `n` records, and a
record of size `s ≤ capacity`: when `used_bytes > 0.6 x capacity` on entry, `enqueue` first
removes exactly the `min(10, n)` oldest records and subtracts their sizes from the byte
counter (a plain difference when the counter is the sum of the held sizes); when
`used_bytes ≤ 0.6 x capacity` the soft tier changes nothing. The hard test is then made on
the byte counter the soft tier has left, plus `s`, and the record is pushed behind what the
two tiers have left. -/
theorem dlq_soft_trickle (P : Platform) (q : LogDLQueue) (r : Log)
    (hcap : q.m_MaxSizeInBytes < 2 ^ 49) (hused : q.m_CurrentSizeInBytes < 2 ^ 53)
    (hfit : computeLogSizeInBytes P r ≤ q.m_MaxSizeInBytes) :
    (5 * q.m_CurrentSizeInBytes > 3 * q.m_MaxSizeInBytes →
      (LogDLQueue.softEvict P q).m_Queue = q.m_Queue.drop (min 10 q.size) ∧
      (LogDLQueue.softEvict P q).size = q.size - min 10 q.size ∧
      ((LogDLQueue.softEvict P q).m_CurrentSizeInBytes +
          totalSize P (q.m_Queue.take (min 10 q.size))) % SIZE_MOD =
        q.m_CurrentSizeInBytes % SIZE_MOD ∧
      (q.m_CurrentSizeInBytes = totalSize P q.m_Queue →
        totalSize P (q.m_Queue.take (min 10 q.size)) ≤ q.m_CurrentSizeInBytes ∧
        (LogDLQueue.softEvict P q).m_CurrentSizeInBytes =
          q.m_CurrentSizeInBytes - totalSize P (q.m_Queue.take (min 10 q.size)))) ∧
    (5 * q.m_CurrentSizeInBytes ≤ 3 * q.m_MaxSizeInBytes → LogDLQueue.softEvict P q = q) ∧
    (¬ doubleOfSizeT
          (addSizeT (LogDLQueue.softEvict P q).m_CurrentSizeInBytes
            (computeLogSizeInBytes P r)) >
        sizeTimesDouble q.m_MaxSizeInBytes m_EvictionThresholdHard →
      LogDLQueue.hardEvict P (LogDLQueue.softEvict P q) (computeLogSizeInBytes P r) =
        LogDLQueue.softEvict P q) ∧
    (doubleOfSizeT
          (addSizeT (LogDLQueue.softEvict P q).m_CurrentSizeInBytes
            (computeLogSizeInBytes P r)) >
        sizeTimesDouble q.m_MaxSizeInBytes m_EvictionThresholdHard →
      ∃ k, (LogDLQueue.hardEvict P (LogDLQueue.softEvict P q)
          (computeLogSizeInBytes P r)).m_Queue = (LogDLQueue.softEvict P q).m_Queue.drop k) ∧
    (q.enqueue P r).1 = true ∧
    (q.enqueue P r).2.m_Queue =
      (LogDLQueue.hardEvict P (LogDLQueue.softEvict P q)
        (computeLogSizeInBytes P r)).m_Queue ++ [r] ∧
    (q.enqueue P r).2.m_CurrentSizeInBytes =
      addSizeT (LogDLQueue.hardEvict P (LogDLQueue.softEvict P q)
        (computeLogSizeInBytes P r)).m_CurrentSizeInBytes (computeLogSizeInBytes P r) := by
  have htest := @soft_test_iff q.m_MaxSizeInBytes q.m_CurrentSizeInBytes hcap hused
  have hcapS : (LogDLQueue.softEvict P q).m_MaxSizeInBytes = q.m_MaxSizeInBytes :=
    (LogDLQueue.softEvict_queue P q).2
  refine ⟨?_, ?_, ?_, ?_, ?_⟩
  · intro h
    have hs : LogDLQueue.softEvict P q =
        LogDLQueue.softEvictLoop P (min 10 q.m_Queue.length) q := by
      unfold LogDLQueue.softEvict
      rw [if_pos (htest.mpr h)]
    obtain ⟨e1, e2, -⟩ := LogDLQueue.softEvictLoop_spec P (min 10 q.m_Queue.length) q
    have hmm : min (min 10 q.m_Queue.length) q.m_Queue.length = min 10 q.m_Queue.length := by
      omega
    rw [hmm] at e1 e2
    rw [hs]
    refine ⟨e1, ?_, e2, ?_⟩
    · show (LogDLQueue.softEvictLoop P (min 10 q.m_Queue.length) q).m_Queue.length =
        q.m_Queue.length - min 10 q.m_Queue.length
      rw [e1, List.length_drop]
    · intro hacc
      have hsum := LogDLQueue.totalSize_take_drop P q.m_Queue (min 10 q.m_Queue.length)
      have hnew := LogDLQueue.softEvictLoop_acc P (min 10 q.m_Queue.length) q hacc (by omega)
      rw [e1] at hnew
      refine ⟨?_, ?_⟩
      · show totalSize P (q.m_Queue.take (min 10 q.m_Queue.length)) ≤ _
        omega
      · show _ = q.m_CurrentSizeInBytes -
          totalSize P (q.m_Queue.take (min 10 q.m_Queue.length))
        omega
  · intro h
    unfold LogDLQueue.softEvict
    rw [if_neg (fun hc => by have := htest.mp hc; omega)]
  · intro h
    unfold LogDLQueue.hardEvict
    rw [hcapS, if_neg h]
  · intro _
    exact (LogDLQueue.hardEvict_queue P (LogDLQueue.softEvict P q) (computeLogSizeInBytes P r)).1
  · have hadm : (q.enqueueInternal P r).1 = true := by
      cases hb : (q.enqueueInternal P r).1 with
      | true => rfl
      | false =>
        have := (LogDLQueue.dlq_enqueueInternal_reject P q r).1.mp hb
        omega
    obtain ⟨a1, a2, -⟩ := LogDLQueue.dlq_enqueueInternal_admit P q r hadm
    exact ⟨hadm, a1, a2⟩

/-- An instance: capacity 1000, eleven records of 142 bytes account for 1562 bytes, above six
tenths of the capacity; the soft tier removes ten of them. With one record (142 bytes) it
removes none. -/
theorem dlq_soft_trickle_witness :
    (LogDLQueue.softEvict msvc64
      (LogDLQueue.mk (List.replicate 11 (sampleLog 1 "a")) 1562 1000)).size = 1 ∧
    LogDLQueue.softEvict msvc64 (LogDLQueue.mk [sampleLog 1 "a"] 142 1000) =
      LogDLQueue.mk [sampleLog 1 "a"] 142 1000 :=
  ⟨((dlq_soft_trickle msvc64 (LogDLQueue.mk (List.replicate 11 (sampleLog 1 "a")) 1562 1000)
      (sampleLog 2 "b") (by decide) (by decide) (by decide)).1 (by decide)).2.1,
    (dlq_soft_trickle msvc64 (LogDLQueue.mk [sampleLog 1 "a"] 142 1000)
      (sampleLog 2 "b") (by decide) (by decide) (by decide)).2.1 (by decide)⟩

/-! ## The dead-letter queue: accounting -/

namespace LogDLQueue

/-- The accounting invariant of the dead-letter queue is kept by `enqueueInternal`: the byte
counter is the sum of the held sizes and stays below 1.7 times the capacity. -/
theorem acc_enqueueInternal (P : Platform) (q : LogDLQueue) (r : Log)
    (hacc : q.m_CurrentSizeInBytes = totalSize P q.m_Queue)
    (hb : 10 * q.m_CurrentSizeInBytes ≤ 17 * q.m_MaxSizeInBytes)
    (hcap : q.m_MaxSizeInBytes < 2 ^ 49) :
    (q.enqueueInternal P r).2.m_CurrentSizeInBytes =
        totalSize P (q.enqueueInternal P r).2.m_Queue ∧
      10 * (q.enqueueInternal P r).2.m_CurrentSizeInBytes ≤
        17 * (q.enqueueInternal P r).2.m_MaxSizeInBytes ∧
      (q.enqueueInternal P r).2.m_MaxSizeInBytes = q.m_MaxSizeInBytes := by
  cases hadm : (q.enqueueInternal P r).1 with
  | false =>
    rw [(dlq_enqueueInternal_reject P q r).2 hadm]
    exact ⟨hacc, hb, rfl⟩
  | true =>
    have hfit : computeLogSizeInBytes P r ≤ q.m_MaxSizeInBytes := by
      by_contra hc
      have := (dlq_enqueueInternal_reject P q r).1.mpr (by omega)
      rw [hadm] at this
      cases this
    obtain ⟨a1, a2, a3⟩ := dlq_enqueueInternal_admit P q r hadm
    obtain ⟨s1, s2⟩ := softEvict_acc P q hacc (by omega)
    have hcapS : (softEvict P q).m_MaxSizeInBytes = q.m_MaxSizeInBytes :=
      (softEvict_queue P q).2
    obtain ⟨g1, g2⟩ := hardEvict_acc P (softEvict P q) (computeLogSizeInBytes P r) s1
      (by omega)
    have hbound : 10 * (hardEvict P (softEvict P q) (computeLogSizeInBytes P r)).m_CurrentSizeInBytes
        + 10 * computeLogSizeInBytes P r ≤ 17 * q.m_MaxSizeInBytes := by
      by_cases htest : doubleOfSizeT
          (addSizeT (softEvict P q).m_CurrentSizeInBytes (computeLogSizeInBytes P r)) >
          sizeTimesDouble (softEvict P q).m_MaxSizeInBytes m_EvictionThresholdHard
      · obtain ⟨k, -, k2, k3, -⟩ := hardEvict_fired P (softEvict P q)
          (computeLogSizeInBytes P r) s1 (by omega) htest
        have ht := @hard_target_le q.m_MaxSizeInBytes hcap
        rw [hcapS] at k3
        rw [k2]
        rcases k3 with k3 | k3
        · omega
        · rw [k3, totalSize_nil]; omega
      · have hsame : hardEvict P (softEvict P q) (computeLogSizeInBytes P r) =
            softEvict P q := by
          unfold hardEvict
          rw [if_neg htest]
        rw [hsame]
        have hadd : addSizeT (softEvict P q).m_CurrentSizeInBytes (computeLogSizeInBytes P r) =
            (softEvict P q).m_CurrentSizeInBytes + computeLogSizeInBytes P r :=
          addSizeT_eq (by omega)
        rw [hadd, hcapS] at htest
        by_contra hc
        exact htest (hard_trigger_of_gt hcap (by omega))
    have hadd : addSizeT
        (hardEvict P (softEvict P q) (computeLogSizeInBytes P r)).m_CurrentSizeInBytes
        (computeLogSizeInBytes P r) =
        (hardEvict P (softEvict P q) (computeLogSizeInBytes P r)).m_CurrentSizeInBytes +
          computeLogSizeInBytes P r := addSizeT_eq (by omega)
    rw [a2, a1, a3, hadd, totalSize_append, totalSize_cons, totalSize_nil, g1]
    exact ⟨by omega, by omega, rfl⟩

theorem acc_dequeueBatchLoop (P : Platform) (n : Nat) : ∀ (q : LogDLQueue) (out : List Log)
    (c : Nat), q.m_CurrentSizeInBytes = totalSize P q.m_Queue →
    q.m_CurrentSizeInBytes < 2 ^ 64 →
    (dequeueBatchLoop P n q out c).2.2.m_CurrentSizeInBytes =
        totalSize P (dequeueBatchLoop P n q out c).2.2.m_Queue ∧
      (dequeueBatchLoop P n q out c).2.2.m_CurrentSizeInBytes ≤ q.m_CurrentSizeInBytes ∧
      (dequeueBatchLoop P n q out c).2.2.m_MaxSizeInBytes = q.m_MaxSizeInBytes := by
  induction n with
  | zero => intro q out c h _; exact ⟨h, le_refl _, rfl⟩
  | succ n ih =>
    intro q out c hacc hlt
    unfold dequeueBatchLoop
    cases hq : q.m_Queue with
    | nil =>
      show q.m_CurrentSizeInBytes = totalSize P q.m_Queue ∧
        q.m_CurrentSizeInBytes ≤ q.m_CurrentSizeInBytes ∧ q.m_MaxSizeInBytes = q.m_MaxSizeInBytes
      exact ⟨hacc, le_refl _, rfl⟩
    | cons front rest =>
      simp only []
      rw [hq, totalSize_cons] at hacc
      have hsub := subSizeT_eq (show computeLogSizeInBytes P front ≤ q.m_CurrentSizeInBytes by
        omega) hlt
      obtain ⟨i1, i2, i3⟩ := ih
        { q with m_CurrentSizeInBytes :=
                   subSizeT q.m_CurrentSizeInBytes (computeLogSizeInBytes P front),
                 m_Queue := rest } (out ++ [front]) (c + 1)
        (by show subSizeT _ _ = totalSize P rest; rw [hsub]; omega)
        (by show subSizeT _ _ < 2 ^ 64; rw [hsub]; omega)
      refine ⟨i1, ?_, i3⟩
      have : subSizeT q.m_CurrentSizeInBytes (computeLogSizeInBytes P front) ≤
          q.m_CurrentSizeInBytes := by rw [hsub]; omega
      exact le_trans i2 this

/-- Every call keeps the accounting invariant. -/
theorem acc_step (P : Platform) (q : LogDLQueue) (op : DLQOp)
    (hacc : q.m_CurrentSizeInBytes = totalSize P q.m_Queue)
    (hb : 10 * q.m_CurrentSizeInBytes ≤ 17 * q.m_MaxSizeInBytes)
    (hcap : q.m_MaxSizeInBytes < 2 ^ 49) :
    (q.step P op).m_CurrentSizeInBytes = totalSize P (q.step P op).m_Queue ∧
      10 * (q.step P op).m_CurrentSizeInBytes ≤ 17 * (q.step P op).m_MaxSizeInBytes ∧
      (q.step P op).m_MaxSizeInBytes = q.m_MaxSizeInBytes := by
  cases op with
  | enqueue log => exact acc_enqueueInternal P q log hacc hb hcap
  | enqueueBatch logs =>
    show (logs.foldl (fun s log => (enqueueInternal P s log).2) q).m_CurrentSizeInBytes = _ ∧
      10 * (logs.foldl (fun s log => (enqueueInternal P s log).2) q).m_CurrentSizeInBytes ≤
        17 * (logs.foldl (fun s log => (enqueueInternal P s log).2) q).m_MaxSizeInBytes ∧
      (logs.foldl (fun s log => (enqueueInternal P s log).2) q).m_MaxSizeInBytes = _
    induction logs generalizing q with
    | nil => exact ⟨hacc, hb, rfl⟩
    | cons r rs ih =>
      obtain ⟨e1, e2, e3⟩ := acc_enqueueInternal P q r hacc hb hcap
      rw [List.foldl_cons]
      obtain ⟨f1, f2, f3⟩ := ih (enqueueInternal P q r).2 e1 e2 (by rw [e3]; exact hcap)
      exact ⟨f1, f2, by rw [f3, e3]⟩
  | dequeue =>
    show (q.dequeue P Log.blank).2.2.m_CurrentSizeInBytes = _ ∧ _
    cases q with
    | mk l u c =>
      cases l with
      | nil => exact ⟨hacc, hb, rfl⟩
      | cons front rest =>
        simp only at hacc hb hcap
        rw [totalSize_cons] at hacc
        have hsub := subSizeT_eq (show computeLogSizeInBytes P front ≤ u by omega)
          (show u < 2 ^ 64 by omega)
        show subSizeT u (computeLogSizeInBytes P front) = totalSize P rest ∧
          10 * subSizeT u (computeLogSizeInBytes P front) ≤ 17 * c ∧ c = c
        rw [hsub]
        exact ⟨by omega, by omega, rfl⟩
  | dequeueBatch maxCount =>
    obtain ⟨i1, i2, i3⟩ := acc_dequeueBatchLoop P maxCount q [] 0 hacc (by omega)
    show (dequeueBatchLoop P maxCount q [] 0).2.2.m_CurrentSizeInBytes = _ ∧
      10 * (dequeueBatchLoop P maxCount q [] 0).2.2.m_CurrentSizeInBytes ≤
        17 * (dequeueBatchLoop P maxCount q [] 0).2.2.m_MaxSizeInBytes ∧
      (dequeueBatchLoop P maxCount q [] 0).2.2.m_MaxSizeInBytes = _
    exact ⟨i1, by rw [i3]; omega, i3⟩
  | reset => exact ⟨rfl, by show 10 * 0 ≤ _; omega, rfl⟩

theorem acc_run (P : Platform) (ops : List DLQOp) (q : LogDLQueue)
    (hacc : q.m_CurrentSizeInBytes = totalSize P q.m_Queue)
    (hb : 10 * q.m_CurrentSizeInBytes ≤ 17 * q.m_MaxSizeInBytes)
    (hcap : q.m_MaxSizeInBytes < 2 ^ 49) :
    (q.run P ops).m_CurrentSizeInBytes = totalSize P (q.run P ops).m_Queue ∧
      10 * (q.run P ops).m_CurrentSizeInBytes ≤ 17 * (q.run P ops).m_MaxSizeInBytes ∧
      (q.run P ops).m_MaxSizeInBytes = q.m_MaxSizeInBytes := by
  unfold run
  induction ops generalizing q with
  | nil => exact ⟨hacc, hb, rfl⟩
  | cons op ops ih =>
    obtain ⟨e1, e2, e3⟩ := acc_step P q op hacc hb hcap
    rw [List.foldl_cons]
    obtain ⟨f1, f2, f3⟩ := ih (q.step P op) e1 e2 (by rw [e3]; exact hcap)
    exact ⟨f1, f2, by rw [f3, e3]⟩

theorem totalSize_take_le (P : Platform) (l : List Log) (k : Nat) :
    totalSize P (l.take k) ≤ totalSize P l := by
  have := totalSize_take_drop P l k
  omega

end LogDLQueue

/-- C29. In every state reached from the constructed dead-letter queue (capacity below
`2 ^ 49` bytes) by `enqueue`, `enqueueBatch`, `dequeue`, `dequeueBatch` and `reset`, the byte
counter is the sum of the accounted sizes of the records held. Hence the sizes of any number
of front records together do not exceed the counter, so that no subtraction in `dequeue`,
`dequeueBatch` or an eviction loop wraps below zero: `dequeue` and both eviction tiers of the
next `enqueue` leave the counter equal to the sum of what is left. The counter is 0 whenever
the queue is empty, and it stays below 1.7 times the capacity. -/
theorem dlq_accounting (P : Platform) (maxSizeInMB : Nat) (ops : List DLQOp)
    (hmb : maxSizeInMB < 2 ^ 29) :
    ((LogDLQueue.mk0 maxSizeInMB).run P ops).currentSizeInBytes =
      totalSize P ((LogDLQueue.mk0 maxSizeInMB).run P ops).m_Queue ∧
    (∀ k, totalSize P (((LogDLQueue.mk0 maxSizeInMB).run P ops).m_Queue.take k) ≤
      ((LogDLQueue.mk0 maxSizeInMB).run P ops).currentSizeInBytes) ∧
    (∀ front rest, ((LogDLQueue.mk0 maxSizeInMB).run P ops).m_Queue = front :: rest →
      computeLogSizeInBytes P front ≤
        ((LogDLQueue.mk0 maxSizeInMB).run P ops).currentSizeInBytes ∧
      subSizeT ((LogDLQueue.mk0 maxSizeInMB).run P ops).currentSizeInBytes
          (computeLogSizeInBytes P front) =
        ((LogDLQueue.mk0 maxSizeInMB).run P ops).currentSizeInBytes -
          computeLogSizeInBytes P front) ∧
    (∀ s : Nat,
      (LogDLQueue.softEvict P ((LogDLQueue.mk0 maxSizeInMB).run P ops)).m_CurrentSizeInBytes =
        totalSize P (LogDLQueue.softEvict P ((LogDLQueue.mk0 maxSizeInMB).run P ops)).m_Queue ∧
      (LogDLQueue.hardEvict P (LogDLQueue.softEvict P ((LogDLQueue.mk0 maxSizeInMB).run P ops))
          s).m_CurrentSizeInBytes =
        totalSize P (LogDLQueue.hardEvict P
          (LogDLQueue.softEvict P ((LogDLQueue.mk0 maxSizeInMB).run P ops)) s).m_Queue) ∧
    (((LogDLQueue.mk0 maxSizeInMB).run P ops).m_Queue = [] →
      ((LogDLQueue.mk0 maxSizeInMB).run P ops).currentSizeInBytes = 0) ∧
    (LogDLQueue.mk0 maxSizeInMB).currentSizeInBytes = 0 ∧
    10 * ((LogDLQueue.mk0 maxSizeInMB).run P ops).currentSizeInBytes ≤
      17 * (maxSizeInMB * 1024 * 1024) := by
  have hcap0 : (LogDLQueue.mk0 maxSizeInMB).m_MaxSizeInBytes = maxSizeInMB * 1024 * 1024 := by
    show (maxSizeInMB % SIZE_MOD * 1024 * 1024) % SIZE_MOD = _
    unfold SIZE_MOD
    omega
  obtain ⟨h1, h2, h3⟩ := LogDLQueue.acc_run P ops (LogDLQueue.mk0 maxSizeInMB) rfl
    (by show 10 * 0 ≤ _; omega) (by rw [hcap0]; omega)
  rw [hcap0] at h3
  rw [h3] at h2
  generalize (LogDLQueue.mk0 maxSizeInMB).run P ops = q at h1 h2 h3 ⊢
  unfold LogDLQueue.currentSizeInBytes
  have hlt : q.m_CurrentSizeInBytes < 2 ^ 64 := by omega
  refine ⟨h1, ?_, ?_, ?_, ?_, rfl, h2⟩
  · intro k
    rw [h1]
    exact LogDLQueue.totalSize_take_le P _ k
  · intro front rest hq
    have hle : computeLogSizeInBytes P front ≤ q.m_CurrentSizeInBytes := by
      rw [h1, hq, totalSize_cons]; omega
    exact ⟨hle, subSizeT_eq hle hlt⟩
  · intro s
    obtain ⟨s1, s2⟩ := LogDLQueue.softEvict_acc P q h1 hlt
    exact ⟨s1, (LogDLQueue.hardEvict_acc P (LogDLQueue.softEvict P q) s s1 (by omega)).1⟩
  · intro hq
    rw [h1, hq]; rfl

/-- An instance: a queue of 1 MiB after two admissions and one removal holds one record and
counts its 142 bytes. -/
theorem dlq_accounting_witness :
    ((LogDLQueue.mk0 1).run msvc64 [DLQOp.enqueue (sampleLog 1 "a"),
      DLQOp.enqueue (sampleLog 2 "b"), DLQOp.dequeue]).currentSizeInBytes =
      totalSize msvc64 ((LogDLQueue.mk0 1).run msvc64 [DLQOp.enqueue (sampleLog 1 "a"),
        DLQOp.enqueue (sampleLog 2 "b"), DLQOp.dequeue]).m_Queue ∧
    ((LogDLQueue.mk0 1).run msvc64 [DLQOp.enqueue (sampleLog 1 "a"),
      DLQOp.enqueue (sampleLog 2 "b"), DLQOp.dequeue]).currentSizeInBytes = 142 :=
  ⟨(dlq_accounting msvc64 1 [DLQOp.enqueue (sampleLog 1 "a"),
      DLQOp.enqueue (sampleLog 2 "b"), DLQOp.dequeue] (by norm_num)).1, by decide⟩

end CentralLogger
